import Mathlib

/-!
# Dinic's maximum-flow algorithm (`maxflow-3.c`)

A shallow embedding of `src/algorithms/graphs/max-flow/maxflow-3.c`.

* The C `double` capacities are modelled by exact arithmetic in an arbitrary
  linearly ordered commutative ring `R` (for instance `Int` or `Rat`).
* `INF` is `DBL_MAX`, whose exact value is the integer `2^1024 - 2^971`.
* Pointers into the node and edge arrays become indices into lists; the
  growth bookkeeping of the arrays (`edgeCap`, `adjCap`) is not modelled.
  Reading an index outside an array gives a default value (a node without
  edges and level `-1`, an edge of capacity `0`), writing there changes nothing;
  on the networks `buildGraph` makes from in-range triples no function reads or
  writes outside the arrays.
* Loops whose number of iterations is not syntactically bounded (`while` in
  `bfs`, the recursion of `dfs`, both loops of `dinic`) take a fuel argument
  and return `none` when the fuel runs out.
-/

namespace MaxFlow

set_option linter.unusedSectionVars false
set_option linter.unusedVariables false

section

variable {R : Type} [LinearOrderedCommRing R]

/-! ## Data structures -/

/-- An edge `from -> to` of the network (`struct edge`); `frm` and `to_` are the C fields `from` and `to`. -/
structure edge (R : Type) where
  frm : Nat
  to_ : Nat
  cap : R
  flow : R
  residual : Bool

/-- A node of the network (`struct node`); `nAdj` is the length of `adj`. -/
structure node where
  id : Nat
  adj : List Nat
  level : Int
  adjIdx : Nat
  deriving DecidableEq

/-- The flow network (`struct graph`); `nNodes` and `nEdges` are the lengths
of the two arrays. -/
structure graph (R : Type) where
  nodes : List node
  edges : List (edge R)
  maxFlow : R

/-- The circular buffer used by `bfs` (`struct queue`). -/
structure queue where
  front : Nat
  back : Nat
  size : Nat
  array : List Nat
  deriving DecidableEq

/-- The macro `MIN(a, b) ((a) < (b) ? (a) : (b))`. -/
def MIN (a b : R) : R := if a < b then a else b

/-- The macro `INF`, that is `DBL_MAX = 2^1024 - 2^971`. -/
def INF : R :=
  179769313486231570814527423731704356798070567525844996598917476803157260780028538760589558632766878171540458953514382464234321326889464182768467546703537516986049910576551282076245490090389328944075868508455133942304583236903222948165808559332123348274797826204144723168738177180919299881250404026184124858368

def graph.nNodes (G : graph R) : Nat := G.nodes.length

def graph.nEdges (G : graph R) : Nat := G.edges.length

def node.nAdj (n : node) : Nat := n.adj.length

/-- Reading `G->nodes[v]`. -/
def getNode (G : graph R) (v : Nat) : node := G.nodes.getD v ⟨0, [], -1, 0⟩

/-- Reading `G->edges[i]`. -/
def getEdge (G : graph R) (i : Nat) : edge R := G.edges.getD i ⟨0, 0, 0, 0, false⟩

/-- The assignment `G->nodes[v]->level = l`. -/
def setLevel (G : graph R) (v : Nat) (l : Int) : graph R :=
  { G with nodes := G.nodes.set v { getNode G v with level := l } }

/-- The assignment `G->nodes[v]->adjIdx = i`. -/
def setAdjIdx (G : graph R) (v : Nat) (i : Nat) : graph R :=
  { G with nodes := G.nodes.set v { getNode G v with adjIdx := i } }

/-- The assignment `G->edges[i]->cap = c`. -/
def setCap (G : graph R) (i : Nat) (c : R) : graph R :=
  { G with edges := G.edges.set i { getEdge G i with cap := c } }

/-- The assignment `G->edges[i]->flow = f`. -/
def setFlow (G : graph R) (i : Nat) (f : R) : graph R :=
  { G with edges := G.edges.set i { getEdge G i with flow := f } }

/-! ## Graph construction -/

/-- The node made by `newNode(id)`: level `-1`, empty adjacency list, and
`adjIdx = 0` from `calloc`. -/
def newNode (id : Nat) : node := ⟨id, [], -1, 0⟩

/-- The graph made by `newGraph(n)`. -/
def newGraph (n : Nat) : graph R := ⟨(List.range n).map newNode, [], 0⟩

/-- The function `loopReset`: every level becomes `-1`, every cursor `0`. -/
def loopReset (G : graph R) : graph R :=
  { G with nodes := G.nodes.map fun n => { n with level := -1, adjIdx := 0 } }

/-- The function `addEdge`: the new edge gets index `nEdges`, which is appended
to the adjacency list of `uId`. -/
def addEdge (G : graph R) (uId vId : Nat) (cap : R) (residual : Bool) : graph R :=
  { G with
    nodes := G.nodes.set uId { getNode G uId with adj := (getNode G uId).adj ++ [G.nEdges] }
    edges := G.edges ++ [⟨uId, vId, cap, 0, residual⟩] }

/-- The loop of `buildGraph`, over the triples `(u, v, cap)` read from the input. -/
def buildGraph (G : graph R) : List (Nat × Nat × R) → graph R
  | [] => G
  | (u, v, cap) :: rest =>
    buildGraph (addEdge (addEdge G u v cap false) v u 0 true) rest

/-! ## Queue -/

def isEmpty (Q : queue) : Bool := Q.front == Q.back

def newQueue (n : Nat) : queue := ⟨0, 0, n, List.replicate n 0⟩

/-- The function `doubleQueueSize`: the buffer is reallocated to twice its size
and the cells `0 .. back-1` are copied to `size .. size+back-1`. -/
def doubleQueueSize (Q : queue) : queue :=
  { front := Q.front
    back := Q.back + Q.size
    size := Q.size * 2
    array := (List.range Q.back).foldl (fun a i => a.set (i + Q.size) (a.getD i 0))
      (Q.array ++ List.replicate Q.size 0) }

def enqueue (Q : queue) (n : Nat) : queue :=
  let Q1 : queue := { Q with array := Q.array.set Q.back n, back := (Q.back + 1) % Q.size }
  if Q1.back = Q1.front then doubleQueueSize Q1 else Q1

/-- The function `dequeue`; `none` is the fatal error on an empty queue. -/
def dequeue (Q : queue) : Option (Nat × queue) :=
  if isEmpty Q then none
  else some (Q.array.getD Q.front 0, { Q with front := (Q.front + 1) % Q.size })

/-! ## Dinic -/

/-- The `for` loop of `bfs` over the adjacency list of node `n`. -/
def bfsEdges (n : Nat) : List Nat → graph R × queue → graph R × queue
  | [], st => st
  | eId :: rest, (G, q) =>
    let e := getEdge G eId
    let a := getNode G e.to_
    if 0 < e.cap ∧ a.level = -1 then
      bfsEdges n rest (setLevel G e.to_ ((getNode G n).level + 1), enqueue q a.id)
    else bfsEdges n rest (G, q)

/-- The `while (!isEmpty(q))` loop of `bfs`. -/
def bfsWhile : Nat → graph R → queue → Option (graph R)
  | 0, _, _ => none
  | fuel + 1, G, q =>
    if isEmpty q then some G
    else
      match dequeue q with
      | none => none
      | some (v, q1) =>
        let st := bfsEdges v (getNode G v).adj (G, q1)
        bfsWhile fuel st.1 st.2

/-- The function `bfs`: the result and the graph with the levels it assigned. -/
def bfs (fuel : Nat) (G : graph R) (s t : Nat) : Option (Bool × graph R) :=
  let q := enqueue (newQueue G.nNodes) s
  let G1 := setLevel G s 0
  match bfsWhile fuel G1 q with
  | none => none
  | some G2 => some ((getNode G2 t).level != -1, G2)

/-- The three assignments of `dfs` after a successful recursive call, in exact
arithmetic; `pushFlowD` is the same with each result rounded as a `double` is. -/
def pushFlow (G : graph R) (eId : Nat) (bneck : R) : graph R :=
  let G1 := setCap G eId ((getEdge G eId).cap - bneck)
  let G2 := setFlow G1 eId ((getEdge G1 eId).flow + bneck)
  setCap G2 (eId ^^^ 1) ((getEdge G2 (eId ^^^ 1)).cap + bneck)

/-- The `for` loop of `dfs` at node `s`, from index `i`, with `k` the number of
indices left (`nAdj - i`); `call` is the recursive call of `dfs`. -/
def dfsLoop (call : graph R → Nat → R → Option (R × graph R)) (s : Nat) (flow : R) :
    Nat → Nat → graph R → Option (R × graph R)
  | 0, _, G => some (0, G)
  | k + 1, i, G =>
    let G1 := setAdjIdx G s i
    let eId := (getNode G1 s).adj.getD i 0
    let e := getEdge G1 eId
    if 0 < e.cap ∧ (getNode G1 e.to_).level = (getNode G1 s).level + 1 then
      match call G1 e.to_ (MIN flow e.cap) with
      | none => none
      | some (bneck, G2) =>
        if 0 < bneck then some (bneck, pushFlow G2 eId bneck)
        else dfsLoop call s flow k (i + 1) G2
    else dfsLoop call s flow k (i + 1) G1

/-- The function `dfs`: the amount pushed and the graph after the call. -/
def dfs : Nat → graph R → Nat → Nat → R → Option (R × graph R)
  | 0, _, _, _, _ => none
  | fuel + 1, G, s, t, flow =>
    if s = t then some (flow, G)
    else
      dfsLoop (fun G1 a f => dfs fuel G1 a t f) s flow
        ((getNode G s).nAdj - (getNode G s).adjIdx) (getNode G s).adjIdx G

/-- The loop `for (f = dfs(G, s, t, INF); f; f = dfs(G, s, t, INF)) G->maxFlow += f`,
in exact arithmetic; `drainD` is the same with the sum rounded as a `double` is. -/
def drain : Nat → graph R → Nat → Nat → Option (graph R)
  | 0, _, _, _ => none
  | fuel + 1, G, s, t =>
    match dfs fuel G s t INF with
    | none => none
    | some (f, G1) =>
      if f ≠ 0 then drain fuel { G1 with maxFlow := G1.maxFlow + f } s t
      else some G1

/-- The `while (bfs(G, s, t))` loop of `dinic`; `phases` counts the calls of
`bfs` that returned true so far. -/
def dinicLoop : Nat → graph R → Nat → Nat → Nat → Option (graph R × Nat)
  | 0, _, _, _, _ => none
  | fuel + 1, G, s, t, phases =>
    match bfs fuel G s t with
    | none => none
    | some (false, G1) => some (G1, phases)
    | some (true, G1) =>
      match drain fuel G1 s t with
      | none => none
      | some G2 => dinicLoop fuel (loopReset G2) s t (phases + 1)

/-- The function `dinic`. -/
def dinic (fuel : Nat) (G : graph R) (s t : Nat) : Option (graph R) :=
  (dinicLoop fuel G s t 0).map Prod.fst

/-- The number of iterations of the `while` loop of `dinic`. -/
def dinicPhases (fuel : Nat) (G : graph R) (s t : Nat) : Option Nat :=
  (dinicLoop fuel G s t 0).map Prod.snd

/-- The structure that `buildGraph` gives a network and that no later
function changes: node `v` has id `v`, the adjacency list of `v` holds exactly
the edges leaving `v`, the endpoints are nodes, and the edges `j` and `j ^ 1`
are each other's reverse. -/
structure WF (G : graph R) : Prop where
  id_eq : ∀ v, v < G.nNodes → (getNode G v).id = v
  adj_lt : ∀ v, v < G.nNodes → ∀ j ∈ (getNode G v).adj, j < G.nEdges ∧ (getEdge G j).frm = v
  mem_adj : ∀ j, j < G.nEdges → j ∈ (getNode G (getEdge G j).frm).adj
  frm_lt : ∀ j, j < G.nEdges → (getEdge G j).frm < G.nNodes
  to_lt : ∀ j, j < G.nEdges → (getEdge G j).to_ < G.nNodes
  even : G.nEdges % 2 = 0
  pair_frm : ∀ j, j < G.nEdges → (getEdge G (j ^^^ 1)).frm = (getEdge G j).to_
  pair_to : ∀ j, j < G.nEdges → (getEdge G (j ^^^ 1)).to_ = (getEdge G j).frm
  residual_eq : ∀ j, j < G.nEdges → (getEdge G j).residual = decide (j % 2 = 1)
  adj_nodup : ∀ v, (getNode G v).adj.Nodup

/-- The part of a network that only `addEdge` writes: ids and adjacency lists
of the nodes, endpoints and residual marks of the edges. -/
def shape (G : graph R) : List (Nat × List Nat) × List (Nat × Nat × Bool) :=
  (G.nodes.map fun n => (n.id, n.adj), G.edges.map fun e => (e.frm, e.to_, e.residual))

/-- The input triples name nodes of the graph. -/
def inRange (n : Nat) (es : List (Nat × Nat × R)) : Prop :=
  ∀ e ∈ es, e.1 < n ∧ e.2.1 < n

/-- The input capacities are not negative. -/
def nonnegCaps (es : List (Nat × Nat × R)) : Prop :=
  ∀ e ∈ es, 0 ≤ e.2.2

instance (n : Nat) (es : List (Nat × Nat × R)) : Decidable (inRange n es) :=
  inferInstanceAs (Decidable (∀ e ∈ es, e.1 < n ∧ e.2.1 < n))

instance (es : List (Nat × Nat × R)) : Decidable (nonnegCaps es) :=
  inferInstanceAs (Decidable (∀ e ∈ es, 0 ≤ e.2.2))

/-- A path in the level graph: the edges `p` lead from `u` to `t`, each has
spare capacity and goes from one level to the next. -/
def LevelPath (G : graph R) : Nat → Nat → List Nat → Prop
  | u, t, [] => u = t
  | u, t, j :: p =>
    j < G.nEdges ∧ (getEdge G j).frm = u ∧ 0 < (getEdge G j).cap ∧
      (getNode G (getEdge G j).to_).level = (getNode G u).level + 1 ∧
      LevelPath G (getEdge G j).to_ t p

/-- The edge updates of `dfs` along the path `p`, the edge nearest to the sink first. -/
def augment (G : graph R) : List Nat → R → graph R
  | [], _ => G
  | j :: p, r => pushFlow (augment G p r) j r

/-- The bound that reaches the sink along `p`: `MIN` is applied edge by edge. -/
def bottleneck (G : graph R) (flow : R) : List Nat → R
  | [] => flow
  | j :: p => bottleneck G (MIN flow (getEdge G j).cap) p

/-- The effect of a call `dfs(G, u, t, flow)` that returns `r` and leaves `G'`. -/
structure DfsPost (G : graph R) (u t : Nat) (flow r : R) (G' : graph R) : Prop where
  shape_eq : shape G' = shape G
  level_eq : ∀ v, (getNode G' v).level = (getNode G v).level
  maxFlow_eq : G'.maxFlow = G.maxFlow
  edges_zero : ¬ 0 < r → G'.edges = G.edges
  ret_zero : ¬ 0 < r → r = 0 ∨ (u = t ∧ r = flow)
  edges_pos : 0 < r → ∃ p, LevelPath G u t p ∧ G'.edges = (augment G p r).edges ∧
    r = bottleneck G flow p

/-- What the loops of `bfs` never change: everything but levels that are `-1`. -/
structure BfsFrame (G G' : graph R) : Prop where
  shape_eq : shape G' = shape G
  edges_eq : G'.edges = G.edges
  maxFlow_eq : G'.maxFlow = G.maxFlow
  adjIdx_eq : ∀ v, (getNode G' v).adjIdx = (getNode G v).adjIdx
  level_keep : ∀ v, (getNode G v).level ≠ -1 → (getNode G' v).level = (getNode G v).level

/-- The sum `edges[i].cap + edges[i ^ 1].cap`. -/
def pairCap (G : graph R) (i : Nat) : R := (getEdge G i).cap + (getEdge G (i ^^^ 1)).cap

/-- Every capacity of the network is non-negative. -/
def capsNonneg (G : graph R) : Prop := ∀ j, 0 ≤ (getEdge G j).cap

/-- The number of elements held by the queue. -/
def qcount (Q : queue) : Nat := (Q.back + Q.size - Q.front) % Q.size

/-- The elements `k` cells after `front`, for `k < m`. -/
def qcells (Q : queue) (m : Nat) : List Nat :=
  (List.range m).map fun k => Q.array.getD ((Q.front + k) % Q.size) 0

/-- The elements held by the queue, oldest first. -/
def qlist (Q : queue) : List Nat := qcells Q (qcount Q)

/-- The representation invariant of the circular buffer. -/
structure QInv (Q : queue) : Prop where
  size_pos : 0 < Q.size
  len : Q.array.length = Q.size
  front_lt : Q.front < Q.size
  back_lt : Q.back < Q.size

/-- The number of nodes whose level is `-1`. -/
def unleveled (G : graph R) : Nat :=
  ((Finset.range G.nNodes).filter fun v => (getNode G v).level = -1).card

/-- The edge `j` has been looked at by `bfs`: if it has spare capacity, its
head has a level, at most one more than its tail. -/
def EdgeOk (G : graph R) (j : Nat) : Prop :=
  0 < (getEdge G j).cap →
    (getNode G (getEdge G j).to_).level ≠ -1 ∧
      (getNode G (getEdge G j).to_).level ≤ (getNode G (getEdge G j).frm).level + 1

/-- What holds of the levels at every point of `bfs` from `s`. -/
structure BfsBase (s : Nat) (G : graph R) : Prop where
  wf : WF G
  s_lt : s < G.nNodes
  lvl_s : (getNode G s).level = 0
  lvl_ge : ∀ v, -1 ≤ (getNode G v).level
  zero_s : ∀ v, (getNode G v).level = 0 → v = s
  real : ∀ v, 0 < (getNode G v).level → ∃ j, j < G.nEdges ∧ (getEdge G j).to_ = v ∧
    0 < (getEdge G j).cap ∧ (getNode G (getEdge G j).frm).level + 1 = (getNode G v).level

/-- The invariant of the `for` loop of `bfs` at node `u`, with `L` the queue
and `pre` the edges of `u` already looked at. -/
structure BfsInner (s u : Nat) (G : graph R) (L pre : List Nat) : Prop where
  base : BfsBase s G
  u_lvl : 0 ≤ (getNode G u).level
  q_ok : ∀ b ∈ L, b < G.nNodes ∧ (getNode G u).level ≤ (getNode G b).level ∧
    (getNode G b).level ≤ (getNode G u).level + 1
  q_sorted : L.Pairwise fun a b => (getNode G a).level ≤ (getNode G b).level
  all_le : ∀ v, (getNode G v).level ≤ (getNode G u).level + 1
  done : ∀ j, j < G.nEdges → (getNode G (getEdge G j).frm).level ≠ -1 →
    (getEdge G j).frm ∉ L → (getEdge G j).frm ≠ u → EdgeOk G j
  pre_done : ∀ j ∈ pre, (getEdge G j).frm = u ∧ EdgeOk G j

/-- The invariant of the `while` loop of `bfs`, with `L` the queue. -/
structure BfsInv (s : Nat) (G : graph R) (L : List Nat) : Prop where
  base : BfsBase s G
  q_ok : ∀ b ∈ L, b < G.nNodes ∧ 0 ≤ (getNode G b).level
  q_sorted : L.Pairwise fun a b => (getNode G a).level ≤ (getNode G b).level
  q_span : ∀ a ∈ L, ∀ b ∈ L, (getNode G b).level ≤ (getNode G a).level + 1
  all_le : ∀ a l, L = a :: l → ∀ v, (getNode G v).level ≤ (getNode G a).level + 1
  done : ∀ j, j < G.nEdges → (getNode G (getEdge G j).frm).level ≠ -1 →
    (getEdge G j).frm ∉ L → EdgeOk G j

/-- A path of `k` edges with `cap > 0` from `u` to `v`. -/
def PosPath (G : graph R) : Nat → Nat → Nat → Prop
  | 0, u, v => u = v
  | k + 1, u, v => ∃ j, j < G.nEdges ∧ (getEdge G j).frm = u ∧ 0 < (getEdge G j).cap ∧
      PosPath G k (getEdge G j).to_ v

/-- A weighted sum of the capacities of all edges. -/
def wsum (G : graph R) (w : Nat → R) : R :=
  ∑ x in Finset.range G.nEdges, w x * (getEdge G x).cap

/-- The weight that selects the edges leaving the node set `S`. -/
def crossW (G : graph R) (S : Nat → Bool) (x : Nat) : R :=
  if S (getEdge G x).frm && !S (getEdge G x).to_ then 1 else 0

/-- The spare capacity that leaves the node set `S`. -/
def residualCut (G : graph R) (S : Nat → Bool) : R := wsum G (crossW G S)

/-- The capacity of the cut `S` of the input network: the sum of the capacities
of the input edges that lead from `S` to its complement. -/
def cutCap (es : List (Nat × Nat × R)) (S : Nat → Bool) : R :=
  (es.map fun e => if S e.1 && !S e.2.1 then e.2.2 else 0).sum

/-- Every level is `-1` and every cursor `0`: the state before each `bfs`. -/
def Fresh (G : graph R) : Prop :=
  ∀ v, (getNode G v).level = -1 ∧ (getNode G v).adjIdx = 0

/-- The invariant that ties `maxFlow` to every cut: the spare capacity leaving
a node set that holds `s` and not `t`, plus `maxFlow`, never changes. -/
structure CutInv (G0 : graph R) (s t : Nat) (G : graph R) : Prop where
  wf : WF G
  shape_eq : shape G = shape G0
  nonneg : capsNonneg G
  cut : ∀ S : Nat → Bool, S s = true → S t = false →
    residualCut G S + G.maxFlow = residualCut G0 S + G0.maxFlow

/-- Some path of the level graph leads from `u` to `t`. -/
def CanReach (G : graph R) (u t : Nat) : Prop := ∃ p, LevelPath G u t p

/-- The graph `G2` has the shape and levels of `G`, and no edge that goes up
one level has spare capacity in `G2` without having some in `G`. -/
structure Shrinks (G G2 : graph R) : Prop where
  shape_eq : shape G2 = shape G
  level_eq : ∀ v, (getNode G2 v).level = (getNode G v).level
  cap_pos : ∀ j, (getNode G (getEdge G j).to_).level = (getNode G (getEdge G j).frm).level + 1 →
    0 < (getEdge G2 j).cap → 0 < (getEdge G j).cap

/-- The edge at position `pos` of the adjacency list of `v` leads to no path to `t`. -/
def DeadPos (G : graph R) (t v pos : Nat) : Prop :=
  ¬ (0 < (getEdge G ((getNode G v).adj.getD pos 0)).cap ∧
      (getNode G (getEdge G ((getNode G v).adj.getD pos 0)).to_).level = (getNode G v).level + 1 ∧
      CanReach G (getEdge G ((getNode G v).adj.getD pos 0)).to_ t)

/-- Every position before a cursor is dead, where the cursor of `u` counts as `i`. -/
def DeadUpTo (G : graph R) (t u i : Nat) : Prop :=
  ∀ v pos, v < G.nNodes → pos < (getNode G v).nAdj →
    pos < (if v = u then i else (getNode G v).adjIdx) → DeadPos G t v pos

/-- Every position before a cursor is dead. -/
def Dead (G : graph R) (t : Nat) : Prop :=
  ∀ v pos, v < G.nNodes → pos < (getNode G v).nAdj → pos < (getNode G v).adjIdx →
    DeadPos G t v pos

/-- What `dfs` guarantees about dead positions. -/
def DeadPost (G' : graph R) (t u : Nat) (r : R) : Prop :=
  Dead G' t ∧ (¬ 0 < r → ¬ CanReach G' u t)

/-- What holds between a successful `bfs` and the next `loopReset`. -/
structure PhaseInv (s t : Nat) (G : graph R) : Prop where
  wf : WF G
  lvl_s : (getNode G s).level = 0
  lvl_ok : ∀ j, j < G.nEdges → (getNode G (getEdge G j).frm).level ≠ -1 → EdgeOk G j
  dead : Dead G t

/-- What holds before each `bfs` of `dinic`, with `k` the number of phases so far. -/
structure LoopInv (s t : Nat) (G : graph R) (k : Nat) : Prop where
  wf : WF G
  fresh : Fresh G
  s_lt : s < G.nNodes
  k_lt : k < G.nNodes
  dist : ∀ m, PosPath G m s t → k + 1 ≤ m

/-- The number of edges of the level graph with spare capacity. -/
def liveEdges (G : graph R) : Nat :=
  ((Finset.range G.nEdges).filter fun j =>
    (getNode G (getEdge G j).to_).level = (getNode G (getEdge G j).frm).level + 1 ∧
      0 < (getEdge G j).cap).card

/-- The node set that holds just `s`. -/
def onlySource (s : Nat) (v : Nat) : Bool := v == s

/-- Every edge of the edge array has a capacity `>= 0`. -/
def allCapsNonneg (G : graph R) : Prop := ∀ e ∈ G.edges, 0 ≤ e.cap

instance (G : graph R) : Decidable (allCapsNonneg G) :=
  inferInstanceAs (Decidable (∀ e ∈ G.edges, 0 ≤ e.cap))

/-- Every node of the node array has level `-1`. -/
def allUnleveled (G : graph R) : Prop := ∀ nd ∈ G.nodes, nd.level = -1

instance (G : graph R) : Decidable (allUnleveled G) :=
  inferInstanceAs (Decidable (∀ nd ∈ G.nodes, nd.level = -1))

/-- The sum of the `flow` fields of the original edges that enter `v`. -/
def inFlow (G : graph R) (v : Nat) : R :=
  ((G.edges.filter fun e => !e.residual && e.to_ == v).map fun e => e.flow).sum

/-- The sum of the `flow` fields of the original edges that leave `v`. -/
def outFlow (G : graph R) (v : Nat) : R :=
  ((G.edges.filter fun e => !e.residual && e.frm == v).map fun e => e.flow).sum

/-- The input of scenario 1. -/
def scenario1 : List (Nat × Nat × Int) :=
  [(0, 1, 3), (0, 2, 2), (1, 2, 1), (1, 3, 2), (2, 3, 3)]

/-- A network on which the second phase cancels the flow the first phase put on
the edge `1 -> 2`. -/
def cancelNet : List (Nat × Nat × Int) :=
  [(0, 1, 1), (1, 2, 1), (2, 3, 1), (0, 4, 1), (4, 2, 1), (1, 5, 1), (5, 3, 1)]

/-- A network on which the edge `1 -> 2` is used in the first phase, cancelled in
the second and used again in the third. -/
def repushNet : List (Nat × Nat × Int) :=
  [(0, 1, 1), (1, 2, 1), (2, 3, 1), (0, 4, 1), (4, 2, 1), (1, 5, 1), (5, 3, 1),
    (0, 6, 1), (6, 7, 1), (7, 1, 1), (2, 8, 1), (8, 9, 1), (9, 3, 1)]

/-- What every state of a run of `dinic` on the network with the one edge `0 -> 1` of
capacity `c` satisfies: the residual edge carries no flow, and what the original edge
has lost in capacity is in its `flow` field and in the capacity of the residual edge. -/
structure SingleInv (c : R) (H : graph R) : Prop where
  wf : WF H
  shape_eq : shape H = shape (buildGraph (newGraph 2) [(0, 1, c)])
  flow_one : (getEdge H 1).flow = 0
  sum_zero : (getEdge H 0).cap + (getEdge H 0).flow = c
  pair : pairCap H 0 = c

/-- A sequence of operations on the circular buffer: `some x` is `enqueue(Q, x)`,
`none` is `dequeue(Q)`. The run stops with `none` at a `dequeue` that exits; else it
gives the last state and the values that the calls of `dequeue` returned, in order. -/
def runQueue : queue → List (Option Nat) → Option (queue × List Nat)
  | Q, [] => some (Q, [])
  | Q, some x :: ops => runQueue (enqueue Q x) ops
  | Q, none :: ops =>
    match dequeue Q with
    | none => none
    | some (y, Q1) => (runQueue Q1 ops).map fun r => (r.1, y :: r.2)

/-- The same sequence of operations on a plain list, as the specification words it:
an enqueue appends at the end, a dequeue removes and returns the head, and a dequeue
on the empty list is not allowed. -/
def runList : List Nat → List (Option Nat) → Option (List Nat × List Nat)
  | l, [] => some (l, [])
  | l, some x :: ops => runList (l ++ [x]) ops
  | [], none :: _ => none
  | y :: l, none :: ops => (runList l ops).map fun r => (r.1, y :: r.2)

/-- What a call of `dfs` from `u` that returns `r` does to the cursors: none is
lowered, none leaves the range of its adjacency list, the nodes of a lower level than
`u` keep theirs, and after a push the cursor of each node on the path stands at the
position of the path edge that leaves that node. -/
structure CursorPost (G : graph R) (u t : Nat) (r : R) (G' : graph R) : Prop where
  mono : ∀ v, (getNode G v).adjIdx ≤ (getNode G' v).adjIdx
  low : ∀ v, (getNode G v).level < (getNode G u).level →
    (getNode G' v).adjIdx = (getNode G v).adjIdx
  range : ∀ v, (getNode G v).adjIdx ≤ (getNode G v).nAdj - 1 →
    (getNode G' v).adjIdx ≤ (getNode G v).nAdj - 1
  path : 0 < r → ∃ p, LevelPath G u t p ∧ G'.edges = (augment G p r).edges ∧
    ∀ j ∈ p, (getNode G' (getEdge G j).frm).adjIdx < (getNode G (getEdge G j).frm).nAdj ∧
      (getNode G (getEdge G j).frm).adj.getD (getNode G' (getEdge G j).frm).adjIdx 0 = j

/-- The state that `bfs(G, s, t)` leaves, as `dinic` has it when it enters a phase. -/
def leveled (fuel : Nat) (G : graph R) (s t : Nat) : graph R :=
  match bfs fuel G s t with
  | some (_, G1) => G1
  | none => G

/-- A network with a dead end: node 1 is entered by the edge `0 -> 1`, listed last at
node 0, and has no way on to the sink 3. -/
def deadEndNet : List (Nat × Nat × Int) := [(0, 2, 1), (2, 3, 1), (0, 1, 1)]

/-- The state of `dinic` on `deadEndNet` from 0 to 3 after the first call of `bfs` and
the first call of `dfs` of the first phase, with `maxFlow` updated. -/
def deadEndState : Option (graph Int) :=
  (bfs 10 (buildGraph (newGraph 4) deadEndNet) 0 3).bind fun x =>
    (dfs 10 x.2 0 3 INF).map fun y => { y.2 with maxFlow := y.2.maxFlow + y.1 }

/-- The loop `while (p < N->maxCap) p <<= 1` of `threshold`, on the 64 bits of
`size_t`. The field `maxCap` of the network, printed with `%zu`, is the parameter. -/
def thresholdLoop : Nat → Nat → Nat → Option Nat
  | 0, _, _ => none
  | fuel + 1, p, maxCap =>
    if p < maxCap then thresholdLoop fuel ((p <<< 1) % 2 ^ 64) maxCap else some p

/-- The function `threshold`: `p = 1`, the loop, then `return p >> 1`. -/
def threshold (fuel : Nat) (maxCap : Nat) : Option Nat :=
  (thresholdLoop fuel 1 maxCap).map fun p => p >>> 1

/-- The net flow of the original edge with the even index `i`: the capacity of its
residual partner `edges[i + 1]`. -/
def netFlow (G : graph R) (i : Nat) : R := (getEdge G (i + 1)).cap

/-- The net flow that leaves `v`: the sum over the original edges from `v`. -/
def netOut (G : graph R) (v : Nat) : R :=
  ((List.range (G.nEdges / 2)).map fun k =>
    if (getEdge G (2 * k)).frm = v then netFlow G (2 * k) else 0).sum

/-- The net flow that enters `v`: the sum over the original edges to `v`. -/
def netIn (G : graph R) (v : Nat) : R :=
  ((List.range (G.nEdges / 2)).map fun k =>
    if (getEdge G (2 * k)).to_ = v then netFlow G (2 * k) else 0).sum

/-- The three properties of the net flow on a network built from the triples `es`:
it lies between 0 and the capacity given by the user, it is conserved at every node
but `s` and `t`, and what leaves `s` minus what enters `s` is `maxFlow`. -/
structure NetFlowOk (es : List (Nat × Nat × R)) (s t : Nat) (G : graph R) : Prop where
  lower : ∀ k, k < es.length → 0 ≤ netFlow G (2 * k)
  upper : ∀ k, k < es.length → netFlow G (2 * k) ≤ (es.getD k (0, 0, 0)).2.2
  conserve : ∀ v, v ≠ s → v ≠ t → netIn G v = netOut G v
  source : netOut G s - netIn G s = G.maxFlow

/-- The loop of `dfs` calls of one phase, as `drain`, which also lists the state after
each call of `dfs`, with the returned amount added to `maxFlow`. -/
def drainStates : Nat → graph R → Nat → Nat → Option (List (graph R) × graph R)
  | 0, _, _, _ => none
  | fuel + 1, G, s, t =>
    match dfs fuel G s t INF with
    | none => none
    | some (f, G1) =>
      if f ≠ 0 then
        (drainStates fuel { G1 with maxFlow := G1.maxFlow + f } s t).map fun x =>
          (({ G1 with maxFlow := G1.maxFlow + f } : graph R) :: x.1, x.2)
      else some ([G1], G1)

/-- The loop of `dinic`, as `dinicLoop`, which also lists the state after each call of
`dfs` of the run. -/
def dinicStates : Nat → graph R → Nat → Nat → Option (List (graph R) × graph R)
  | 0, _, _, _ => none
  | fuel + 1, G, s, t =>
    match bfs fuel G s t with
    | none => none
    | some (false, G1) => some ([], G1)
    | some (true, G1) =>
      match drainStates fuel G1 s t with
      | none => none
      | some (L, G2) => (dinicStates fuel (loopReset G2) s t).map fun x => (L ++ x.1, x.2)

/-- The weight of the capacity of edge `x` in the net flow that leaves `v` minus the
net flow that enters `v`. -/
def netW (G : graph R) (v : Nat) (x : Nat) : R :=
  if x % 2 = 1 then
    (if (getEdge G x).to_ = v then 1 else 0) - (if (getEdge G x).frm = v then 1 else 0)
  else 0

/-- What every state of a run of `dinic` on the network built from `es` satisfies. -/
structure NetInv (n : Nat) (es : List (Nat × Nat × R)) (s t : Nat) (H : graph R) : Prop where
  shape_eq : shape H = shape (buildGraph (newGraph n) es)
  pair : ∀ i, pairCap H i = pairCap (buildGraph (newGraph n) es) i
  nonneg : capsNonneg H
  balance : ∀ v, netOut H v - netIn H v =
    ((if v = s then 1 else 0) - (if v = t then 1 else 0)) * H.maxFlow

/-- The number of times `a` is halved until it is below `2 ^ 53`: the exponent of the
last place of the `double` nearest to `a`. -/
def ulpExp : Nat → Nat → Nat
  | 0, _ => 0
  | fuel + 1, a => if a < 2 ^ 53 then 0 else ulpExp fuel (a / 2) + 1

/-- The `double` nearest to the integer `x`, ties to even, for `|x| < 2 ^ 1024`: what
a C addition or subtraction of two integer-valued `double`s stores when its exact
result is `x`. Integers below `2 ^ 53` in absolute value are stored as they are; above,
`x` is rounded to 53 significant bits. -/
def roundDouble (x : Int) : Int :=
  let a := x.natAbs
  if a < 2 ^ 53 then x
  else
    let e := ulpExp 1100 a
    let q := a / 2 ^ e
    let rest := a % 2 ^ e
    let up := if 2 * rest < 2 ^ e then q else if 2 ^ e < 2 * rest then q + 1 else q + q % 2
    x.sign * ((up * 2 ^ e : Nat) : Int)

/-- The three assignments of `dfs` after a successful recursive call, `e->cap -= bneck`,
`e->flow += bneck` and `edges[eId^1]->cap += bneck`, each result rounded by `rd`. -/
def pushFlowD (rd : R → R) (G : graph R) (eId : Nat) (bneck : R) : graph R :=
  let G1 := setCap G eId (rd ((getEdge G eId).cap - bneck))
  let G2 := setFlow G1 eId (rd ((getEdge G1 eId).flow + bneck))
  setCap G2 (eId ^^^ 1) (rd ((getEdge G2 (eId ^^^ 1)).cap + bneck))

/-- The `for` loop of `dfs` as in `dfsLoop`, with the arithmetic rounded by `rd`. -/
def dfsLoopD (rd : R → R) (call : graph R → Nat → R → Option (R × graph R)) (s : Nat)
    (flow : R) : Nat → Nat → graph R → Option (R × graph R)
  | 0, _, G => some (0, G)
  | k + 1, i, G =>
    let G1 := setAdjIdx G s i
    let eId := (getNode G1 s).adj.getD i 0
    let e := getEdge G1 eId
    if 0 < e.cap ∧ (getNode G1 e.to_).level = (getNode G1 s).level + 1 then
      match call G1 e.to_ (MIN flow e.cap) with
      | none => none
      | some (bneck, G2) =>
        if 0 < bneck then some (bneck, pushFlowD rd G2 eId bneck)
        else dfsLoopD rd call s flow k (i + 1) G2
    else dfsLoopD rd call s flow k (i + 1) G1

/-- The function `dfs` with the arithmetic rounded by `rd`. -/
def dfsD (rd : R → R) : Nat → graph R → Nat → Nat → R → Option (R × graph R)
  | 0, _, _, _, _ => none
  | fuel + 1, G, s, t, flow =>
    if s = t then some (flow, G)
    else
      dfsLoopD rd (fun G1 a f => dfsD rd fuel G1 a t f) s flow
        ((getNode G s).nAdj - (getNode G s).adjIdx) (getNode G s).adjIdx G

/-- The loop `for (f = dfs(G, s, t, INF); f; f = dfs(G, s, t, INF)) G->maxFlow += f`
with the arithmetic rounded by `rd`. -/
def drainD (rd : R → R) : Nat → graph R → Nat → Nat → Option (graph R)
  | 0, _, _, _ => none
  | fuel + 1, G, s, t =>
    match dfsD rd fuel G s t INF with
    | none => none
    | some (f, G1) =>
      if f ≠ 0 then drainD rd fuel { G1 with maxFlow := rd (G1.maxFlow + f) } s t
      else some G1

/-- The `while (bfs(G, s, t))` loop of `dinic` with the arithmetic rounded by `rd`. -/
def dinicLoopD (rd : R → R) : Nat → graph R → Nat → Nat → Nat → Option (graph R × Nat)
  | 0, _, _, _, _ => none
  | fuel + 1, G, s, t, phases =>
    match bfs fuel G s t with
    | none => none
    | some (false, G1) => some (G1, phases)
    | some (true, G1) =>
      match drainD rd fuel G1 s t with
      | none => none
      | some G2 => dinicLoopD rd fuel (loopReset G2) s t (phases + 1)

/-- The function `dinic` with the arithmetic rounded by `rd`. -/
def dinicD (rd : R → R) (fuel : Nat) (G : graph R) (s t : Nat) : Option (graph R) :=
  (dinicLoopD rd fuel G s t 0).map Prod.fst

/-- An input on which one subtraction of `dfs` is not exact in `double`: the capacity
`2 ^ 53 + 2` followed by the capacity 1. -/
def roundNet : List (Nat × Nat × Int) := [(0, 1, 9007199254740994), (1, 2, 1)]

/-- An input on which the additions to a residual capacity are not exact in `double`:
the capacity `2 ^ 53 + 6` followed by three parallel edges of capacities `2 ^ 53`, 3
and 3. -/
def overshootNet : List (Nat × Nat × Int) :=
  [(0, 1, 9007199254740998), (1, 2, 9007199254740992), (1, 2, 3), (1, 2, 3)]

/-! # Theorems -/

/-! ## Reading and writing the arrays -/

theorem xor_one_eq (j : Nat) : j ^^^ 1 = if j % 2 = 0 then j + 1 else j - 1 := by
  have hb : j = Nat.bit (j % 2 == 1) (j / 2) := by
    rw [Nat.bit_val]
    rcases Nat.mod_two_eq_zero_or_one j with h0 | h1
    · simp [h0]; omega
    · simp [h1]; omega
  have h1 : (1 : Nat) = Nat.bit true 0 := by simp [Nat.bit_val]
  conv_lhs => rw [hb, h1, Nat.xor_bit]
  rw [Nat.bit_val]
  rcases Nat.mod_two_eq_zero_or_one j with h0 | h1
  · simp [h0]; omega
  · simp [h1]; omega

theorem xor_one_ne (j : Nat) : j ^^^ 1 ≠ j := by
  rw [xor_one_eq]; split <;> omega

theorem xor_one_xor_one (j : Nat) : (j ^^^ 1) ^^^ 1 = j := by
  rw [xor_one_eq (j ^^^ 1), xor_one_eq j]; split <;> split <;> omega

theorem xor_one_lt {j m : Nat} (hm : m % 2 = 0) (hj : j < m) : j ^^^ 1 < m := by
  rw [xor_one_eq]; split <;> omega

theorem xor_one_div_two (j : Nat) : (j ^^^ 1) / 2 = j / 2 := by
  rw [xor_one_eq]; split <;> omega

theorem xor_one_mod_two (j : Nat) : (j ^^^ 1) % 2 = 1 - j % 2 := by
  rw [xor_one_eq]; split <;> omega

theorem getD_set_ite {α : Type} (l : List α) (i j : Nat) (a d : α) :
    (l.set i a).getD j d = if j = i ∧ i < l.length then a else l.getD j d := by
  simp only [List.getD_eq_getElem?_getD, List.getElem?_set]
  by_cases hij : i = j
  · subst hij
    by_cases hi : i < l.length
    · simp [hi]
    · simp [hi]
      rw [List.getElem?_eq_none (by omega)]; rfl
  · have : ¬ (j = i ∧ i < l.length) := fun h => hij h.1.symm
    simp [hij, this]

theorem map_set_same {α β : Type} (f : α → β) (l : List α) (i : Nat) (a d : α)
    (h : f a = f (l.getD i d)) : (l.set i a).map f = l.map f := by
  apply List.ext_getElem?
  intro j
  simp only [List.getElem?_map, List.getElem?_set]
  by_cases hij : i = j
  · subst hij
    by_cases hi : i < l.length
    · simp [hi, h, List.getD_eq_getElem?_getD, List.getElem?_eq_getElem hi]
    · simp [hi]
      rw [List.getElem?_eq_none (by omega)]; rfl
  · simp [hij]

@[simp] theorem nNodes_setLevel (G : graph R) (v : Nat) (l : Int) :
    (setLevel G v l).nNodes = G.nNodes := by simp [setLevel, graph.nNodes]

@[simp] theorem nEdges_setLevel (G : graph R) (v : Nat) (l : Int) :
    (setLevel G v l).nEdges = G.nEdges := rfl

@[simp] theorem getEdge_setLevel (G : graph R) (v : Nat) (l : Int) (j : Nat) :
    getEdge (setLevel G v l) j = getEdge G j := rfl

@[simp] theorem edges_setLevel (G : graph R) (v : Nat) (l : Int) :
    (setLevel G v l).edges = G.edges := rfl

@[simp] theorem maxFlow_setLevel (G : graph R) (v : Nat) (l : Int) :
    (setLevel G v l).maxFlow = G.maxFlow := rfl

theorem getNode_setLevel (G : graph R) (v : Nat) (l : Int) (w : Nat) :
    getNode (setLevel G v l) w =
      if w = v ∧ v < G.nNodes then { getNode G v with level := l } else getNode G w := by
  simp only [getNode, setLevel, graph.nNodes, getD_set_ite]

@[simp] theorem id_setLevel (G : graph R) (v : Nat) (l : Int) (w : Nat) :
    (getNode (setLevel G v l) w).id = (getNode G w).id := by
  rw [getNode_setLevel]; split
  · next h => rw [h.1]
  · rfl

@[simp] theorem adj_setLevel (G : graph R) (v : Nat) (l : Int) (w : Nat) :
    (getNode (setLevel G v l) w).adj = (getNode G w).adj := by
  rw [getNode_setLevel]; split
  · next h => rw [h.1]
  · rfl

@[simp] theorem adjIdx_setLevel (G : graph R) (v : Nat) (l : Int) (w : Nat) :
    (getNode (setLevel G v l) w).adjIdx = (getNode G w).adjIdx := by
  rw [getNode_setLevel]; split
  · next h => rw [h.1]
  · rfl

theorem level_setLevel (G : graph R) (v : Nat) (l : Int) (w : Nat) :
    (getNode (setLevel G v l) w).level =
      if w = v ∧ v < G.nNodes then l else (getNode G w).level := by
  rw [getNode_setLevel]; split <;> rfl

@[simp] theorem nNodes_setAdjIdx (G : graph R) (v i : Nat) :
    (setAdjIdx G v i).nNodes = G.nNodes := by simp [setAdjIdx, graph.nNodes]

@[simp] theorem nEdges_setAdjIdx (G : graph R) (v i : Nat) :
    (setAdjIdx G v i).nEdges = G.nEdges := rfl

@[simp] theorem getEdge_setAdjIdx (G : graph R) (v i : Nat) (j : Nat) :
    getEdge (setAdjIdx G v i) j = getEdge G j := rfl

@[simp] theorem edges_setAdjIdx (G : graph R) (v i : Nat) :
    (setAdjIdx G v i).edges = G.edges := rfl

@[simp] theorem maxFlow_setAdjIdx (G : graph R) (v i : Nat) :
    (setAdjIdx G v i).maxFlow = G.maxFlow := rfl

theorem getNode_setAdjIdx (G : graph R) (v i : Nat) (w : Nat) :
    getNode (setAdjIdx G v i) w =
      if w = v ∧ v < G.nNodes then { getNode G v with adjIdx := i } else getNode G w := by
  simp only [getNode, setAdjIdx, graph.nNodes, getD_set_ite]

@[simp] theorem id_setAdjIdx (G : graph R) (v i : Nat) (w : Nat) :
    (getNode (setAdjIdx G v i) w).id = (getNode G w).id := by
  rw [getNode_setAdjIdx]; split
  · next h => rw [h.1]
  · rfl

@[simp] theorem adj_setAdjIdx (G : graph R) (v i : Nat) (w : Nat) :
    (getNode (setAdjIdx G v i) w).adj = (getNode G w).adj := by
  rw [getNode_setAdjIdx]; split
  · next h => rw [h.1]
  · rfl

@[simp] theorem level_setAdjIdx (G : graph R) (v i : Nat) (w : Nat) :
    (getNode (setAdjIdx G v i) w).level = (getNode G w).level := by
  rw [getNode_setAdjIdx]; split
  · next h => rw [h.1]
  · rfl

theorem adjIdx_setAdjIdx (G : graph R) (v i : Nat) (w : Nat) :
    (getNode (setAdjIdx G v i) w).adjIdx =
      if w = v ∧ v < G.nNodes then i else (getNode G w).adjIdx := by
  rw [getNode_setAdjIdx]; split <;> rfl

@[simp] theorem nNodes_setCap (G : graph R) (i : Nat) (c : R) :
    (setCap G i c).nNodes = G.nNodes := rfl

@[simp] theorem nEdges_setCap (G : graph R) (i : Nat) (c : R) :
    (setCap G i c).nEdges = G.nEdges := by simp [setCap, graph.nEdges]

@[simp] theorem getNode_setCap (G : graph R) (i : Nat) (c : R) (v : Nat) :
    getNode (setCap G i c) v = getNode G v := rfl

@[simp] theorem nodes_setCap (G : graph R) (i : Nat) (c : R) :
    (setCap G i c).nodes = G.nodes := rfl

@[simp] theorem maxFlow_setCap (G : graph R) (i : Nat) (c : R) :
    (setCap G i c).maxFlow = G.maxFlow := rfl

theorem getEdge_setCap (G : graph R) (i : Nat) (c : R) (j : Nat) :
    getEdge (setCap G i c) j =
      if j = i ∧ i < G.nEdges then { getEdge G i with cap := c } else getEdge G j := by
  simp only [getEdge, setCap, graph.nEdges, getD_set_ite]

@[simp] theorem frm_setCap (G : graph R) (i : Nat) (c : R) (j : Nat) :
    (getEdge (setCap G i c) j).frm = (getEdge G j).frm := by
  rw [getEdge_setCap]; split
  · next h => rw [h.1]
  · rfl

@[simp] theorem to_setCap (G : graph R) (i : Nat) (c : R) (j : Nat) :
    (getEdge (setCap G i c) j).to_ = (getEdge G j).to_ := by
  rw [getEdge_setCap]; split
  · next h => rw [h.1]
  · rfl

@[simp] theorem residual_setCap (G : graph R) (i : Nat) (c : R) (j : Nat) :
    (getEdge (setCap G i c) j).residual = (getEdge G j).residual := by
  rw [getEdge_setCap]; split
  · next h => rw [h.1]
  · rfl

@[simp] theorem flow_setCap (G : graph R) (i : Nat) (c : R) (j : Nat) :
    (getEdge (setCap G i c) j).flow = (getEdge G j).flow := by
  rw [getEdge_setCap]; split
  · next h => rw [h.1]
  · rfl

theorem cap_setCap (G : graph R) (i : Nat) (c : R) (j : Nat) :
    (getEdge (setCap G i c) j).cap = if j = i ∧ i < G.nEdges then c else (getEdge G j).cap := by
  rw [getEdge_setCap]; split <;> rfl

@[simp] theorem nNodes_setFlow (G : graph R) (i : Nat) (c : R) :
    (setFlow G i c).nNodes = G.nNodes := rfl

@[simp] theorem nEdges_setFlow (G : graph R) (i : Nat) (c : R) :
    (setFlow G i c).nEdges = G.nEdges := by simp [setFlow, graph.nEdges]

@[simp] theorem getNode_setFlow (G : graph R) (i : Nat) (c : R) (v : Nat) :
    getNode (setFlow G i c) v = getNode G v := rfl

@[simp] theorem nodes_setFlow (G : graph R) (i : Nat) (c : R) :
    (setFlow G i c).nodes = G.nodes := rfl

@[simp] theorem maxFlow_setFlow (G : graph R) (i : Nat) (c : R) :
    (setFlow G i c).maxFlow = G.maxFlow := rfl

theorem getEdge_setFlow (G : graph R) (i : Nat) (c : R) (j : Nat) :
    getEdge (setFlow G i c) j =
      if j = i ∧ i < G.nEdges then { getEdge G i with flow := c } else getEdge G j := by
  simp only [getEdge, setFlow, graph.nEdges, getD_set_ite]

@[simp] theorem frm_setFlow (G : graph R) (i : Nat) (c : R) (j : Nat) :
    (getEdge (setFlow G i c) j).frm = (getEdge G j).frm := by
  rw [getEdge_setFlow]; split
  · next h => rw [h.1]
  · rfl

@[simp] theorem to_setFlow (G : graph R) (i : Nat) (c : R) (j : Nat) :
    (getEdge (setFlow G i c) j).to_ = (getEdge G j).to_ := by
  rw [getEdge_setFlow]; split
  · next h => rw [h.1]
  · rfl

@[simp] theorem residual_setFlow (G : graph R) (i : Nat) (c : R) (j : Nat) :
    (getEdge (setFlow G i c) j).residual = (getEdge G j).residual := by
  rw [getEdge_setFlow]; split
  · next h => rw [h.1]
  · rfl

@[simp] theorem cap_setFlow (G : graph R) (i : Nat) (c : R) (j : Nat) :
    (getEdge (setFlow G i c) j).cap = (getEdge G j).cap := by
  rw [getEdge_setFlow]; split
  · next h => rw [h.1]
  · rfl

theorem flow_setFlow (G : graph R) (i : Nat) (c : R) (j : Nat) :
    (getEdge (setFlow G i c) j).flow = if j = i ∧ i < G.nEdges then c else (getEdge G j).flow := by
  rw [getEdge_setFlow]; split <;> rfl

/-! ### `pushFlow` -/

@[simp] theorem nNodes_pushFlow (G : graph R) (e : Nat) (b : R) :
    (pushFlow G e b).nNodes = G.nNodes := rfl

@[simp] theorem nEdges_pushFlow (G : graph R) (e : Nat) (b : R) :
    (pushFlow G e b).nEdges = G.nEdges := by simp [pushFlow]

@[simp] theorem getNode_pushFlow (G : graph R) (e : Nat) (b : R) (v : Nat) :
    getNode (pushFlow G e b) v = getNode G v := rfl

@[simp] theorem nodes_pushFlow (G : graph R) (e : Nat) (b : R) :
    (pushFlow G e b).nodes = G.nodes := rfl

@[simp] theorem maxFlow_pushFlow (G : graph R) (e : Nat) (b : R) :
    (pushFlow G e b).maxFlow = G.maxFlow := rfl

@[simp] theorem frm_pushFlow (G : graph R) (e : Nat) (b : R) (j : Nat) :
    (getEdge (pushFlow G e b) j).frm = (getEdge G j).frm := by simp [pushFlow]

@[simp] theorem to_pushFlow (G : graph R) (e : Nat) (b : R) (j : Nat) :
    (getEdge (pushFlow G e b) j).to_ = (getEdge G j).to_ := by simp [pushFlow]

@[simp] theorem residual_pushFlow (G : graph R) (e : Nat) (b : R) (j : Nat) :
    (getEdge (pushFlow G e b) j).residual = (getEdge G j).residual := by simp [pushFlow]

theorem cap_pushFlow (G : graph R) (e : Nat) (b : R) (j : Nat)
    (he : e < G.nEdges) (he1 : e ^^^ 1 < G.nEdges) :
    (getEdge (pushFlow G e b) j).cap =
      if j = e then (getEdge G e).cap - b
      else if j = e ^^^ 1 then (getEdge G (e ^^^ 1)).cap + b
      else (getEdge G j).cap := by
  have hne := xor_one_ne e
  simp only [pushFlow, cap_setCap, cap_setFlow, nEdges_setFlow, nEdges_setCap]
  by_cases h1 : j = e
  · subst h1
    simp [hne.symm, he]
  · by_cases h2 : j = e ^^^ 1
    · subst h2
      simp [he1, hne, he]
    · simp [h1, h2]

theorem flow_pushFlow (G : graph R) (e : Nat) (b : R) (j : Nat) (he : e < G.nEdges) :
    (getEdge (pushFlow G e b) j).flow =
      if j = e then (getEdge G e).flow + b else (getEdge G j).flow := by
  simp only [pushFlow, flow_setCap, flow_setFlow, nEdges_setCap]
  by_cases h1 : j = e
  · subst h1; simp [he]
  · simp [h1]

/-! ### `loopReset` -/

@[simp] theorem nNodes_loopReset (G : graph R) : (loopReset G).nNodes = G.nNodes := by
  simp [loopReset, graph.nNodes]

@[simp] theorem nEdges_loopReset (G : graph R) : (loopReset G).nEdges = G.nEdges := rfl

@[simp] theorem getEdge_loopReset (G : graph R) (j : Nat) :
    getEdge (loopReset G) j = getEdge G j := rfl

@[simp] theorem edges_loopReset (G : graph R) : (loopReset G).edges = G.edges := rfl

@[simp] theorem maxFlow_loopReset (G : graph R) : (loopReset G).maxFlow = G.maxFlow := rfl

theorem getNode_loopReset (G : graph R) (v : Nat) :
    getNode (loopReset G) v = { getNode G v with level := -1, adjIdx := 0 } := by
  simp only [getNode, loopReset, List.getD_eq_getElem?_getD, List.getElem?_map]
  cases h : G.nodes[v]? <;> simp

@[simp] theorem id_loopReset (G : graph R) (v : Nat) :
    (getNode (loopReset G) v).id = (getNode G v).id := by rw [getNode_loopReset]

@[simp] theorem adj_loopReset (G : graph R) (v : Nat) :
    (getNode (loopReset G) v).adj = (getNode G v).adj := by rw [getNode_loopReset]

@[simp] theorem level_loopReset (G : graph R) (v : Nat) :
    (getNode (loopReset G) v).level = -1 := by rw [getNode_loopReset]

@[simp] theorem adjIdx_loopReset (G : graph R) (v : Nat) :
    (getNode (loopReset G) v).adjIdx = 0 := by rw [getNode_loopReset]

/-! ## Well-formed networks -/

theorem getD_map' {α β : Type} (f : α → β) (l : List α) (i : Nat) (d : α) :
    (l.map f).getD i (f d) = f (l.getD i d) := by
  simp only [List.getD_eq_getElem?_getD, List.getElem?_map]
  cases l[i]? <;> rfl

theorem shape_nNodes {G H : graph R} (h : shape G = shape H) : G.nNodes = H.nNodes := by
  have := congrArg (fun p => p.1.length) h
  simpa [shape, graph.nNodes] using this

theorem shape_nEdges {G H : graph R} (h : shape G = shape H) : G.nEdges = H.nEdges := by
  have := congrArg (fun p => p.2.length) h
  simpa [shape, graph.nEdges] using this

theorem shape_node {G H : graph R} (h : shape G = shape H) (v : Nat) :
    (getNode G v).id = (getNode H v).id ∧ (getNode G v).adj = (getNode H v).adj := by
  have h1 : (G.nodes.map fun n => (n.id, n.adj)) = (H.nodes.map fun n => (n.id, n.adj)) :=
    congrArg Prod.fst h
  have e1 := getD_map' (fun n : node => (n.id, n.adj)) G.nodes v ⟨0, [], -1, 0⟩
  have e2 := getD_map' (fun n : node => (n.id, n.adj)) H.nodes v ⟨0, [], -1, 0⟩
  have h2 : (fun n : node => (n.id, n.adj)) (getNode G v) =
      (fun n : node => (n.id, n.adj)) (getNode H v) := by
    unfold getNode; exact e1.symm.trans (Eq.trans (by rw [h1]) e2)
  exact ⟨congrArg Prod.fst h2, congrArg Prod.snd h2⟩

theorem shape_edge {G H : graph R} (h : shape G = shape H) (j : Nat) :
    (getEdge G j).frm = (getEdge H j).frm ∧ (getEdge G j).to_ = (getEdge H j).to_ ∧
      (getEdge G j).residual = (getEdge H j).residual := by
  have h1 : (G.edges.map fun e => (e.frm, e.to_, e.residual)) =
      (H.edges.map fun e => (e.frm, e.to_, e.residual)) := congrArg Prod.snd h
  have e1 := getD_map' (fun e : edge R => (e.frm, e.to_, e.residual)) G.edges j
    ⟨0, 0, 0, 0, false⟩
  have e2 := getD_map' (fun e : edge R => (e.frm, e.to_, e.residual)) H.edges j
    ⟨0, 0, 0, 0, false⟩
  have h2 : (fun e : edge R => (e.frm, e.to_, e.residual)) (getEdge G j) =
      (fun e : edge R => (e.frm, e.to_, e.residual)) (getEdge H j) := by
    unfold getEdge; exact e1.symm.trans (Eq.trans (by rw [h1]) e2)
  exact ⟨congrArg Prod.fst h2, congrArg (fun p => p.2.1) h2, congrArg (fun p => p.2.2) h2⟩

theorem WF.of_shape {G H : graph R} (h : shape G = shape H) (hH : WF H) : WF G := by
  have hn := shape_nNodes h
  have he := shape_nEdges h
  have hnode := shape_node h
  have hedge := shape_edge h
  constructor
  · intro v hv; rw [(hnode v).1]; exact hH.id_eq v (hn ▸ hv)
  · intro v hv j hj
    rw [(hnode v).2] at hj
    have := hH.adj_lt v (hn ▸ hv) j hj
    rw [he, (hedge j).1]; exact this
  · intro j hj
    rw [(hedge j).1, (hnode _).2]; exact hH.mem_adj j (he ▸ hj)
  · intro j hj; rw [(hedge j).1, hn]; exact hH.frm_lt j (he ▸ hj)
  · intro j hj; rw [(hedge j).2.1, hn]; exact hH.to_lt j (he ▸ hj)
  · rw [he]; exact hH.even
  · intro j hj; rw [(hedge _).1, (hedge j).2.1]; exact hH.pair_frm j (he ▸ hj)
  · intro j hj; rw [(hedge _).2.1, (hedge j).1]; exact hH.pair_to j (he ▸ hj)
  · intro j hj; rw [(hedge j).2.2]; exact hH.residual_eq j (he ▸ hj)
  · intro v; rw [(hnode v).2]; exact hH.adj_nodup v

@[simp] theorem shape_setLevel (G : graph R) (v : Nat) (l : Int) :
    shape (setLevel G v l) = shape G := by
  simp only [shape, setLevel]
  congr 1
  exact map_set_same _ _ _ _ ⟨0, [], -1, 0⟩ rfl

@[simp] theorem shape_setAdjIdx (G : graph R) (v i : Nat) :
    shape (setAdjIdx G v i) = shape G := by
  simp only [shape, setAdjIdx]
  congr 1
  exact map_set_same _ _ _ _ ⟨0, [], -1, 0⟩ rfl

@[simp] theorem shape_setCap (G : graph R) (i : Nat) (c : R) :
    shape (setCap G i c) = shape G := by
  simp only [shape, setCap]
  congr 1
  exact map_set_same _ _ _ _ ⟨0, 0, 0, 0, false⟩ rfl

@[simp] theorem shape_setFlow (G : graph R) (i : Nat) (c : R) :
    shape (setFlow G i c) = shape G := by
  simp only [shape, setFlow]
  congr 1
  exact map_set_same _ _ _ _ ⟨0, 0, 0, 0, false⟩ rfl

@[simp] theorem shape_pushFlow (G : graph R) (e : Nat) (b : R) :
    shape (pushFlow G e b) = shape G := by
  simp [pushFlow]

@[simp] theorem shape_loopReset (G : graph R) : shape (loopReset G) = shape G := by
  simp only [shape, loopReset, List.map_map]
  congr 1

@[simp] theorem shape_maxFlow (G : graph R) (x : R) :
    shape ({ G with maxFlow := x } : graph R) = shape G := rfl

/-! ## Construction -/

@[simp] theorem nNodes_addEdge (G : graph R) (u v : Nat) (c : R) (r : Bool) :
    (addEdge G u v c r).nNodes = G.nNodes := by simp [addEdge, graph.nNodes]

@[simp] theorem nEdges_addEdge (G : graph R) (u v : Nat) (c : R) (r : Bool) :
    (addEdge G u v c r).nEdges = G.nEdges + 1 := by simp [addEdge, graph.nEdges]

@[simp] theorem maxFlow_addEdge (G : graph R) (u v : Nat) (c : R) (r : Bool) :
    (addEdge G u v c r).maxFlow = G.maxFlow := rfl

theorem getNode_addEdge (G : graph R) (u v : Nat) (c : R) (r : Bool) (w : Nat) :
    getNode (addEdge G u v c r) w =
      if w = u ∧ u < G.nNodes then
        { getNode G u with adj := (getNode G u).adj ++ [G.nEdges] }
      else getNode G w := by
  simp only [getNode, addEdge, graph.nNodes, getD_set_ite]

@[simp] theorem id_addEdge (G : graph R) (u v : Nat) (c : R) (r : Bool) (w : Nat) :
    (getNode (addEdge G u v c r) w).id = (getNode G w).id := by
  rw [getNode_addEdge]; split
  · next h => rw [h.1]
  · rfl

@[simp] theorem level_addEdge (G : graph R) (u v : Nat) (c : R) (r : Bool) (w : Nat) :
    (getNode (addEdge G u v c r) w).level = (getNode G w).level := by
  rw [getNode_addEdge]; split
  · next h => rw [h.1]
  · rfl

@[simp] theorem adjIdx_addEdge (G : graph R) (u v : Nat) (c : R) (r : Bool) (w : Nat) :
    (getNode (addEdge G u v c r) w).adjIdx = (getNode G w).adjIdx := by
  rw [getNode_addEdge]; split
  · next h => rw [h.1]
  · rfl

theorem adj_addEdge (G : graph R) (u v : Nat) (c : R) (r : Bool) (w : Nat) :
    (getNode (addEdge G u v c r) w).adj =
      if w = u ∧ u < G.nNodes then (getNode G w).adj ++ [G.nEdges] else (getNode G w).adj := by
  rw [getNode_addEdge]; split
  · next h => rw [h.1]
  · rfl

theorem getEdge_addEdge (G : graph R) (u v : Nat) (c : R) (r : Bool) (j : Nat) :
    getEdge (addEdge G u v c r) j =
      if j = G.nEdges then ⟨u, v, c, 0, r⟩ else getEdge G j := by
  simp only [getEdge, addEdge, graph.nEdges, List.getD_eq_getElem?_getD]
  rcases Nat.lt_trichotomy j G.edges.length with h | h | h
  · rw [List.getElem?_append_left h]; simp [Nat.ne_of_lt h]
  · subst h; simp
  · rw [List.getElem?_eq_none (by simp; omega), List.getElem?_eq_none (by omega)]
    simp [Nat.ne_of_gt h]

theorem WF_newGraph (n : Nat) : WF (newGraph n : graph R) := by
  have hnode : ∀ v, getNode (newGraph n : graph R) v = ⟨if v < n then v else 0, [], -1, 0⟩ := by
    intro v
    simp only [getNode, newGraph, List.getD_eq_getElem?_getD, List.getElem?_map]
    by_cases hv : v < n
    · rw [List.getElem?_range hv]; simp [hv, newNode]
    · rw [List.getElem?_eq_none (by simpa using hv)]; simp [hv]
  have hn : (newGraph n : graph R).nNodes = n := by simp [newGraph, graph.nNodes]
  have he : (newGraph n : graph R).nEdges = 0 := by simp [newGraph, graph.nEdges]
  constructor
  · intro v hv; rw [hnode]; rw [hn] at hv; simp [hv]
  · intro v hv j hj; rw [hnode] at hj; simp at hj
  · intro j hj; rw [he] at hj; omega
  · intro j hj; rw [he] at hj; omega
  · intro j hj; rw [he] at hj; omega
  · rw [he]
  · intro j hj; rw [he] at hj; omega
  · intro j hj; rw [he] at hj; omega
  · intro j hj; rw [he] at hj; omega
  · intro v; rw [hnode]; simp

theorem WF_addPair {G : graph R} (hG : WF G) {u v : Nat} (hu : u < G.nNodes)
    (hv : v < G.nNodes) (c : R) :
    WF (addEdge (addEdge G u v c false) v u 0 true) := by
  have hev := hG.even
  have hE : ∀ j, getEdge (addEdge (addEdge G u v c false) v u 0 true) j =
      if j = G.nEdges + 1 then ⟨v, u, 0, 0, true⟩
      else if j = G.nEdges then ⟨u, v, c, 0, false⟩ else getEdge G j := by
    intro j; rw [getEdge_addEdge, getEdge_addEdge, nEdges_addEdge]
  have hA : ∀ w, (getNode (addEdge (addEdge G u v c false) v u 0 true) w).adj =
      ((getNode G w).adj ++ if w = u then [G.nEdges] else []) ++
        if w = v then [G.nEdges + 1] else [] := by
    intro w
    rw [adj_addEdge, adj_addEdge, nNodes_addEdge, nEdges_addEdge]
    by_cases h1 : w = u <;> by_cases h2 : w = v <;> simp_all
  have hold : ∀ w, ∀ j ∈ (getNode G w).adj, j < G.nEdges := by
    intro w j hj
    by_cases hw : w < G.nNodes
    · exact (hG.adj_lt w hw j hj).1
    · have : getNode G w = ⟨0, [], -1, 0⟩ := by
        unfold getNode; rw [List.getD_eq_getElem?_getD, List.getElem?_eq_none]; rfl
        unfold graph.nNodes at hw; omega
      rw [this] at hj; simp at hj
  constructor
  · intro w hw; simp at hw ⊢; exact hG.id_eq w hw
  · intro w hw j hj
    simp only [nNodes_addEdge, nEdges_addEdge] at hw ⊢
    rw [hA] at hj
    rw [hE]
    simp only [List.mem_append] at hj
    rcases hj with (hj | hj) | hj
    · have := hG.adj_lt w hw j hj
      have h1 : j ≠ G.nEdges + 1 := by omega
      have h2 : j ≠ G.nEdges := by omega
      simp [h1, h2]; exact ⟨by omega, this.2⟩
    · by_cases h1 : w = u
      · simp [h1] at hj; subst hj; simp [h1]; try omega
      · simp [h1] at hj
    · by_cases h1 : w = v
      · simp [h1] at hj; subst hj; simp [h1]; try omega
      · simp [h1] at hj
  · intro j hj
    simp only [nEdges_addEdge] at hj
    rw [hE, hA]
    by_cases h1 : j = G.nEdges + 1
    · simp [h1]
    · by_cases h2 : j = G.nEdges
      · simp [h2]
      · simp only [h1, h2, if_false, List.mem_append]
        left; left; exact hG.mem_adj j (by omega)
  · intro j hj
    simp only [nEdges_addEdge, nNodes_addEdge] at hj ⊢
    rw [hE]
    by_cases h1 : j = G.nEdges + 1
    · simp [h1, hv]
    · by_cases h2 : j = G.nEdges
      · simp [h2, hu]
      · simp only [h1, h2, if_false]; exact hG.frm_lt j (by omega)
  · intro j hj
    simp only [nEdges_addEdge, nNodes_addEdge] at hj ⊢
    rw [hE]
    by_cases h1 : j = G.nEdges + 1
    · simp [h1, hu]
    · by_cases h2 : j = G.nEdges
      · simp [h2, hv]
      · simp only [h1, h2, if_false]; exact hG.to_lt j (by omega)
  · simp only [nEdges_addEdge]; omega
  · intro j hj
    simp only [nEdges_addEdge] at hj
    have hx := xor_one_eq j
    rw [hE, hE]
    by_cases h1 : j = G.nEdges + 1
    · have : j ^^^ 1 = G.nEdges := by rw [hx]; split <;> omega
      rw [this]; subst h1; simp
    · by_cases h2 : j = G.nEdges
      · have : j ^^^ 1 = G.nEdges + 1 := by rw [hx]; split <;> omega
        rw [this]; subst h2; simp
      · have hlt : j ^^^ 1 < G.nEdges := xor_one_lt hev (by omega)
        have h3 : j ^^^ 1 ≠ G.nEdges + 1 := by omega
        have h4 : j ^^^ 1 ≠ G.nEdges := by omega
        simp only [h1, h2, h3, h4, if_false]
        exact hG.pair_frm j (by omega)
  · intro j hj
    simp only [nEdges_addEdge] at hj
    have hx := xor_one_eq j
    rw [hE, hE]
    by_cases h1 : j = G.nEdges + 1
    · have : j ^^^ 1 = G.nEdges := by rw [hx]; split <;> omega
      rw [this]; subst h1; simp
    · by_cases h2 : j = G.nEdges
      · have : j ^^^ 1 = G.nEdges + 1 := by rw [hx]; split <;> omega
        rw [this]; subst h2; simp
      · have hlt : j ^^^ 1 < G.nEdges := xor_one_lt hev (by omega)
        have h3 : j ^^^ 1 ≠ G.nEdges + 1 := by omega
        have h4 : j ^^^ 1 ≠ G.nEdges := by omega
        simp only [h1, h2, h3, h4, if_false]
        exact hG.pair_to j (by omega)
  · intro j hj
    simp only [nEdges_addEdge] at hj
    rw [hE]
    by_cases h1 : j = G.nEdges + 1
    · simp [h1]; omega
    · by_cases h2 : j = G.nEdges
      · simp [h2]; omega
      · simp only [h1, h2, if_false]; exact hG.residual_eq j (by omega)
  · intro w
    rw [hA]
    have hnd := hG.adj_nodup w
    have hlt := hold w
    rw [List.nodup_append]
    refine ⟨?_, ?_, ?_⟩
    · rw [List.nodup_append]
      refine ⟨hnd, by split <;> simp, ?_⟩
      intro a ha hb
      have := hlt a ha
      split at hb
      · simp at hb; omega
      · simp at hb
    · split <;> simp
    · intro a ha hb
      have h1 : a = G.nEdges + 1 := by
        split at hb
        · simpa using hb
        · simp at hb
      rw [List.mem_append] at ha
      rcases ha with ha | ha
      · have := hlt a ha; omega
      · split at ha
        · simp at ha; omega
        · simp at ha

@[simp] theorem nNodes_buildGraph (G : graph R) (es : List (Nat × Nat × R)) :
    (buildGraph G es).nNodes = G.nNodes := by
  induction es generalizing G with
  | nil => rfl
  | cons e es ih => obtain ⟨u, v, c⟩ := e; simp [buildGraph, ih]

@[simp] theorem nEdges_buildGraph (G : graph R) (es : List (Nat × Nat × R)) :
    (buildGraph G es).nEdges = G.nEdges + 2 * es.length := by
  induction es generalizing G with
  | nil => rfl
  | cons e es ih => obtain ⟨u, v, c⟩ := e; simp [buildGraph, ih]; omega

@[simp] theorem maxFlow_buildGraph (G : graph R) (es : List (Nat × Nat × R)) :
    (buildGraph G es).maxFlow = G.maxFlow := by
  induction es generalizing G with
  | nil => rfl
  | cons e es ih => obtain ⟨u, v, c⟩ := e; simp [buildGraph, ih]

@[simp] theorem level_buildGraph (G : graph R) (es : List (Nat × Nat × R)) (w : Nat) :
    (getNode (buildGraph G es) w).level = (getNode G w).level := by
  induction es generalizing G with
  | nil => rfl
  | cons e es ih => obtain ⟨u, v, c⟩ := e; simp [buildGraph, ih]

@[simp] theorem adjIdx_buildGraph (G : graph R) (es : List (Nat × Nat × R)) (w : Nat) :
    (getNode (buildGraph G es) w).adjIdx = (getNode G w).adjIdx := by
  induction es generalizing G with
  | nil => rfl
  | cons e es ih => obtain ⟨u, v, c⟩ := e; simp [buildGraph, ih]

theorem WF_buildGraph' {G : graph R} (hG : WF G) {es : List (Nat × Nat × R)}
    (hes : inRange G.nNodes es) : WF (buildGraph G es) := by
  induction es generalizing G with
  | nil => exact hG
  | cons e es ih =>
    obtain ⟨u, v, c⟩ := e
    have h1 := hes (u, v, c) (List.mem_cons_self _ _)
    simp only [buildGraph]
    apply ih (WF_addPair hG h1.1 h1.2 c)
    intro e he
    simp only [nNodes_addEdge]
    exact hes e (List.mem_cons_of_mem _ he)

@[simp] theorem nNodes_newGraph (n : Nat) : (newGraph n : graph R).nNodes = n := by
  simp [newGraph, graph.nNodes]

@[simp] theorem nEdges_newGraph (n : Nat) : (newGraph n : graph R).nEdges = 0 := by
  simp [newGraph, graph.nEdges]

theorem getNode_newGraph (n v : Nat) :
    getNode (newGraph n : graph R) v = ⟨if v < n then v else 0, [], -1, 0⟩ := by
  simp only [getNode, newGraph, List.getD_eq_getElem?_getD, List.getElem?_map]
  by_cases hv : v < n
  · rw [List.getElem?_range hv]; simp [hv, newNode]
  · rw [List.getElem?_eq_none (by simpa using hv)]; simp [hv]

theorem WF_buildGraph {n : Nat} {es : List (Nat × Nat × R)} (hes : inRange n es) :
    WF (buildGraph (newGraph n) es) :=
  WF_buildGraph' (WF_newGraph n) (by simpa using hes)

/-- The edge with index `j` right after construction. -/
theorem getEdge_buildGraph' (G : graph R) (es : List (Nat × Nat × R)) (j : Nat) :
    getEdge (buildGraph G es) j =
      if j < G.nEdges then getEdge G j
      else if (j - G.nEdges) / 2 < es.length then
        (if (j - G.nEdges) % 2 = 0 then
          ⟨(es.getD ((j - G.nEdges) / 2) (0, 0, 0)).1, (es.getD ((j - G.nEdges) / 2) (0, 0, 0)).2.1,
            (es.getD ((j - G.nEdges) / 2) (0, 0, 0)).2.2, 0, false⟩
        else
          ⟨(es.getD ((j - G.nEdges) / 2) (0, 0, 0)).2.1, (es.getD ((j - G.nEdges) / 2) (0, 0, 0)).1,
            0, 0, true⟩)
      else ⟨0, 0, 0, 0, false⟩ := by
  induction es generalizing G with
  | nil =>
    simp only [buildGraph, List.length_nil, Nat.not_lt_zero, if_false]
    split
    · rfl
    · unfold getEdge; rw [List.getD_eq_getElem?_getD, List.getElem?_eq_none]; rfl
      unfold graph.nEdges at *; omega
  | cons e es ih =>
    obtain ⟨u, v, c⟩ := e
    simp only [buildGraph]
    rw [ih]
    simp only [nEdges_addEdge, List.length_cons]
    by_cases h1 : j < G.nEdges
    · have : j < G.nEdges + 1 + 1 := by omega
      simp only [h1, this, if_true]
      rw [getEdge_addEdge, getEdge_addEdge, nEdges_addEdge]
      simp [Nat.ne_of_lt h1, show j ≠ G.nEdges + 1 by omega]
    · by_cases h2 : j = G.nEdges
      · subst h2
        have h5 : G.nEdges < G.nEdges + 1 + 1 := by omega
        simp only [h5, if_true, h1, if_false, Nat.sub_self]
        simp [getEdge_addEdge]
      · by_cases h3 : j = G.nEdges + 1
        · subst h3
          have h5 : G.nEdges + 1 < G.nEdges + 1 + 1 := by omega
          have h6 : G.nEdges + 1 - G.nEdges = 1 := by omega
          simp only [h5, if_true, h1, if_false, h6]
          simp [getEdge_addEdge]
        · have h4 : ¬ j < G.nEdges + 1 + 1 := by omega
          simp only [h1, h4, if_false]
          have e1 : (j - (G.nEdges + 1 + 1)) / 2 = (j - G.nEdges) / 2 - 1 := by omega
          have e2 : (j - (G.nEdges + 1 + 1)) % 2 = (j - G.nEdges) % 2 := by omega
          have e3 : (j - G.nEdges) / 2 = ((j - G.nEdges) / 2 - 1) + 1 := by omega
          rw [e1, e2]
          have e4 : ∀ d, (((u, v, c) :: es).getD ((j - G.nEdges) / 2) d) =
              es.getD ((j - G.nEdges) / 2 - 1) d := by
            intro d; rw [e3]; simp
          simp only [e4]
          have e5 : ((j - G.nEdges) / 2 - 1 < es.length) ↔
              ((j - G.nEdges) / 2 < es.length + 1) := by omega
          simp only [e5]

theorem getEdge_buildGraph (n : Nat) (es : List (Nat × Nat × R)) (j : Nat)
    (hj : j < 2 * es.length) :
    getEdge (buildGraph (newGraph n) es) j =
      if j % 2 = 0 then
        ⟨(es.getD (j / 2) (0, 0, 0)).1, (es.getD (j / 2) (0, 0, 0)).2.1,
          (es.getD (j / 2) (0, 0, 0)).2.2, 0, false⟩
      else ⟨(es.getD (j / 2) (0, 0, 0)).2.1, (es.getD (j / 2) (0, 0, 0)).1, 0, 0, true⟩ := by
  rw [getEdge_buildGraph']
  simp only [nEdges_newGraph, Nat.not_lt_zero, if_false, Nat.sub_zero]
  have : j / 2 < es.length := by omega
  simp [this]

theorem level_built (n : Nat) (es : List (Nat × Nat × R)) (v : Nat) :
    (getNode (buildGraph (newGraph n) es) v).level = -1 := by
  simp [getNode_newGraph]

theorem adjIdx_built (n : Nat) (es : List (Nat × Nat × R)) (v : Nat) :
    (getNode (buildGraph (newGraph n) es) v).adjIdx = 0 := by
  simp [getNode_newGraph]

theorem maxFlow_built (n : Nat) (es : List (Nat × Nat × R)) :
    (buildGraph (newGraph n) es).maxFlow = 0 := by
  simp [newGraph]

/-! ## What one call of `dfs` does -/

theorem getEdge_congr {G H : graph R} (h : G.edges = H.edges) (j : Nat) :
    getEdge G j = getEdge H j := by unfold getEdge; rw [h]

theorem nEdges_congr {G H : graph R} (h : G.edges = H.edges) : G.nEdges = H.nEdges := by
  unfold graph.nEdges; rw [h]

theorem pushFlow_edges_congr {G H : graph R} (h : G.edges = H.edges) (j : Nat) (r : R) :
    (pushFlow G j r).edges = (pushFlow H j r).edges := by
  simp only [pushFlow, setCap, setFlow, getEdge, h]

theorem augment_edges_congr {G H : graph R} (h : G.edges = H.edges) (p : List Nat) (r : R) :
    (augment G p r).edges = (augment H p r).edges := by
  induction p with
  | nil => exact h
  | cons j p ih => exact pushFlow_edges_congr ih j r

theorem bottleneck_congr {G H : graph R} (h : G.edges = H.edges) (flow : R) (p : List Nat) :
    bottleneck G flow p = bottleneck H flow p := by
  induction p generalizing flow with
  | nil => rfl
  | cons j p ih => simp only [bottleneck, getEdge_congr h, ih]

theorem LevelPath_congr {G H : graph R} (h : G.edges = H.edges)
    (hl : ∀ v, (getNode G v).level = (getNode H v).level) {u t : Nat} {p : List Nat}
    (hp : LevelPath G u t p) : LevelPath H u t p := by
  induction p generalizing u with
  | nil => exact hp
  | cons j p ih =>
    obtain ⟨h1, h2, h3, h4, h5⟩ := hp
    rw [getEdge_congr h] at h2 h3 h4 h5
    rw [hl, hl] at h4
    exact ⟨nEdges_congr h ▸ h1, h2, h3, h4, ih h5⟩

theorem nAdj_of_shape {G H : graph R} (h : shape G = shape H) (v : Nat) :
    (getNode G v).nAdj = (getNode H v).nAdj := by
  unfold node.nAdj; rw [(shape_node h v).2]

theorem getNode_of_not_lt {G : graph R} {v : Nat} (h : ¬ v < G.nNodes) :
    getNode G v = ⟨0, [], -1, 0⟩ := by
  unfold getNode; rw [List.getD_eq_getElem?_getD, List.getElem?_eq_none]; rfl
  unfold graph.nNodes at h; omega

theorem lt_nNodes_of_nAdj {G : graph R} {v : Nat} (h : 0 < (getNode G v).nAdj) :
    v < G.nNodes := by
  by_contra hv
  rw [getNode_of_not_lt hv] at h
  simp [node.nAdj] at h

theorem getD_mem {α : Type} (l : List α) (i : Nat) (d : α) (h : i < l.length) :
    l.getD i d ∈ l := by
  rw [List.getD_eq_getElem?_getD, List.getElem?_eq_getElem h]
  exact List.getElem_mem h

theorem dfsLoop_post (call : graph R → Nat → R → Option (R × graph R)) (t : Nat)
    (hcall : ∀ G1 a f r G2, WF G1 → call G1 a f = some (r, G2) → DfsPost G1 a t f r G2) :
    ∀ (k i : Nat) (G : graph R) (s : Nat) (flow r : R) (G' : graph R), WF G →
      k = (getNode G s).nAdj - i →
      dfsLoop call s flow k i G = some (r, G') → DfsPost G s t flow r G' := by
  intro k
  induction k with
  | zero =>
    intro i G s flow r G' hG hk h
    simp only [dfsLoop, Option.some.injEq, Prod.mk.injEq] at h
    obtain ⟨rfl, rfl⟩ := h
    exact ⟨rfl, fun _ => rfl, rfl, fun _ => rfl, fun _ => Or.inl rfl,
      fun h => absurd h (lt_irrefl _)⟩
  | succ k ih =>
    intro i G s flow r G' hG hk h
    have hi : i < (getNode G s).nAdj := by omega
    have hs : s < G.nNodes := lt_nNodes_of_nAdj (by omega)
    have hG1 : WF (setAdjIdx G s i) := WF.of_shape (shape_setAdjIdx G s i) hG
    have hmem : (getNode G s).adj.getD i 0 ∈ (getNode G s).adj := getD_mem _ _ _ hi
    have hadj := hG.adj_lt s hs _ hmem
    simp only [dfsLoop, adj_setAdjIdx, getEdge_setAdjIdx, level_setAdjIdx] at h
    split at h
    · next hcond =>
      cases hc : call (setAdjIdx G s i) (getEdge G ((getNode G s).adj.getD i 0)).to_
          (MIN flow (getEdge G ((getNode G s).adj.getD i 0)).cap) with
      | none => rw [hc] at h; simp at h
      | some res =>
        obtain ⟨bneck, G2⟩ := res
        rw [hc] at h
        simp only at h
        have hpost := hcall _ _ _ _ _ hG1 hc
        have hG2 : WF G2 := WF.of_shape hpost.shape_eq hG1
        split at h
        · next hb =>
          simp only [Option.some.injEq, Prod.mk.injEq] at h
          obtain ⟨rfl, rfl⟩ := h
          obtain ⟨p, hp, hedges, hbn⟩ := hpost.edges_pos hb
          refine ⟨?_, ?_, ?_, fun h => absurd hb h, fun h => absurd hb h, fun _ => ?_⟩
          · rw [shape_pushFlow, hpost.shape_eq, shape_setAdjIdx]
          · intro v; rw [getNode_pushFlow, hpost.level_eq, level_setAdjIdx]
          · rw [maxFlow_pushFlow, hpost.maxFlow_eq, maxFlow_setAdjIdx]
          · refine ⟨(getNode G s).adj.getD i 0 :: p, ?_, ?_, ?_⟩
            · refine ⟨hadj.1, hadj.2, hcond.1, hcond.2, ?_⟩
              exact LevelPath_congr (edges_setAdjIdx G s i) (fun v => level_setAdjIdx G s i v) hp
            · simp only [augment]
              apply pushFlow_edges_congr
              rw [hedges]
              exact augment_edges_congr (edges_setAdjIdx G s i) _ _
            · simp only [bottleneck]
              rw [hbn]
              exact bottleneck_congr (edges_setAdjIdx G s i) _ _
        · next hb =>
          have hk2 : k = (getNode G2 s).nAdj - (i + 1) := by
            rw [nAdj_of_shape hpost.shape_eq, nAdj_of_shape (shape_setAdjIdx G s i)]; omega
          have hpost2 := ih (i + 1) G2 s flow r G' hG2 hk2 h
          have hed : G2.edges = G.edges := by
            rw [hpost.edges_zero hb, edges_setAdjIdx]
          have hlv : ∀ v, (getNode G2 v).level = (getNode G v).level := by
            intro v; rw [hpost.level_eq, level_setAdjIdx]
          refine ⟨?_, ?_, ?_, ?_, hpost2.ret_zero, ?_⟩
          · rw [hpost2.shape_eq, hpost.shape_eq, shape_setAdjIdx]
          · intro v; rw [hpost2.level_eq, hlv]
          · rw [hpost2.maxFlow_eq, hpost.maxFlow_eq, maxFlow_setAdjIdx]
          · intro hr; rw [hpost2.edges_zero hr, hed]
          · intro hr
            obtain ⟨p, hp, hedges, hbn⟩ := hpost2.edges_pos hr
            refine ⟨p, LevelPath_congr hed hlv hp, ?_, ?_⟩
            · rw [hedges]; exact augment_edges_congr hed _ _
            · rw [hbn]; exact bottleneck_congr hed _ _
    · next hcond =>
      have hk2 : k = (getNode (setAdjIdx G s i) s).nAdj - (i + 1) := by
        rw [nAdj_of_shape (shape_setAdjIdx G s i)]; omega
      have hpost2 := ih (i + 1) (setAdjIdx G s i) s flow r G' hG1 hk2 h
      have hed : (setAdjIdx G s i).edges = G.edges := edges_setAdjIdx G s i
      have hlv : ∀ v, (getNode (setAdjIdx G s i) v).level = (getNode G v).level :=
        fun v => level_setAdjIdx G s i v
      refine ⟨?_, ?_, ?_, ?_, hpost2.ret_zero, ?_⟩
      · rw [hpost2.shape_eq, shape_setAdjIdx]
      · intro v; rw [hpost2.level_eq, hlv]
      · rw [hpost2.maxFlow_eq, maxFlow_setAdjIdx]
      · intro hr; rw [hpost2.edges_zero hr, hed]
      · intro hr
        obtain ⟨p, hp, hedges, hbn⟩ := hpost2.edges_pos hr
        refine ⟨p, LevelPath_congr hed hlv hp, ?_, ?_⟩
        · rw [hedges]; exact augment_edges_congr hed _ _
        · rw [hbn]; exact bottleneck_congr hed _ _

/-- The effect of `dfs` on a well-formed network. -/
theorem dfs_post : ∀ (fuel : Nat) (G : graph R) (u t : Nat) (flow r : R) (G' : graph R),
    WF G → dfs fuel G u t flow = some (r, G') → DfsPost G u t flow r G' := by
  intro fuel
  induction fuel with
  | zero => intro G u t flow r G' _ h; simp [dfs] at h
  | succ fuel ih =>
    intro G u t flow r G' hG h
    simp only [dfs] at h
    split at h
    · next hst =>
      simp only [Option.some.injEq, Prod.mk.injEq] at h
      obtain ⟨rfl, rfl⟩ := h
      refine ⟨rfl, fun _ => rfl, rfl, fun _ => rfl, fun _ => Or.inr ⟨hst, rfl⟩,
        fun _ => ⟨[], hst, rfl, rfl⟩⟩
    · next hst =>
      exact dfsLoop_post _ t (fun G1 a f r G2 hG1 hc => ih G1 a t f r G2 hG1 hc)
        _ _ G u flow r G' hG rfl h

/-! ## Pushing flow along a path -/

theorem MIN_le_left (a b : R) : MIN a b ≤ a := by
  unfold MIN; split
  · exact le_refl _
  · next h => exact not_lt.mp h

theorem MIN_le_right (a b : R) : MIN a b ≤ b := by
  unfold MIN; split
  · next h => exact le_of_lt h
  · exact le_refl _

theorem MIN_eq_or (a b : R) : MIN a b = a ∨ MIN a b = b := by
  unfold MIN; split
  · exact Or.inl rfl
  · exact Or.inr rfl

theorem MIN_pos {a b : R} (ha : 0 < a) (hb : 0 < b) : 0 < MIN a b := by
  unfold MIN; split <;> assumption

theorem bottleneck_le_flow (G : graph R) (flow : R) (p : List Nat) :
    bottleneck G flow p ≤ flow := by
  induction p generalizing flow with
  | nil => exact le_refl _
  | cons j p ih => exact le_trans (ih _) (MIN_le_left _ _)

theorem bottleneck_le_cap (G : graph R) (flow : R) (p : List Nat) :
    ∀ j ∈ p, bottleneck G flow p ≤ (getEdge G j).cap := by
  induction p generalizing flow with
  | nil => intro j hj; simp at hj
  | cons i p ih =>
    intro j hj
    rcases List.mem_cons.mp hj with rfl | hj
    · show bottleneck G (MIN flow (getEdge G j).cap) p ≤ _
      exact le_trans (bottleneck_le_flow _ _ _) (MIN_le_right _ _)
    · exact ih _ j hj

theorem bottleneck_eq_or (G : graph R) (flow : R) (p : List Nat) :
    bottleneck G flow p = flow ∨ ∃ j ∈ p, bottleneck G flow p = (getEdge G j).cap := by
  induction p generalizing flow with
  | nil => exact Or.inl rfl
  | cons i p ih =>
    rcases ih (MIN flow (getEdge G i).cap) with h | ⟨j, hj, h⟩
    · rcases MIN_eq_or flow (getEdge G i).cap with h2 | h2
      · left; simp only [bottleneck]; rw [h, h2]
      · right; exact ⟨i, List.mem_cons_self _ _, by simp only [bottleneck]; rw [h, h2]⟩
    · right; exact ⟨j, List.mem_cons_of_mem _ hj, h⟩

@[simp] theorem shape_augment (G : graph R) (p : List Nat) (r : R) :
    shape (augment G p r) = shape G := by
  induction p with
  | nil => rfl
  | cons j p ih => simp [augment, ih]

@[simp] theorem nEdges_augment (G : graph R) (p : List Nat) (r : R) :
    (augment G p r).nEdges = G.nEdges := shape_nEdges (shape_augment G p r)

@[simp] theorem frm_augment (G : graph R) (p : List Nat) (r : R) (j : Nat) :
    (getEdge (augment G p r) j).frm = (getEdge G j).frm :=
  (shape_edge (shape_augment G p r) j).1

@[simp] theorem to_augment (G : graph R) (p : List Nat) (r : R) (j : Nat) :
    (getEdge (augment G p r) j).to_ = (getEdge G j).to_ :=
  (shape_edge (shape_augment G p r) j).2.1

@[simp] theorem nodes_augment (G : graph R) (p : List Nat) (r : R) :
    (augment G p r).nodes = G.nodes := by
  induction p with
  | nil => rfl
  | cons j p ih => simp [augment, ih]

/-- The capacity of every edge after the updates along `p`. -/
theorem cap_augment {G : graph R} (hG : WF G) (p : List Nat) (r : R)
    (hp : ∀ j ∈ p, j < G.nEdges) : ∀ x : Nat,
    (getEdge (augment G p r) x).cap =
      (getEdge G x).cap - (p.count x : R) * r + (p.count (x ^^^ 1) : R) * r := by
  induction p with
  | nil => intro x; simp [augment]
  | cons j p ih =>
    intro x
    have hj : j < G.nEdges := hp j (List.mem_cons_self _ _)
    have hj1 : j ^^^ 1 < G.nEdges := xor_one_lt hG.even hj
    have ih' := ih (fun i hi => hp i (List.mem_cons_of_mem _ hi))
    simp only [augment]
    rw [cap_pushFlow _ _ _ _ (by simpa using hj) (by simpa using hj1)]
    have hne := xor_one_ne j
    simp only [List.count_cons]
    by_cases h1 : x = j
    · subst h1
      rw [if_pos rfl, ih']
      simp [hne.symm]
      ring
    · by_cases h2 : x = j ^^^ 1
      · subst h2
        rw [if_neg h1, if_pos rfl, ih', xor_one_xor_one]
        simp [hne.symm]
        ring
      · have h3 : ¬ j = x ^^^ 1 := by
          intro h; apply h2; rw [h, xor_one_xor_one]
        rw [if_neg h1, if_neg h2, ih']
        simp [Ne.symm h1, h3]

/-- The flow field of every edge after the updates along `p`. -/
theorem flow_augment (G : graph R) (p : List Nat) (r : R)
    (hp : ∀ j ∈ p, j < G.nEdges) : ∀ x : Nat,
    (getEdge (augment G p r) x).flow = (getEdge G x).flow + (p.count x : R) * r := by
  induction p with
  | nil => intro x; simp [augment]
  | cons j p ih =>
    intro x
    have hj : j < G.nEdges := hp j (List.mem_cons_self _ _)
    have ih' := ih (fun i hi => hp i (List.mem_cons_of_mem _ hi))
    simp only [augment]
    rw [flow_pushFlow _ _ _ _ (by simpa using hj)]
    simp only [List.count_cons]
    by_cases h1 : x = j
    · subst h1
      rw [if_pos rfl, ih']
      simp
      ring
    · rw [if_neg h1, ih']
      simp [Ne.symm h1]

/-! ### Paths in the level graph -/

theorem LevelPath.lt {G : graph R} {u t : Nat} {p : List Nat} (hp : LevelPath G u t p) :
    ∀ j ∈ p, j < G.nEdges := by
  induction p generalizing u with
  | nil => intro j hj; simp at hj
  | cons i p ih =>
    intro j hj
    rcases List.mem_cons.mp hj with rfl | hj
    · exact hp.1
    · exact ih hp.2.2.2.2 j hj

theorem LevelPath.edge {G : graph R} {u t : Nat} {p : List Nat} (hp : LevelPath G u t p) :
    ∀ j ∈ p, 0 < (getEdge G j).cap ∧
      (getNode G (getEdge G j).to_).level = (getNode G (getEdge G j).frm).level + 1 ∧
      (getNode G u).level ≤ (getNode G (getEdge G j).frm).level := by
  induction p generalizing u with
  | nil => intro j hj; simp at hj
  | cons i p ih =>
    intro j hj
    obtain ⟨h1, h2, h3, h4, h5⟩ := hp
    rcases List.mem_cons.mp hj with rfl | hj
    · rw [h2]; exact ⟨h3, h4, le_refl _⟩
    · have := ih h5 j hj
      exact ⟨this.1, this.2.1, by omega⟩

theorem LevelPath.nodup {G : graph R} {u t : Nat} {p : List Nat} (hp : LevelPath G u t p) :
    p.Nodup := by
  induction p generalizing u with
  | nil => exact List.nodup_nil
  | cons i p ih =>
    obtain ⟨h1, h2, h3, h4, h5⟩ := hp
    refine List.nodup_cons.mpr ⟨?_, ih h5⟩
    intro hi
    have := (LevelPath.edge h5 i hi).2.2
    rw [h2] at this
    omega

theorem LevelPath.xor_not_mem {G : graph R} (hG : WF G) {u t : Nat} {p : List Nat}
    (hp : LevelPath G u t p) : ∀ j ∈ p, j ^^^ 1 ∉ p := by
  intro j hj hj1
  have h1 := (LevelPath.edge hp j hj).2.1
  have h2 := (LevelPath.edge hp _ hj1).2.1
  rw [hG.pair_frm j (hp.lt j hj), hG.pair_to j (hp.lt j hj)] at h2
  omega

theorem LevelPath.cap_after {G : graph R} (hG : WF G) {u t : Nat} {p : List Nat}
    (hp : LevelPath G u t p) (r : R) (x : Nat) :
    (getEdge (augment G p r) x).cap =
      if x ∈ p then (getEdge G x).cap - r
      else if x ^^^ 1 ∈ p then (getEdge G x).cap + r else (getEdge G x).cap := by
  rw [cap_augment hG p r hp.lt]
  by_cases h1 : x ∈ p
  · have h2 : x ^^^ 1 ∉ p := hp.xor_not_mem hG x h1
    rw [if_pos h1, List.count_eq_one_of_mem hp.nodup h1, List.count_eq_zero_of_not_mem h2]
    simp
  · by_cases h2 : x ^^^ 1 ∈ p
    · rw [if_neg h1, if_pos h2, List.count_eq_one_of_mem hp.nodup h2,
        List.count_eq_zero_of_not_mem h1]
      simp
    · rw [if_neg h1, if_neg h2, List.count_eq_zero_of_not_mem h1,
        List.count_eq_zero_of_not_mem h2]
      simp

theorem LevelPath.flow_after {G : graph R} {u t : Nat} {p : List Nat}
    (hp : LevelPath G u t p) (r : R) (x : Nat) :
    (getEdge (augment G p r) x).flow =
      if x ∈ p then (getEdge G x).flow + r else (getEdge G x).flow := by
  rw [flow_augment G p r hp.lt]
  by_cases h1 : x ∈ p
  · rw [if_pos h1, List.count_eq_one_of_mem hp.nodup h1]; simp
  · rw [if_neg h1, List.count_eq_zero_of_not_mem h1]; simp

/-! ## What `bfs` leaves untouched -/

theorem BfsFrame.same (G : graph R) : BfsFrame G G :=
  ⟨rfl, rfl, rfl, fun _ => rfl, fun _ _ => rfl⟩

theorem BfsFrame.comp {G G' G'' : graph R} (h1 : BfsFrame G G') (h2 : BfsFrame G' G'') :
    BfsFrame G G'' := by
  refine ⟨h2.shape_eq.trans h1.shape_eq, h2.edges_eq.trans h1.edges_eq,
    h2.maxFlow_eq.trans h1.maxFlow_eq, fun v => (h2.adjIdx_eq v).trans (h1.adjIdx_eq v), ?_⟩
  intro v hv
  have := h1.level_keep v hv
  rw [h2.level_keep v (by rw [this]; exact hv), this]

theorem BfsFrame.setLevel (G : graph R) (v : Nat) (l : Int)
    (h : (getNode G v).level = -1) : BfsFrame G (setLevel G v l) := by
  refine ⟨shape_setLevel G v l, rfl, rfl, fun w => adjIdx_setLevel G v l w, ?_⟩
  intro w hw
  rw [level_setLevel]
  split
  · next h2 => rw [h2.1] at hw; exact absurd h hw
  · rfl

theorem bfsEdges_frame (n : Nat) (adj : List Nat) (G : graph R) (q : queue) :
    BfsFrame G (bfsEdges n adj (G, q)).1 := by
  induction adj generalizing G q with
  | nil => exact BfsFrame.same G
  | cons eId rest ih =>
    simp only [bfsEdges]
    split
    · next h => exact (BfsFrame.setLevel G _ _ h.2).comp (ih _ _)
    · exact ih _ _

theorem bfsWhile_frame (fuel : Nat) (G : graph R) (q : queue) (G' : graph R)
    (h : bfsWhile fuel G q = some G') : BfsFrame G G' := by
  induction fuel generalizing G q with
  | zero => simp [bfsWhile] at h
  | succ fuel ih =>
    simp only [bfsWhile] at h
    split at h
    · simp only [Option.some.injEq] at h; subst h; exact BfsFrame.same G
    · cases hd : dequeue q with
      | none => rw [hd] at h; simp at h
      | some res =>
        obtain ⟨v, q1⟩ := res
        rw [hd] at h
        simp only at h
        exact (bfsEdges_frame v _ G q1).comp (ih _ _ h)

theorem bfs_eq_some {fuel : Nat} {G : graph R} {s t : Nat} {b : Bool} {G' : graph R}
    (h : bfs fuel G s t = some (b, G')) :
    bfsWhile fuel (setLevel G s 0) (enqueue (newQueue G.nNodes) s) = some G' ∧
      b = ((getNode G' t).level != -1) := by
  simp only [bfs] at h
  cases hw : bfsWhile fuel (setLevel G s 0) (enqueue (newQueue G.nNodes) s) with
  | none => rw [hw] at h; simp at h
  | some G2 =>
    rw [hw] at h
    simp only [Option.some.injEq, Prod.mk.injEq] at h
    obtain ⟨h1, h2⟩ := h
    subst h2
    exact ⟨rfl, h1.symm⟩

/-- The function `bfs` changes no edge, no cursor and not `maxFlow`. -/
theorem bfs_frame {fuel : Nat} {G : graph R} {s t : Nat} {b : Bool} {G' : graph R}
    (h : bfs fuel G s t = some (b, G')) :
    shape G' = shape G ∧ G'.edges = G.edges ∧ G'.maxFlow = G.maxFlow ∧
      ∀ v, (getNode G' v).adjIdx = (getNode G v).adjIdx := by
  have hf := bfsWhile_frame _ _ _ _ (bfs_eq_some h).1
  exact ⟨hf.shape_eq.trans (shape_setLevel _ _ _), hf.edges_eq, hf.maxFlow_eq,
    fun v => (hf.adjIdx_eq v).trans (adjIdx_setLevel _ _ _ _)⟩

/-! ## Invariants of the whole run -/

/-- An invariant kept by `bfs`, `dfs`, `loopReset` and the update of `maxFlow`
is kept by the drain loop. -/
theorem drain_invariant (I : graph R → Prop) (s t : Nat)
    (hdfs : ∀ fuel G r G', I G → dfs fuel G s t INF = some (r, G') →
      (r ≠ 0 → I { G' with maxFlow := G'.maxFlow + r }) ∧ (r = 0 → I G')) :
    ∀ fuel G G', I G → drain fuel G s t = some G' → I G' := by
  intro fuel
  induction fuel with
  | zero => intro G G' _ h; simp [drain] at h
  | succ fuel ih =>
    intro G G' hI h
    simp only [drain] at h
    cases hd : dfs fuel G s t INF with
    | none => rw [hd] at h; simp at h
    | some res =>
      obtain ⟨f, G1⟩ := res
      rw [hd] at h
      simp only at h
      have := hdfs fuel G f G1 hI hd
      split at h
      · next hf => exact ih _ _ (this.1 hf) h
      · next hf =>
        simp only [Option.some.injEq] at h; subst h
        exact this.2 (not_not.mp hf)

theorem dinicLoop_invariant (I : graph R → Prop) (s t : Nat)
    (hbfs : ∀ fuel G b G', I G → bfs fuel G s t = some (b, G') → I G')
    (hdfs : ∀ fuel G r G', I G → dfs fuel G s t INF = some (r, G') →
      (r ≠ 0 → I { G' with maxFlow := G'.maxFlow + r }) ∧ (r = 0 → I G'))
    (hreset : ∀ G, I G → I (loopReset G)) :
    ∀ fuel G k G' k', I G → dinicLoop fuel G s t k = some (G', k') → I G' := by
  intro fuel
  induction fuel with
  | zero => intro G k G' k' _ h; simp [dinicLoop] at h
  | succ fuel ih =>
    intro G k G' k' hI h
    simp only [dinicLoop] at h
    cases hb : bfs fuel G s t with
    | none => rw [hb] at h; simp at h
    | some res =>
      obtain ⟨b, G1⟩ := res
      rw [hb] at h
      have hI1 := hbfs fuel G b G1 hI hb
      cases b with
      | false =>
        simp only [Option.some.injEq, Prod.mk.injEq] at h
        obtain ⟨rfl, _⟩ := h
        exact hI1
      | true =>
        simp only at h
        cases hd : drain fuel G1 s t with
        | none => rw [hd] at h; simp at h
        | some G2 =>
          rw [hd] at h
          simp only at h
          exact ih _ _ _ _ (hreset _ (drain_invariant I s t hdfs fuel G1 G2 hI1 hd)) h

theorem dinic_eq_some {fuel : Nat} {G : graph R} {s t : Nat} {G' : graph R}
    (h : dinic fuel G s t = some G') : ∃ k, dinicLoop fuel G s t 0 = some (G', k) := by
  simp only [dinic, Option.map_eq_some'] at h
  obtain ⟨⟨G2, k⟩, h1, h2⟩ := h
  exact ⟨k, by rw [h1]; simp at h2; rw [h2]⟩

theorem dinic_invariant (I : graph R → Prop) (s t : Nat)
    (hbfs : ∀ fuel G b G', I G → bfs fuel G s t = some (b, G') → I G')
    (hdfs : ∀ fuel G r G', I G → dfs fuel G s t INF = some (r, G') →
      (r ≠ 0 → I { G' with maxFlow := G'.maxFlow + r }) ∧ (r = 0 → I G'))
    (hreset : ∀ G, I G → I (loopReset G))
    {fuel : Nat} {G G' : graph R} (hI : I G) (h : dinic fuel G s t = some G') : I G' := by
  obtain ⟨k, hk⟩ := dinic_eq_some h
  exact dinicLoop_invariant I s t hbfs hdfs hreset fuel G 0 G' k hI hk

/-! ### Pair sums and signs of the capacities -/

theorem pairCap_congr {G H : graph R} (h : G.edges = H.edges) (i : Nat) :
    pairCap G i = pairCap H i := by
  unfold pairCap; rw [getEdge_congr h, getEdge_congr h]

theorem pairCap_augment {G : graph R} (hG : WF G) (p : List Nat) (r : R)
    (hp : ∀ j ∈ p, j < G.nEdges) (i : Nat) : pairCap (augment G p r) i = pairCap G i := by
  unfold pairCap
  rw [cap_augment hG p r hp, cap_augment hG p r hp, xor_one_xor_one]
  ring

theorem dfs_pairCap {fuel : Nat} {G : graph R} {u t : Nat} {flow r : R} {G' : graph R}
    (hG : WF G) (h : dfs fuel G u t flow = some (r, G')) (i : Nat) :
    pairCap G' i = pairCap G i := by
  have hpost := dfs_post fuel G u t flow r G' hG h
  by_cases hr : 0 < r
  · obtain ⟨p, hp, hed, _⟩ := hpost.edges_pos hr
    rw [pairCap_congr hed, pairCap_augment hG p r hp.lt]
  · rw [pairCap_congr (hpost.edges_zero hr)]

theorem capsNonneg_congr {G H : graph R} (h : G.edges = H.edges) (hG : capsNonneg G) :
    capsNonneg H := fun j => by rw [← getEdge_congr h]; exact hG j

theorem dfs_capsNonneg {fuel : Nat} {G : graph R} {u t : Nat} {flow r : R} {G' : graph R}
    (hG : WF G) (hc : capsNonneg G) (h : dfs fuel G u t flow = some (r, G')) :
    capsNonneg G' := by
  have hpost := dfs_post fuel G u t flow r G' hG h
  by_cases hr : 0 < r
  · obtain ⟨p, hp, hed, hb⟩ := hpost.edges_pos hr
    intro j
    rw [getEdge_congr hed, hp.cap_after hG]
    split
    · next hj =>
      have := bottleneck_le_cap G flow p j hj
      rw [← hb] at this
      linarith
    · split
      · have := hc j; linarith
      · exact hc j
  · exact capsNonneg_congr (hpost.edges_zero hr).symm hc

theorem dfs_le_flow {fuel : Nat} {G : graph R} {u t : Nat} {flow r : R} {G' : graph R}
    (hG : WF G) (hf : 0 ≤ flow) (h : dfs fuel G u t flow = some (r, G')) :
    0 ≤ r ∧ r ≤ flow := by
  have hpost := dfs_post fuel G u t flow r G' hG h
  by_cases hr : 0 < r
  · obtain ⟨p, hp, hed, hb⟩ := hpost.edges_pos hr
    exact ⟨le_of_lt hr, hb ▸ bottleneck_le_flow G flow p⟩
  · rcases hpost.ret_zero hr with h0 | ⟨_, h1⟩
    · rw [h0]; exact ⟨le_refl _, hf⟩
    · rw [h1]; exact ⟨hf, le_refl _⟩

/-! ## Fuel -/

theorem dfsLoop_mono (call call' : graph R → Nat → R → Option (R × graph R))
    (hc : ∀ G a f x, call G a f = some x → call' G a f = some x) (s : Nat) (flow : R) :
    ∀ (k i : Nat) (G : graph R) (x : R × graph R),
      dfsLoop call s flow k i G = some x → dfsLoop call' s flow k i G = some x := by
  intro k
  induction k with
  | zero => intro i G x h; simpa [dfsLoop] using h
  | succ k ih =>
    intro i G x h
    simp only [dfsLoop] at h ⊢
    split
    · next hcond =>
      rw [if_pos hcond] at h
      cases hcall : call (setAdjIdx G s i)
          (getEdge (setAdjIdx G s i) ((getNode (setAdjIdx G s i) s).adj.getD i 0)).to_
          (MIN flow (getEdge (setAdjIdx G s i) ((getNode (setAdjIdx G s i) s).adj.getD i 0)).cap) with
      | none => rw [hcall] at h; simp at h
      | some res =>
        rw [hcall] at h
        rw [hc _ _ _ _ hcall]
        obtain ⟨bneck, G2⟩ := res
        simp only at h ⊢
        split
        · next hb => rw [if_pos hb] at h; exact h
        · next hb => rw [if_neg hb] at h; exact ih _ _ _ h
    · next hcond =>
      rw [if_neg hcond] at h
      exact ih _ _ _ h

theorem dfs_mono_succ : ∀ (fuel : Nat) (G : graph R) (u t : Nat) (flow : R) (x : R × graph R),
    dfs fuel G u t flow = some x → dfs (fuel + 1) G u t flow = some x := by
  intro fuel
  induction fuel with
  | zero => intro G u t flow x h; simp [dfs] at h
  | succ fuel ih =>
    intro G u t flow x h
    rw [dfs] at h ⊢
    split
    · next hst => rw [if_pos hst] at h; exact h
    · next hst =>
      rw [if_neg hst] at h
      exact dfsLoop_mono _ _ (fun G1 a f y hy => ih G1 a t f y hy) _ _ _ _ _ _ h

theorem dfs_mono {fuel fuel' : Nat} (hle : fuel ≤ fuel') {G : graph R} {u t : Nat} {flow : R}
    {x : R × graph R} (h : dfs fuel G u t flow = some x) : dfs fuel' G u t flow = some x := by
  induction hle with
  | refl => exact h
  | step _ ih => exact dfs_mono_succ _ _ _ _ _ _ ih

theorem bfsWhile_mono_succ : ∀ (fuel : Nat) (G : graph R) (q : queue) (G' : graph R),
    bfsWhile fuel G q = some G' → bfsWhile (fuel + 1) G q = some G' := by
  intro fuel
  induction fuel with
  | zero => intro G q G' h; simp [bfsWhile] at h
  | succ fuel ih =>
    intro G q G' h
    rw [bfsWhile] at h ⊢
    split
    · next he => rw [if_pos he] at h; exact h
    · next he =>
      rw [if_neg he] at h
      cases hd : dequeue q with
      | none => rw [hd] at h; simp at h
      | some res =>
        obtain ⟨v, q1⟩ := res
        rw [hd] at h
        simp only at h ⊢
        exact ih _ _ _ h

theorem bfsWhile_mono {fuel fuel' : Nat} (hle : fuel ≤ fuel') {G : graph R} {q : queue}
    {G' : graph R} (h : bfsWhile fuel G q = some G') : bfsWhile fuel' G q = some G' := by
  induction hle with
  | refl => exact h
  | step _ ih => exact bfsWhile_mono_succ _ _ _ _ ih

theorem bfs_mono {fuel fuel' : Nat} (hle : fuel ≤ fuel') {G : graph R} {s t : Nat}
    {x : Bool × graph R} (h : bfs fuel G s t = some x) : bfs fuel' G s t = some x := by
  obtain ⟨b, G'⟩ := x
  obtain ⟨h1, h2⟩ := bfs_eq_some h
  simp only [bfs, bfsWhile_mono hle h1, h2]

theorem drain_mono_succ : ∀ (fuel : Nat) (G : graph R) (s t : Nat) (G' : graph R),
    drain fuel G s t = some G' → drain (fuel + 1) G s t = some G' := by
  intro fuel
  induction fuel with
  | zero => intro G s t G' h; simp [drain] at h
  | succ fuel ih =>
    intro G s t G' h
    rw [drain] at h ⊢
    cases hd : dfs fuel G s t INF with
    | none => rw [hd] at h; simp at h
    | some res =>
      obtain ⟨f, G1⟩ := res
      rw [hd] at h
      rw [dfs_mono_succ _ _ _ _ _ _ hd]
      simp only at h ⊢
      split
      · next hf => rw [if_pos hf] at h; exact ih _ _ _ _ h
      · next hf => rw [if_neg hf] at h; exact h

theorem drain_mono {fuel fuel' : Nat} (hle : fuel ≤ fuel') {G : graph R} {s t : Nat}
    {G' : graph R} (h : drain fuel G s t = some G') : drain fuel' G s t = some G' := by
  induction hle with
  | refl => exact h
  | step _ ih => exact drain_mono_succ _ _ _ _ _ ih

theorem dinicLoop_mono_succ : ∀ (fuel : Nat) (G : graph R) (s t k : Nat) (x : graph R × Nat),
    dinicLoop fuel G s t k = some x → dinicLoop (fuel + 1) G s t k = some x := by
  intro fuel
  induction fuel with
  | zero => intro G s t k x h; simp [dinicLoop] at h
  | succ fuel ih =>
    intro G s t k x h
    rw [dinicLoop] at h ⊢
    cases hb : bfs fuel G s t with
    | none => rw [hb] at h; simp at h
    | some res =>
      obtain ⟨b, G1⟩ := res
      rw [hb] at h
      rw [bfs_mono (Nat.le_succ fuel) hb]
      cases b with
      | false => exact h
      | true =>
        simp only at h ⊢
        cases hd : drain fuel G1 s t with
        | none => rw [hd] at h; simp at h
        | some G2 =>
          rw [hd] at h
          rw [drain_mono_succ _ _ _ _ _ hd]
          simp only at h ⊢
          exact ih _ _ _ _ _ h

theorem dinicLoop_mono {fuel fuel' : Nat} (hle : fuel ≤ fuel') {G : graph R} {s t k : Nat}
    {x : graph R × Nat} (h : dinicLoop fuel G s t k = some x) :
    dinicLoop fuel' G s t k = some x := by
  induction hle with
  | refl => exact h
  | step _ ih => exact dinicLoop_mono_succ _ _ _ _ _ _ ih

/-! ### `dfs` returns -/

theorem dfsLoop_total (call : graph R → Nat → R → Option (R × graph R)) (t : Nat) (M L : Int)
    (hpost : ∀ G1 a f r G2, WF G1 → call G1 a f = some (r, G2) → DfsPost G1 a t f r G2)
    (htot : ∀ G1 a f, WF G1 → (∀ v, (getNode G1 v).level ≤ M) →
      (getNode G1 a).level = L + 1 → ∃ x, call G1 a f = some x) (s : Nat) (flow : R) :
    ∀ (k i : Nat) (G : graph R), WF G → (∀ v, (getNode G v).level ≤ M) →
      (getNode G s).level = L → ∃ x, dfsLoop call s flow k i G = some x := by
  intro k
  induction k with
  | zero => intro i G _ _ _; exact ⟨_, rfl⟩
  | succ k ih =>
    intro i G hG hM hL
    have hG1 : WF (setAdjIdx G s i) := WF.of_shape (shape_setAdjIdx G s i) hG
    have hM1 : ∀ v, (getNode (setAdjIdx G s i) v).level ≤ M := by
      intro v; rw [level_setAdjIdx]; exact hM v
    simp only [dfsLoop]
    split
    · next hcond =>
      obtain ⟨⟨bneck, G2⟩, hx⟩ := htot (setAdjIdx G s i)
        (getEdge (setAdjIdx G s i) ((getNode (setAdjIdx G s i) s).adj.getD i 0)).to_
        (MIN flow (getEdge (setAdjIdx G s i) ((getNode (setAdjIdx G s i) s).adj.getD i 0)).cap)
        hG1 hM1 (by rw [hcond.2, level_setAdjIdx, hL])
      rw [hx]
      simp only
      split
      · exact ⟨_, rfl⟩
      · have hp := hpost _ _ _ _ _ hG1 hx
        apply ih _ _ (WF.of_shape hp.shape_eq hG1)
        · intro v; rw [hp.level_eq]; exact hM1 v
        · rw [hp.level_eq, level_setAdjIdx, hL]
    · exact ih _ _ hG1 hM1 (by rw [level_setAdjIdx, hL])

/-- With more fuel than there are levels above `u`, `dfs` returns. -/
theorem dfs_total (M : Int) : ∀ (fuel : Nat) (G : graph R) (u t : Nat) (flow : R),
    WF G → (∀ v, (getNode G v).level ≤ M) → (M - (getNode G u).level).toNat < fuel →
    ∃ x, dfs fuel G u t flow = some x := by
  intro fuel
  induction fuel with
  | zero => intro G u t flow _ _ h; omega
  | succ fuel ih =>
    intro G u t flow hG hM hfuel
    simp only [dfs]
    split
    · exact ⟨_, rfl⟩
    · refine dfsLoop_total _ t M (getNode G u).level
        (fun G1 a f r G2 hG1 hc => dfs_post fuel G1 a t f r G2 hG1 hc) ?_ u flow _ _ G hG hM rfl
      intro G1 a f hG1 hM1 ha
      apply ih G1 a t f hG1 hM1
      have := hM1 a
      omega

/-! ## The circular buffer is a FIFO queue -/

theorem mod_small {a s : Nat} (h : a < s) : a % s = a := Nat.mod_eq_of_lt h

theorem mod_wrap {a s : Nat} (h1 : s ≤ a) (h2 : a < 2 * s) : a % s = a - s := by
  rw [Nat.mod_eq_sub_mod h1, Nat.mod_eq_of_lt (by omega)]

theorem qcount_eq {Q : queue} (h : QInv Q) :
    qcount Q = if Q.front ≤ Q.back then Q.back - Q.front else Q.back + Q.size - Q.front := by
  have h1 := h.front_lt
  have h2 := h.back_lt
  unfold qcount
  split
  · rw [mod_wrap (by omega) (by omega)]; omega
  · rw [mod_small (by omega)]

theorem qcount_lt {Q : queue} (h : QInv Q) : qcount Q < Q.size :=
  Nat.mod_lt _ h.size_pos

theorem QInv_newQueue {n : Nat} (hn : 0 < n) : QInv (newQueue n) :=
  ⟨hn, by simp [newQueue], hn, hn⟩

theorem qlist_newQueue {n : Nat} (hn : 0 < n) : qlist (newQueue n) = [] := by
  have : qcount (newQueue n) = 0 := by
    rw [qcount_eq (QInv_newQueue hn)]; simp [newQueue]
  simp [qlist, qcells, this]

theorem isEmpty_iff {Q : queue} (h : QInv Q) : isEmpty Q = true ↔ qlist Q = [] := by
  have h1 := h.front_lt
  have h2 := h.back_lt
  have hc := qcount_eq h
  simp only [isEmpty, beq_iff_eq, qlist, qcells, List.map_eq_nil_iff, List.range_eq_nil]
  constructor
  · intro he; rw [hc, he]; simp
  · intro h0; rw [h0] at hc; split at hc <;> omega

theorem index_eq {Q : queue} (h : QInv Q) {k : Nat} (hk : k < Q.size) :
    (Q.front + k) % Q.size =
      if Q.front + k < Q.size then Q.front + k else Q.front + k - Q.size := by
  have h1 := h.front_lt
  split
  · next h2 => exact mod_small h2
  · next h2 => exact mod_wrap (by omega) (by omega)

/-- The copy loop of `doubleQueueSize`. -/
theorem copy_getD (arr : List Nat) (size b : Nat) (hlen : arr.length = 2 * size)
    (hb : b ≤ size) :
    ((List.range b).foldl (fun a i => a.set (i + size) (a.getD i 0)) arr).length = 2 * size ∧
    ∀ j, ((List.range b).foldl (fun a i => a.set (i + size) (a.getD i 0)) arr).getD j 0 =
      if size ≤ j ∧ j < size + b then arr.getD (j - size) 0 else arr.getD j 0 := by
  induction b with
  | zero =>
    refine ⟨by simpa using hlen, fun j => ?_⟩
    have : ¬ (size ≤ j ∧ j < size + 0) := by omega
    simp only [List.range_zero, List.foldl_nil]
    rw [if_neg this]
  | succ b ih =>
    obtain ⟨ih1, ih2⟩ := ih (by omega)
    rw [List.range_succ, List.foldl_append]
    simp only [List.foldl_cons, List.foldl_nil]
    refine ⟨by rw [List.length_set]; exact ih1, fun j => ?_⟩
    rw [getD_set_ite, ih1, ih2 b, ih2 j]
    have hnb : ¬ (size ≤ b ∧ b < size + b) := by omega
    rw [if_neg hnb]
    by_cases hj : j = b + size
    · subst hj
      have h1 : b + size = b + size ∧ b + size < 2 * size := ⟨rfl, by omega⟩
      have h2 : size ≤ b + size ∧ b + size < size + (b + 1) := by omega
      rw [if_pos h1, if_pos h2]
      congr 1; omega
    · have h1 : ¬ (j = b + size ∧ b + size < 2 * size) := fun h => hj h.1
      rw [if_neg h1]
      by_cases h3 : size ≤ j ∧ j < size + b
      · have h4 : size ≤ j ∧ j < size + (b + 1) := by omega
        rw [if_pos h3, if_pos h4]
      · have h4 : ¬ (size ≤ j ∧ j < size + (b + 1)) := by omega
        rw [if_neg h3, if_neg h4]

theorem getD_append_left' {α : Type} (l l' : List α) (j : Nat) (d : α) (h : j < l.length) :
    (l ++ l').getD j d = l.getD j d := by
  simp only [List.getD_eq_getElem?_getD, List.getElem?_append_left h]

/-- The cells after an element has been written at `back`. -/
theorem qcells_set {Q : queue} (h : QInv Q) (x : Nat) :
    ((List.range (qcount Q + 1)).map fun k =>
      (Q.array.set Q.back x).getD ((Q.front + k) % Q.size) 0) = qlist Q ++ [x] := by
  have h1 := h.front_lt
  have h2 := h.back_lt
  have hc := qcount_eq h
  have hlt := qcount_lt h
  rw [List.range_succ, List.map_append]
  congr 1
  · simp only [qlist, qcells]
    apply List.map_congr_left
    intro k hk
    rw [List.mem_range] at hk
    rw [getD_set_ite]
    have hi := index_eq h (show k < Q.size by omega)
    have : ¬ ((Q.front + k) % Q.size = Q.back ∧ Q.back < Q.array.length) := by
      intro hh
      have := hh.1
      rw [hi] at this
      rw [hc] at hk
      split_ifs at hk this <;> omega
    rw [if_neg this]
  · simp only [List.map_cons, List.map_nil]
    rw [getD_set_ite]
    have hi := index_eq h hlt
    have : (Q.front + qcount Q) % Q.size = Q.back ∧ Q.back < Q.array.length := by
      refine ⟨?_, by rw [h.len]; exact h2⟩
      rw [hi, hc]
      split_ifs <;> omega
    rw [if_pos this]

/-- The function `enqueue` appends at the end of the queue, also when the buffer grows. -/
theorem enqueue_spec {Q : queue} (h : QInv Q) (x : Nat) :
    QInv (enqueue Q x) ∧ qlist (enqueue Q x) = qlist Q ++ [x] := by
  have h1 := h.front_lt
  have h2 := h.back_lt
  have hc := qcount_eq h
  have hlt := qcount_lt h
  have hcells := qcells_set h x
  have hb : (Q.back + 1) % Q.size = if Q.back + 1 < Q.size then Q.back + 1 else 0 := by
    split
    · next h3 => exact mod_small h3
    · next h3 =>
      have : Q.back + 1 = Q.size := by omega
      rw [this, Nat.mod_self]
  simp only [enqueue]
  split
  · next hfull =>
    -- the buffer is full: it is doubled
    replace hfull : (Q.back + 1) % Q.size = Q.front := hfull
    have hcnt : qcount Q + 1 = Q.size := by
      rw [hb] at hfull
      rw [hc]
      split_ifs at hfull ⊢ <;> omega
    have hcopy := copy_getD ((Q.array.set Q.back x) ++ List.replicate Q.size 0) Q.size
      ((Q.back + 1) % Q.size) (by simp [h.len]; omega)
      (by rw [hfull]; omega)
    refine ⟨⟨?_, ?_, ?_, ?_⟩, ?_⟩
    · simp only [doubleQueueSize]; omega
    · simp only [doubleQueueSize]; rw [hcopy.1]; omega
    · simp only [doubleQueueSize]; omega
    · simp only [doubleQueueSize]; rw [hfull]; omega
    · rw [← hcells]
      have hq : qcount (doubleQueueSize
          ⟨Q.front, (Q.back + 1) % Q.size, Q.size, Q.array.set Q.back x⟩) = Q.size := by
        simp only [qcount, doubleQueueSize]
        rw [hfull]
        have : Q.front + Q.size + Q.size * 2 - Q.front = Q.size + Q.size * 2 := by omega
        rw [this, mod_wrap (by omega) (by omega)]; omega
      simp only [qlist, qcells]
      rw [hq, hcnt]
      apply List.map_congr_left
      intro k hk
      rw [List.mem_range] at hk
      simp only [doubleQueueSize]
      rw [hcopy.2, mod_small (show Q.front + k < Q.size * 2 by omega), index_eq h hk, hfull]
      by_cases h5 : Q.front + k < Q.size
      · have : ¬ (Q.size ≤ Q.front + k ∧ Q.front + k < Q.size + Q.front) := by omega
        rw [if_neg this, if_pos h5, getD_append_left' _ _ _ _ (by simp [h.len]; omega)]
      · have : Q.size ≤ Q.front + k ∧ Q.front + k < Q.size + Q.front := by omega
        rw [if_pos this, if_neg h5, getD_append_left' _ _ _ _ (by simp [h.len]; omega)]
  · next hfull =>
    replace hfull : ¬ (Q.back + 1) % Q.size = Q.front := hfull
    have hcnt : qcount (⟨Q.front, (Q.back + 1) % Q.size, Q.size,
        Q.array.set Q.back x⟩ : queue) = qcount Q + 1 := by
      have hq1 : QInv (⟨Q.front, (Q.back + 1) % Q.size, Q.size,
          Q.array.set Q.back x⟩ : queue) :=
        ⟨h.size_pos, by simp [h.len], h1, Nat.mod_lt _ h.size_pos⟩
      rw [qcount_eq hq1, hc]
      simp only
      rw [hb] at hfull ⊢
      split_ifs at hfull ⊢ <;> omega
    refine ⟨⟨h.size_pos, by simp [h.len], h1, Nat.mod_lt _ h.size_pos⟩, ?_⟩
    rw [← hcells]
    simp only [qlist, qcells]
    rw [hcnt]

/-- The function `dequeue` removes the oldest element of a queue that is not empty. -/
theorem dequeue_spec {Q : queue} (h : QInv Q) (hne : isEmpty Q = false) :
    ∃ x Q', dequeue Q = some (x, Q') ∧ QInv Q' ∧ qlist Q = x :: qlist Q' ∧
      x = Q.array.getD Q.front 0 ∧ Q'.back = Q.back ∧ Q'.size = Q.size ∧
      Q'.array = Q.array ∧ Q'.front = (Q.front + 1) % Q.size := by
  have h1 := h.front_lt
  have h2 := h.back_lt
  have hc := qcount_eq h
  have hlt := qcount_lt h
  have hfb : Q.front ≠ Q.back := by
    intro he; simp [isEmpty, he] at hne
  have hf : (Q.front + 1) % Q.size = if Q.front + 1 < Q.size then Q.front + 1 else 0 := by
    split
    · next h3 => exact mod_small h3
    · next h3 =>
      have : Q.front + 1 = Q.size := by omega
      rw [this, Nat.mod_self]
  have hq' : QInv { Q with front := (Q.front + 1) % Q.size } :=
    ⟨h.size_pos, h.len, Nat.mod_lt _ h.size_pos, h2⟩
  refine ⟨Q.array.getD Q.front 0, { Q with front := (Q.front + 1) % Q.size }, ?_, hq', ?_,
    rfl, rfl, rfl, rfl, rfl⟩
  · simp [dequeue, hne]
  · have hc' := qcount_eq hq'
    simp only at hc'
    have hcnt : qcount Q = qcount { Q with front := (Q.front + 1) % Q.size } + 1 := by
      rw [hc', hc, hf]
      split_ifs <;> omega
    simp only [qlist, qcells]
    rw [hcnt, List.range_succ_eq_map, List.map_cons, List.map_map]
    congr 1
    · simp [mod_small h1]
    · apply List.map_congr_left
      intro k hk
      rw [List.mem_range] at hk
      simp only [Function.comp]
      congr 1
      rw [Nat.mod_add_mod]
      congr 1
      omega

/-! ## Breadth-first search -/

theorem unleveled_setLevel {G : graph R} {a : Nat} (ha : a < G.nNodes)
    (hl : (getNode G a).level = -1) (l : Int) (hne : l ≠ -1) :
    unleveled (setLevel G a l) + 1 = unleveled G := by
  unfold unleveled
  rw [nNodes_setLevel]
  have hmem : a ∈ (Finset.range G.nNodes).filter fun v => (getNode G v).level = -1 := by
    simp [ha, hl]
  have : ((Finset.range G.nNodes).filter fun v => (getNode (setLevel G a l) v).level = -1) =
      ((Finset.range G.nNodes).filter fun v => (getNode G v).level = -1).erase a := by
    ext v
    simp only [Finset.mem_filter, Finset.mem_range, Finset.mem_erase, level_setLevel]
    by_cases hv : v = a
    · subst hv; simp [ha, hne]
    · simp [hv]
  rw [this, Finset.card_erase_of_mem hmem]
  have := Finset.card_pos.mpr ⟨a, hmem⟩
  omega

theorem unleveled_le (G : graph R) : unleveled G ≤ G.nNodes := by
  unfold unleveled
  calc _ ≤ (Finset.range G.nNodes).card := Finset.card_filter_le _ _
    _ = G.nNodes := Finset.card_range _

theorem EdgeOk_setLevel {G : graph R} {a : Nat} (hl : (getNode G a).level = -1) (l : Int)
    {j : Nat} (hok : EdgeOk G j) (hf : (getNode G (getEdge G j).frm).level ≠ -1) :
    EdgeOk (setLevel G a l) j := by
  intro hc
  rw [getEdge_setLevel] at hc ⊢
  have h := hok hc
  have h1 : (getEdge G j).to_ ≠ a := fun he => h.1 (he ▸ hl)
  have h2 : (getEdge G j).frm ≠ a := fun he => hf (he ▸ hl)
  rw [level_setLevel, level_setLevel]
  simp only [h1, h2, false_and, if_false]
  exact h

theorem BfsBase_setLevel {s u : Nat} {G : graph R} (hb : BfsBase s G) {e : Nat}
    (he : e < G.nEdges) (hfrm : (getEdge G e).frm = u) (hu : 0 ≤ (getNode G u).level)
    (hcap : 0 < (getEdge G e).cap) (hl : (getNode G (getEdge G e).to_).level = -1) :
    BfsBase s (setLevel G (getEdge G e).to_ ((getNode G u).level + 1)) := by
  have ha : (getEdge G e).to_ < G.nNodes := hb.wf.to_lt e he
  have hlev : ∀ w, (getNode (setLevel G (getEdge G e).to_ ((getNode G u).level + 1)) w).level =
      if w = (getEdge G e).to_ then (getNode G u).level + 1 else (getNode G w).level := by
    intro w; rw [level_setLevel]; simp [ha]
  have hua : u ≠ (getEdge G e).to_ := by
    intro h; rw [← h] at hl; omega
  constructor
  · exact WF.of_shape (shape_setLevel _ _ _) hb.wf
  · simpa using hb.s_lt
  · rw [hlev]
    have : s ≠ (getEdge G e).to_ := by
      intro h; rw [← h, hb.lvl_s] at hl; omega
    simp [this, hb.lvl_s]
  · intro v; rw [hlev]; split
    · omega
    · exact hb.lvl_ge v
  · intro v hv
    rw [hlev] at hv
    split at hv
    · omega
    · exact hb.zero_s v hv
  · intro v hv
    rw [hlev] at hv ⊢
    by_cases hva : v = (getEdge G e).to_
    · refine ⟨e, by simpa using he, ?_, ?_, ?_⟩
      · simp [hva]
      · simpa using hcap
      · rw [getEdge_setLevel, hlev, hfrm]; simp [hua, hva]
    · simp only [hva, if_false] at hv ⊢
      obtain ⟨j, hj1, hj2, hj3, hj4⟩ := hb.real v hv
      refine ⟨j, by simpa using hj1, by simpa using hj2, by simpa using hj3, ?_⟩
      rw [getEdge_setLevel, hlev]
      have : (getEdge G j).frm ≠ (getEdge G e).to_ := by
        intro h; rw [h, hl] at hj4; omega
      simp [this, hj4]

/-- One iteration of the `for` loop of `bfs` that assigns a level. -/
theorem BfsInner_push {s u : Nat} {G : graph R} {L pre : List Nat}
    (h : BfsInner s u G L pre) {e : Nat} (he : e < G.nEdges) (hfrm : (getEdge G e).frm = u)
    (hcap : 0 < (getEdge G e).cap) (hl : (getNode G (getEdge G e).to_).level = -1) :
    BfsInner s u (setLevel G (getEdge G e).to_ ((getNode G u).level + 1))
      (L ++ [(getEdge G e).to_]) (pre ++ [e]) := by
  have ha : (getEdge G e).to_ < G.nNodes := h.base.wf.to_lt e he
  have hu := h.u_lvl
  have hlev : ∀ w, (getNode (setLevel G (getEdge G e).to_ ((getNode G u).level + 1)) w).level =
      if w = (getEdge G e).to_ then (getNode G u).level + 1 else (getNode G w).level := by
    intro w; rw [level_setLevel]; simp [ha]
  have hua : u ≠ (getEdge G e).to_ := by
    intro h; rw [← h] at hl; omega
  have hLa : ∀ b ∈ L, b ≠ (getEdge G e).to_ := by
    intro b hb hba
    have := (h.q_ok b hb).2.1
    rw [hba, hl] at this; omega
  have hlu : (getNode (setLevel G (getEdge G e).to_ ((getNode G u).level + 1)) u).level =
      (getNode G u).level := by rw [hlev]; simp [hua]
  constructor
  · exact BfsBase_setLevel h.base he hfrm hu hcap hl
  · rw [hlu]; exact hu
  · intro b hb
    rw [hlu, hlev]
    rcases List.mem_append.mp hb with hb | hb
    · simp only [hLa b hb, if_false, nNodes_setLevel]; exact h.q_ok b hb
    · simp only [List.mem_singleton] at hb
      subst hb
      simp only [if_true, nNodes_setLevel]
      exact ⟨ha, by omega, le_refl _⟩
  · rw [List.pairwise_append]
    refine ⟨?_, List.pairwise_singleton _ _, ?_⟩
    · refine List.Pairwise.imp_of_mem ?_ h.q_sorted
      intro a b hma hmb hab
      rw [hlev, hlev]; simp only [hLa a hma, hLa b hmb, if_false]; exact hab
    · intro a hma b hmb
      simp only [List.mem_singleton] at hmb
      subst hmb
      rw [hlev, hlev]; simp only [hLa a hma, if_false, if_true]
      exact (h.q_ok a hma).2.2
  · intro v; rw [hlu, hlev]; split
    · exact le_refl _
    · exact h.all_le v
  · intro j hj hlf hnL hnu
    rw [getEdge_setLevel] at hlf hnL hnu
    have hfa : (getEdge G j).frm ≠ (getEdge G e).to_ := by
      intro hh; apply hnL; rw [hh]; simp
    rw [hlev] at hlf
    simp only [hfa, if_false] at hlf
    have hnL' : (getEdge G j).frm ∉ L := fun hh => hnL (List.mem_append_left _ hh)
    exact EdgeOk_setLevel hl _ (h.done j (by simpa using hj) hlf hnL' hnu) hlf
  · intro j hj
    rw [getEdge_setLevel]
    rcases List.mem_append.mp hj with hj | hj
    · have := h.pre_done j hj
      refine ⟨this.1, EdgeOk_setLevel hl _ this.2 ?_⟩
      rw [this.1]; omega
    · simp only [List.mem_singleton] at hj
      subst hj
      refine ⟨hfrm, ?_⟩
      intro _
      rw [getEdge_setLevel, hfrm, hlu, hlev]
      simp only [if_true]
      exact ⟨by omega, le_refl _⟩

/-- One iteration of the `for` loop of `bfs` that assigns nothing. -/
theorem BfsInner_skip {s u : Nat} {G : graph R} {L pre : List Nat}
    (h : BfsInner s u G L pre) {e : Nat} (hfrm : (getEdge G e).frm = u)
    (hno : ¬ (0 < (getEdge G e).cap ∧ (getNode G (getEdge G e).to_).level = -1)) :
    BfsInner s u G L (pre ++ [e]) := by
  refine ⟨h.base, h.u_lvl, h.q_ok, h.q_sorted, h.all_le, h.done, ?_⟩
  intro j hj
  rcases List.mem_append.mp hj with hj | hj
  · exact h.pre_done j hj
  · simp only [List.mem_singleton] at hj
    subst hj
    refine ⟨hfrm, fun hc => ⟨fun hl => hno ⟨hc, hl⟩, ?_⟩⟩
    rw [hfrm]; exact h.all_le _

/-- The `for` loop of `bfs` keeps its invariant and the measure of progress. -/
theorem bfsEdges_spec (s u : Nat) : ∀ (rest pre : List Nat) (G : graph R) (q : queue),
    QInv q → BfsInner s u G (qlist q) pre →
    (∀ j ∈ rest, j < G.nEdges ∧ (getEdge G j).frm = u) →
    QInv (bfsEdges u rest (G, q)).2 ∧
      BfsInner s u (bfsEdges u rest (G, q)).1 (qlist (bfsEdges u rest (G, q)).2) (pre ++ rest) ∧
      unleveled (bfsEdges u rest (G, q)).1 + (qlist (bfsEdges u rest (G, q)).2).length =
        unleveled G + (qlist q).length := by
  intro rest
  induction rest with
  | nil => intro pre G q hq h _; simpa [bfsEdges] using ⟨hq, h⟩
  | cons e rest ih =>
    intro pre G q hq h hrest
    have he := hrest e (List.mem_cons_self _ _)
    have ha : (getEdge G e).to_ < G.nNodes := h.base.wf.to_lt e he.1
    simp only [bfsEdges]
    split
    · next hcond =>
      have hid : (getNode G (getEdge G e).to_).id = (getEdge G e).to_ := h.base.wf.id_eq _ ha
      rw [hid]
      obtain ⟨hq1, hl1⟩ := enqueue_spec hq (getEdge G e).to_
      have hin := BfsInner_push h he.1 he.2 hcond.1 hcond.2
      rw [← hl1] at hin
      have hrest' : ∀ j ∈ rest,
          j < (setLevel G (getEdge G e).to_ ((getNode G u).level + 1)).nEdges ∧
          (getEdge (setLevel G (getEdge G e).to_ ((getNode G u).level + 1)) j).frm = u := by
        intro j hj; simpa using hrest j (List.mem_cons_of_mem _ hj)
      obtain ⟨r1, r2, r3⟩ := ih (pre ++ [e]) _ _ hq1 hin hrest'
      refine ⟨r1, ?_, ?_⟩
      · simpa using r2
      · rw [r3, hl1, List.length_append, List.length_singleton]
        have := unleveled_setLevel ha hcond.2 ((getNode G u).level + 1)
          (by have := h.u_lvl; omega)
        omega
    · next hcond =>
      have hin := BfsInner_skip h he.2 hcond
      obtain ⟨r1, r2, r3⟩ := ih (pre ++ [e]) G q hq hin
        (fun j hj => hrest j (List.mem_cons_of_mem _ hj))
      exact ⟨r1, by simpa using r2, r3⟩

/-- The `while` loop of `bfs` returns, and at its end no node is left in the queue. -/
theorem bfsWhile_spec (s : Nat) : ∀ (fuel : Nat) (G : graph R) (q : queue),
    QInv q → BfsInv s G (qlist q) → unleveled G + (qlist q).length < fuel →
    ∃ G', bfsWhile fuel G q = some G' ∧ BfsInv s G' [] := by
  intro fuel
  induction fuel with
  | zero => intro G q _ _ h; omega
  | succ fuel ih =>
    intro G q hq hinv hfuel
    simp only [bfsWhile]
    cases hemp : isEmpty q with
    | true =>
      have := (isEmpty_iff hq).mp hemp
      rw [this] at hinv
      exact ⟨G, by simp, hinv⟩
    | false =>
      obtain ⟨x, Q', hd, hQ', hl, _⟩ := dequeue_spec hq hemp
      rw [hd]
      simp only [Bool.false_eq_true, if_false]
      rw [hl] at hinv hfuel
      have hx := hinv.q_ok x (List.mem_cons_self _ _)
      have hsorted := List.pairwise_cons.mp hinv.q_sorted
      have hinner : BfsInner s x G (qlist Q') [] := by
        refine ⟨hinv.base, hx.2, ?_, hsorted.2, hinv.all_le x _ rfl, ?_, ?_⟩
        · intro b hb
          exact ⟨(hinv.q_ok b (List.mem_cons_of_mem _ hb)).1, hsorted.1 b hb,
            hinv.q_span x (List.mem_cons_self _ _) b (List.mem_cons_of_mem _ hb)⟩
        · intro j hj hlf hnL hnu
          apply hinv.done j hj hlf
          intro hmem
          rcases List.mem_cons.mp hmem with h1 | h1
          · exact hnu h1
          · exact hnL h1
        · intro j hj; simp at hj
      obtain ⟨r1, r2, r3⟩ := bfsEdges_spec s x (getNode G x).adj [] G Q' hQ' hinner
        (hinv.base.wf.adj_lt x hx.1)
      simp only [List.nil_append] at r2
      have hinv' : BfsInv s (bfsEdges x (getNode G x).adj (G, Q')).1
          (qlist (bfsEdges x (getNode G x).adj (G, Q')).2) := by
        have hsh : shape (bfsEdges x (getNode G x).adj (G, Q')).1 = shape G :=
          (bfsEdges_frame x _ G Q').shape_eq
        refine ⟨r2.base, ?_, r2.q_sorted, ?_, ?_, ?_⟩
        · intro b hb
          have := r2.q_ok b hb
          have := r2.u_lvl
          exact ⟨(r2.q_ok b hb).1, by omega⟩
        · intro a ha b hb
          have h1 := (r2.q_ok a ha).2.1
          have h2 := (r2.q_ok b hb).2.2
          omega
        · intro a l hal v
          have h1 := (r2.q_ok a (by rw [hal]; exact List.mem_cons_self _ _)).2.1
          have h2 := r2.all_le v
          omega
        · intro j hj hlf hnL
          by_cases hju : (getEdge (bfsEdges x (getNode G x).adj (G, Q')).1 j).frm = x
          · have hmem := r2.base.wf.mem_adj j hj
            rw [hju, (shape_node hsh x).2] at hmem
            exact (r2.pre_done j hmem).2
          · exact r2.done j hj hlf hnL hju
      apply ih _ _ r1 hinv'
      rw [r3]
      simp only [List.length_cons] at hfuel
      omega

/-- The loops of `bfs` from `s`, started with every level `-1`, return and
leave levels that satisfy `BfsInv` with an empty queue. -/
theorem bfs_spec {G : graph R} (hG : WF G) {s : Nat} (hs : s < G.nNodes) (t : Nat)
    (hfresh : ∀ v, (getNode G v).level = -1) {fuel : Nat} (hfuel : G.nNodes + 1 < fuel) :
    ∃ G', bfs fuel G s t = some ((getNode G' t).level != -1, G') ∧ BfsInv s G' [] := by
  have hn : 0 < G.nNodes := by omega
  obtain ⟨hq1, hl1⟩ := enqueue_spec (QInv_newQueue hn) s
  rw [qlist_newQueue hn, List.nil_append] at hl1
  have hlev : ∀ w, (getNode (setLevel G s 0) w).level = if w = s then 0 else -1 := by
    intro w; rw [level_setLevel, hfresh]; simp [hs]
  have hinv : BfsInv s (setLevel G s 0) (qlist (enqueue (newQueue G.nNodes) s)) := by
    rw [hl1]
    refine ⟨⟨WF.of_shape (shape_setLevel _ _ _) hG, by simpa using hs, by rw [hlev]; simp,
      ?_, ?_, ?_⟩, ?_, List.pairwise_singleton _ _, ?_, ?_, ?_⟩
    · intro v; rw [hlev]; split <;> omega
    · intro v hv; rw [hlev] at hv; split at hv
      · assumption
      · omega
    · intro v hv; rw [hlev] at hv; split at hv <;> omega
    · intro b hb; simp only [List.mem_singleton] at hb; subst hb
      rw [hlev]; simp [hs]
    · intro a ha b hb
      simp only [List.mem_singleton] at ha hb; subst ha; subst hb; omega
    · intro a l hal v
      simp only [List.cons.injEq] at hal
      rw [← hal.1, hlev, hlev]; split <;> simp
    · intro j hj hlf hnL
      rw [hlev] at hlf
      simp only [List.mem_singleton] at hnL
      rw [if_neg hnL] at hlf
      exact absurd rfl hlf
  have hm : unleveled (setLevel G s 0) + (qlist (enqueue (newQueue G.nNodes) s)).length
      < fuel := by
    rw [hl1]
    have := unleveled_le (setLevel G s 0)
    simp only [nNodes_setLevel, List.length_singleton] at this ⊢
    omega
  obtain ⟨G', h1, h2⟩ := bfsWhile_spec s fuel _ _ hq1 hinv hm
  refine ⟨G', ?_, h2⟩
  simp only [bfs, h1]

/-! ## Levels are distances -/

theorem PosPath_congr {G H : graph R} (h : G.edges = H.edges) {k u v : Nat}
    (hp : PosPath G k u v) : PosPath H k u v := by
  induction k generalizing u with
  | zero => exact hp
  | succ k ih =>
    obtain ⟨j, h1, h2, h3, h4⟩ := hp
    rw [getEdge_congr h] at h2 h3 h4
    exact ⟨j, nEdges_congr h ▸ h1, h2, h3, ih h4⟩

theorem PosPath_snoc {G : graph R} {k u w : Nat} (hp : PosPath G k u w) {j : Nat}
    (hj : j < G.nEdges) (hf : (getEdge G j).frm = w) (hc : 0 < (getEdge G j).cap) :
    PosPath G (k + 1) u (getEdge G j).to_ := by
  induction k generalizing u with
  | zero =>
    have : u = w := hp
    exact ⟨j, hj, by rw [hf, this], hc, rfl⟩
  | succ k ih =>
    obtain ⟨i, h1, h2, h3, h4⟩ := hp
    exact ⟨i, h1, h2, h3, ih h4⟩

/-- At the end of `bfs` a path of `k` edges raises the level by at most `k`. -/
theorem level_le_of_PosPath {s : Nat} {G : graph R} (h : BfsInv s G []) {k u v : Nat}
    (hp : PosPath G k u v) (hu : (getNode G u).level ≠ -1) :
    (getNode G v).level ≠ -1 ∧ (getNode G v).level ≤ (getNode G u).level + k := by
  induction k generalizing u with
  | zero =>
    have : u = v := hp
    subst this
    exact ⟨hu, by simp⟩
  | succ k ih =>
    obtain ⟨j, h1, h2, h3, h4⟩ := hp
    have hok := h.done j h1 (by rw [h2]; exact hu) (by simp) h3
    have := ih h4 hok.1
    rw [h2] at hok
    refine ⟨this.1, ?_⟩
    have h5 := this.2
    have h6 := hok.2
    push_cast
    omega

/-- At the end of `bfs` a node of level `m` is reached by a path of `m` edges. -/
theorem PosPath_of_level {s : Nat} {G : graph R} (h : BfsInv s G []) :
    ∀ (m : Nat) (v : Nat), (getNode G v).level = (m : Int) → PosPath G m s v := by
  intro m
  induction m with
  | zero => intro v hv; exact (h.base.zero_s v (by simpa using hv)).symm
  | succ m ih =>
    intro v hv
    obtain ⟨j, h1, h2, h3, h4⟩ := h.base.real v (by rw [hv]; push_cast; omega)
    have := ih (getEdge G j).frm (by rw [hv] at h4; push_cast at h4; omega)
    have := PosPath_snoc this h1 rfl h3
    rw [h2] at this
    exact this

/-- At the end of `bfs` the level of a node is its distance from `s`, or `-1`
if no path leads to it. -/
theorem BfsInv.dist {s : Nat} {G : graph R} (h : BfsInv s G []) (v : Nat) :
    ((getNode G v).level = -1 ∧ ∀ k, ¬ PosPath G k s v) ∨
    (∃ m : Nat, (getNode G v).level = (m : Int) ∧ PosPath G m s v ∧
      ∀ k, PosPath G k s v → m ≤ k) := by
  have hs0 : (getNode G s).level ≠ -1 := by rw [h.base.lvl_s]; omega
  by_cases hv : (getNode G v).level = -1
  · left
    refine ⟨hv, fun k hp => ?_⟩
    exact (level_le_of_PosPath h hp hs0).1 hv
  · right
    have hge := h.base.lvl_ge v
    refine ⟨(getNode G v).level.toNat, by omega, ?_, ?_⟩
    · exact PosPath_of_level h _ v (by omega)
    · intro k hp
      have := (level_le_of_PosPath h hp hs0).2
      rw [h.base.lvl_s] at this
      omega

theorem BfsInv.reach_iff {s : Nat} {G : graph R} (h : BfsInv s G []) (v : Nat) :
    (getNode G v).level ≠ -1 ↔ ∃ k, PosPath G k s v := by
  rcases h.dist v with ⟨h1, h2⟩ | ⟨m, h1, h2, _⟩
  · constructor
    · intro hh; exact absurd h1 hh
    · rintro ⟨k, hk⟩; exact absurd hk (h2 k)
  · constructor
    · intro _; exact ⟨m, h2⟩
    · intro _; rw [h1]; omega

/-! ## Sums of capacities and cuts -/

theorem wsum_congr {G H : graph R} (h : G.edges = H.edges) (w : Nat → R) :
    wsum G w = wsum H w := by
  unfold wsum
  rw [nEdges_congr h]
  exact Finset.sum_congr rfl fun x _ => by rw [getEdge_congr h]

theorem wsum_pushFlow {G : graph R} (hG : WF G) {e : Nat} (he : e < G.nEdges) (b : R)
    (w : Nat → R) :
    wsum (pushFlow G e b) w = wsum G w - w e * b + w (e ^^^ 1) * b := by
  have he1 : e ^^^ 1 < G.nEdges := xor_one_lt hG.even he
  have hne := xor_one_ne e
  unfold wsum
  rw [nEdges_pushFlow]
  have key : ∀ x, w x * (getEdge (pushFlow G e b) x).cap =
      w x * (getEdge G x).cap + (if x = e then -(w e * b) else 0) +
        (if x = e ^^^ 1 then w (e ^^^ 1) * b else 0) := by
    intro x
    rw [cap_pushFlow G e b x he he1]
    by_cases h1 : x = e
    · subst h1; simp [hne.symm]; ring
    · by_cases h2 : x = e ^^^ 1
      · subst h2; simp [hne]; ring
      · simp [h1, h2]
  simp only [key]
  rw [Finset.sum_add_distrib, Finset.sum_add_distrib, Finset.sum_ite_eq', Finset.sum_ite_eq']
  simp only [Finset.mem_range, he, he1, if_true]
  ring

theorem wsum_augment {G : graph R} (hG : WF G) (p : List Nat) (r : R)
    (hp : ∀ j ∈ p, j < G.nEdges) (w : Nat → R) :
    wsum (augment G p r) w = wsum G w + r * (p.map fun j => w (j ^^^ 1) - w j).sum := by
  induction p with
  | nil => simp [augment]
  | cons j p ih =>
    have hj : j < G.nEdges := hp j (List.mem_cons_self _ _)
    have hW : WF (augment G p r) := WF.of_shape (shape_augment G p r) hG
    simp only [augment]
    rw [wsum_pushFlow hW (by simpa using hj), ih (fun i hi => hp i (List.mem_cons_of_mem _ hi))]
    simp only [List.map_cons, List.sum_cons]
    ring

/-- Along a path from `u` to `t` the differences of a node function add up to
its difference between `t` and `u`. -/
theorem LevelPath.telescope {G : graph R} {u t : Nat} {p : List Nat}
    (hp : LevelPath G u t p) (f : Nat → R) :
    (p.map fun j => f (getEdge G j).to_ - f (getEdge G j).frm).sum = f t - f u := by
  induction p generalizing u with
  | nil =>
    have : u = t := hp
    simp [this]
  | cons j p ih =>
    obtain ⟨h1, h2, h3, h4, h5⟩ := hp
    simp only [List.map_cons, List.sum_cons]
    rw [ih h5, h2]
    ring

theorem crossW_of_shape {G H : graph R} (h : shape G = shape H) (S : Nat → Bool) :
    crossW G S = crossW H S := by
  funext x
  unfold crossW
  rw [(shape_edge h x).1, (shape_edge h x).2.1]

theorem crossW_nonneg (G : graph R) (S : Nat → Bool) (x : Nat) : 0 ≤ crossW G S x := by
  unfold crossW; split <;> simp

theorem residualCut_nonneg {G : graph R} (hc : capsNonneg G) (S : Nat → Bool) :
    0 ≤ residualCut G S := by
  unfold residualCut wsum
  exact Finset.sum_nonneg fun x _ => mul_nonneg (crossW_nonneg G S x) (hc x)

theorem crossW_pair {G : graph R} (hG : WF G) (S : Nat → Bool) {j : Nat} (hj : j < G.nEdges) :
    crossW G S (j ^^^ 1) - crossW G S j =
      (if S (getEdge G j).to_ then (1 : R) else 0) - (if S (getEdge G j).frm then 1 else 0) := by
  unfold crossW
  rw [hG.pair_frm j hj, hG.pair_to j hj]
  cases S (getEdge G j).to_ <;> cases S (getEdge G j).frm <;> simp

/-- Pushing `r` along a path from `u` to `t` lowers the spare capacity that
leaves `S` by `r` when `u` is in `S` and `t` is not. -/
theorem residualCut_augment {G : graph R} (hG : WF G) {u t : Nat} {p : List Nat}
    (hp : LevelPath G u t p) (r : R) (S : Nat → Bool) :
    residualCut (augment G p r) S =
      residualCut G S + r * ((if S t then (1 : R) else 0) - (if S u then 1 else 0)) := by
  unfold residualCut
  rw [crossW_of_shape (shape_augment G p r), wsum_augment hG p r hp.lt]
  congr 2
  rw [← hp.telescope fun v => if S v then (1 : R) else 0]
  apply congrArg
  apply List.map_congr_left
  intro j hj
  exact crossW_pair hG S (hp.lt j hj)

theorem residualCut_congr {G H : graph R} (h1 : shape G = shape H) (h2 : G.edges = H.edges)
    (S : Nat → Bool) : residualCut G S = residualCut H S := by
  unfold residualCut
  rw [crossW_of_shape h1, wsum_congr h2]

theorem sum_range_double (f : Nat → R) (m : Nat) :
    ∑ x in Finset.range (2 * m), f x = ∑ k in Finset.range m, (f (2 * k) + f (2 * k + 1)) := by
  induction m with
  | zero => simp
  | succ m ih =>
    rw [show 2 * (m + 1) = 2 * m + 1 + 1 by ring, Finset.sum_range_succ, Finset.sum_range_succ,
      Finset.sum_range_succ, ih]
    ring

theorem list_sum_eq_range {α : Type} (l : List α) (f : α → R) (d : α) :
    (l.map f).sum = ∑ k in Finset.range l.length, f (l.getD k d) := by
  induction l with
  | nil => simp
  | cons a l ih =>
    rw [List.map_cons, List.sum_cons, List.length_cons, Finset.sum_range_succ', ih]
    simp [add_comm]

/-- Right after construction the spare capacity leaving `S` is the capacity of the cut. -/
theorem residualCut_built (n : Nat) (es : List (Nat × Nat × R)) (S : Nat → Bool) :
    residualCut (buildGraph (newGraph n) es) S = cutCap es S := by
  unfold residualCut wsum cutCap
  rw [nEdges_buildGraph, nEdges_newGraph, Nat.zero_add, sum_range_double,
    list_sum_eq_range _ _ (0, 0, 0)]
  apply Finset.sum_congr rfl
  intro k hk
  rw [Finset.mem_range] at hk
  unfold crossW
  rw [getEdge_buildGraph n es (2 * k) (by omega), getEdge_buildGraph n es (2 * k + 1) (by omega)]
  have h1 : 2 * k % 2 = 0 := by omega
  have h2 : ¬ (2 * k + 1) % 2 = 0 := by omega
  have h3 : 2 * k / 2 = k := by omega
  have h4 : (2 * k + 1) / 2 = k := by omega
  simp only [h1, h2, h3, h4, if_true, if_false, mul_zero, add_zero]
  split <;> simp

/-! ## The flow value and the cuts during the run -/

theorem INF_pos : (0 : R) < INF := by
  unfold INF; norm_num

theorem INF_eq : (INF : R) = 2 ^ 1024 - 2 ^ 971 := by
  unfold INF; norm_num

theorem Fresh_loopReset (G : graph R) : Fresh (loopReset G) :=
  fun v => ⟨level_loopReset G v, adjIdx_loopReset G v⟩

theorem Fresh_built (n : Nat) (es : List (Nat × Nat × R)) :
    Fresh (buildGraph (newGraph n) es) :=
  fun v => ⟨level_built n es v, adjIdx_built n es v⟩

/-- The last call of `bfs` in a run of `dinic` that returns. -/
theorem dinicLoop_last (I : graph R → Prop) (s t : Nat)
    (hbfs : ∀ fuel G b G', I G → bfs fuel G s t = some (b, G') → I G')
    (hdfs : ∀ fuel G r G', I G → dfs fuel G s t INF = some (r, G') →
      (r ≠ 0 → I { G' with maxFlow := G'.maxFlow + r }) ∧ (r = 0 → I G'))
    (hreset : ∀ G, I G → I (loopReset G)) :
    ∀ fuel G k G' k', I G → Fresh G → dinicLoop fuel G s t k = some (G', k') →
      ∃ fuel' Gpre, I Gpre ∧ Fresh Gpre ∧ bfs fuel' Gpre s t = some (false, G') := by
  intro fuel
  induction fuel with
  | zero => intro G k G' k' _ _ h; simp [dinicLoop] at h
  | succ fuel ih =>
    intro G k G' k' hI hF h
    simp only [dinicLoop] at h
    cases hb : bfs fuel G s t with
    | none => rw [hb] at h; simp at h
    | some res =>
      obtain ⟨b, G1⟩ := res
      rw [hb] at h
      have hI1 := hbfs fuel G b G1 hI hb
      cases b with
      | false =>
        simp only [Option.some.injEq, Prod.mk.injEq] at h
        obtain ⟨rfl, _⟩ := h
        exact ⟨fuel, G, hI, hF, hb⟩
      | true =>
        simp only at h
        cases hd : drain fuel G1 s t with
        | none => rw [hd] at h; simp at h
        | some G2 =>
          rw [hd] at h
          simp only at h
          exact ih _ _ _ _ (hreset _ (drain_invariant I s t hdfs fuel G1 G2 hI1 hd))
            (Fresh_loopReset G2) h

theorem CutInv.init {G0 : graph R} (hG : WF G0) (hc : capsNonneg G0) (s t : Nat) :
    CutInv G0 s t G0 := ⟨hG, rfl, hc, fun _ _ _ => rfl⟩

theorem CutInv.bfs {G0 : graph R} {s t : Nat} {fuel : Nat} {G : graph R} {b : Bool}
    {G' : graph R} (hI : CutInv G0 s t G) (h : bfs fuel G s t = some (b, G')) :
    CutInv G0 s t G' := by
  obtain ⟨h1, h2, h3, _⟩ := bfs_frame h
  refine ⟨WF.of_shape h1 hI.wf, h1.trans hI.shape_eq, capsNonneg_congr h2.symm hI.nonneg, ?_⟩
  intro S hs ht
  rw [residualCut_congr h1 h2, h3]
  exact hI.cut S hs ht

theorem CutInv.loopReset {G0 : graph R} {s t : Nat} {G : graph R} (hI : CutInv G0 s t G) :
    CutInv G0 s t (loopReset G) := by
  refine ⟨WF.of_shape (shape_loopReset G) hI.wf, (shape_loopReset G).trans hI.shape_eq,
    capsNonneg_congr (edges_loopReset G).symm hI.nonneg, ?_⟩
  intro S hs ht
  rw [residualCut_congr (shape_loopReset G) (edges_loopReset G), maxFlow_loopReset]
  exact hI.cut S hs ht

theorem CutInv.dfs {G0 : graph R} {s t : Nat} {fuel : Nat} {G : graph R} {r : R}
    {G' : graph R} (hI : CutInv G0 s t G) (h : dfs fuel G s t INF = some (r, G')) :
    (r ≠ 0 → CutInv G0 s t { G' with maxFlow := G'.maxFlow + r }) ∧
      (r = 0 → CutInv G0 s t G') := by
  have hpost := dfs_post fuel G s t INF r G' hI.wf h
  have hr0 := (dfs_le_flow hI.wf (le_of_lt INF_pos) h).1
  have hnn := dfs_capsNonneg hI.wf hI.nonneg h
  have hW : WF G' := WF.of_shape hpost.shape_eq hI.wf
  constructor
  · intro hr
    have hpos : 0 < r := lt_of_le_of_ne hr0 (Ne.symm hr)
    obtain ⟨p, hp, hed, _⟩ := hpost.edges_pos hpos
    refine ⟨WF.of_shape (shape_maxFlow G' _) hW,
      (shape_maxFlow G' _).trans (hpost.shape_eq.trans hI.shape_eq), fun j => hnn j, ?_⟩
    intro S hs ht
    have h1 : residualCut ({ G' with maxFlow := G'.maxFlow + r } : graph R) S =
        residualCut (augment G p r) S :=
      residualCut_congr ((shape_maxFlow G' _).trans
        (hpost.shape_eq.trans (shape_augment G p r).symm)) hed S
    rw [h1, residualCut_augment hI.wf hp r S, hs, ht]
    simp only [Bool.false_eq_true, if_false, if_true]
    rw [hpost.maxFlow_eq, ← hI.cut S hs ht]
    ring
  · intro hr
    have hnp : ¬ 0 < r := by rw [hr]; exact lt_irrefl _
    have hed := hpost.edges_zero hnp
    refine ⟨hW, hpost.shape_eq.trans hI.shape_eq, hnn, ?_⟩
    intro S hs ht
    rw [residualCut_congr hpost.shape_eq hed, hpost.maxFlow_eq]
    exact hI.cut S hs ht

/-- At the end of a failed `bfs` no spare capacity leaves the set of nodes that got a level. -/
theorem residualCut_levels {s : Nat} {G : graph R} (h : BfsInv s G []) (hc : capsNonneg G) :
    residualCut G (fun v => decide ((getNode G v).level ≠ -1)) = 0 := by
  unfold residualCut wsum
  apply Finset.sum_eq_zero
  intro x hx
  rw [Finset.mem_range] at hx
  unfold crossW
  split
  · next hcross =>
    simp only [Bool.and_eq_true, decide_eq_true_eq, Bool.not_eq_true', decide_eq_false_iff_not,
      not_not] at hcross
    have hok := h.done x hx hcross.1 (by simp)
    have : ¬ 0 < (getEdge G x).cap := fun hpos => (hok hpos).1 hcross.2
    have := hc x
    rw [one_mul]
    exact le_antisymm (not_lt.mp ‹¬ 0 < (getEdge G x).cap›) this
  · simp

/-- Two runs of `bfs` on the same input that return give the same result. -/
theorem bfs_fuel_unique {f1 f2 : Nat} {G : graph R} {s t : Nat} {x1 x2 : Bool × graph R}
    (h1 : bfs f1 G s t = some x1) (h2 : bfs f2 G s t = some x2) : x1 = x2 := by
  have a := bfs_mono (Nat.le_max_left f1 f2) h1
  have b := bfs_mono (Nat.le_max_right f1 f2) h2
  rw [a] at b
  exact Option.some.inj b

/-- The state in which `dinic` returns: the cut invariant holds and the levels
are those of a failed `bfs`. -/
theorem dinic_final {G0 : graph R} (hG : WF G0) (hc : capsNonneg G0) (hF : Fresh G0)
    {s t : Nat} (hs : s < G0.nNodes) {fuel : Nat} {G' : graph R}
    (h : dinic fuel G0 s t = some G') :
    CutInv G0 s t G' ∧ BfsInv s G' [] ∧ (getNode G' t).level = -1 := by
  obtain ⟨k, hk⟩ := dinic_eq_some h
  obtain ⟨fuel', Gpre, hI, hFp, hb⟩ := dinicLoop_last (CutInv G0 s t) s t
    (fun _ _ _ _ hI hb => hI.bfs hb) (fun _ _ _ _ hI hd => hI.dfs hd)
    (fun _ hI => hI.loopReset) fuel G0 0 G' k (CutInv.init hG hc s t) hF hk
  have hn : Gpre.nNodes = G0.nNodes := shape_nNodes hI.shape_eq
  obtain ⟨G'', hb2, hinv⟩ := bfs_spec hI.wf (hn ▸ hs) t (fun v => (hFp v).1)
    (Nat.lt_succ_self (Gpre.nNodes + 1))
  have := bfs_fuel_unique hb hb2
  simp only [Prod.mk.injEq] at this
  obtain ⟨hbv, hGG⟩ := this
  subst hGG
  refine ⟨hI.bfs hb, hinv, ?_⟩
  have : ((getNode G' t).level != -1) = false := hbv.symm
  simpa using this

/-! ## The drain loop ends with a blocking flow -/

theorem Shrinks.self (G : graph R) : Shrinks G G := ⟨rfl, fun _ => rfl, fun _ _ h => h⟩

theorem Shrinks.of_edges {G G2 : graph R} (h1 : shape G2 = shape G)
    (h2 : ∀ v, (getNode G2 v).level = (getNode G v).level) (h3 : G2.edges = G.edges) :
    Shrinks G G2 :=
  ⟨h1, h2, fun j _ h => by rw [← getEdge_congr h3]; exact h⟩

theorem Shrinks.chain {G G2 G3 : graph R} (h1 : Shrinks G G2) (h2 : Shrinks G2 G3) :
    Shrinks G G3 := by
  refine ⟨h2.shape_eq.trans h1.shape_eq, fun v => (h2.level_eq v).trans (h1.level_eq v), ?_⟩
  intro j hl hc
  apply h1.cap_pos j hl
  apply h2.cap_pos j _ hc
  rw [h1.level_eq, h1.level_eq, (shape_edge h1.shape_eq j).1, (shape_edge h1.shape_eq j).2.1]
  exact hl

theorem Shrinks.pushFlow {G : graph R} (hG : WF G) {e : Nat} (he : e < G.nEdges)
    (hl : (getNode G (getEdge G e).to_).level = (getNode G (getEdge G e).frm).level + 1)
    {b : R} (hb : 0 ≤ b) : Shrinks G (pushFlow G e b) := by
  refine ⟨shape_pushFlow G e b, fun v => by rw [getNode_pushFlow], ?_⟩
  intro j hj hc
  rw [cap_pushFlow G e b j he (xor_one_lt hG.even he)] at hc
  split at hc
  · next h1 => subst h1; linarith
  · split at hc
    · next _ h2 =>
      subst h2
      rw [hG.pair_frm e he, hG.pair_to e he] at hj
      omega
    · exact hc

theorem Shrinks.levelPath {G G2 : graph R} (h : Shrinks G G2) {u t : Nat} {p : List Nat}
    (hp : LevelPath G2 u t p) : LevelPath G u t p := by
  induction p generalizing u with
  | nil => exact hp
  | cons j p ih =>
    obtain ⟨h1, h2, h3, h4, h5⟩ := hp
    have hf := (shape_edge h.shape_eq j).1
    have ht := (shape_edge h.shape_eq j).2.1
    rw [hf] at h2
    rw [ht] at h4 h5
    rw [h.level_eq, h.level_eq] at h4
    refine ⟨shape_nEdges h.shape_eq ▸ h1, h2, ?_, h4, ih h5⟩
    apply h.cap_pos j _ h3
    rw [h2]; exact h4

theorem Shrinks.canReach {G G2 : graph R} (h : Shrinks G G2) {u t : Nat}
    (hp : CanReach G2 u t) : CanReach G u t := by
  obtain ⟨p, hp⟩ := hp
  exact ⟨p, h.levelPath hp⟩

theorem Shrinks.deadPos {G G2 : graph R} (hG : WF G) (h : Shrinks G G2) {t v pos : Nat}
    (hv : v < G.nNodes) (hpos : pos < (getNode G v).nAdj)
    (hd : DeadPos G t v pos) : DeadPos G2 t v pos := by
  intro ⟨h1, h2, h3⟩
  have hadj := (shape_node h.shape_eq v).2
  rw [hadj] at h1 h2 h3
  have hmem := hG.adj_lt v hv _ (getD_mem _ _ 0 hpos)
  have hto := (shape_edge h.shape_eq ((getNode G v).adj.getD pos 0)).2.1
  rw [hto] at h2 h3
  rw [h.level_eq, h.level_eq] at h2
  apply hd
  refine ⟨h.cap_pos _ (by rw [hmem.2]; exact h2) h1, h2, h.canReach h3⟩

theorem DeadPos_setAdjIdx {G : graph R} {t v pos u i : Nat} (h : DeadPos G t v pos) :
    DeadPos (setAdjIdx G u i) t v pos := by
  intro ⟨h1, h2, ⟨p, h3⟩⟩
  simp only [adj_setAdjIdx, getEdge_setAdjIdx, level_setAdjIdx] at h1 h2 h3
  exact h ⟨h1, h2, p, LevelPath_congr (edges_setAdjIdx G u i) (level_setAdjIdx G u i) h3⟩

theorem Dead_setAdjIdx {G : graph R} {t u i : Nat} (h : DeadUpTo G t u i) :
    Dead (setAdjIdx G u i) t := by
  intro v pos hv hpos hlt
  simp only [nNodes_setAdjIdx] at hv
  rw [nAdj_of_shape (shape_setAdjIdx G u i)] at hpos
  rw [adjIdx_setAdjIdx] at hlt
  apply DeadPos_setAdjIdx
  apply h v pos hv hpos
  by_cases hvu : v = u
  · subst hvu; simpa [hv] using hlt
  · simpa [hvu] using hlt

theorem Dead.shrinks {G G2 : graph R} (hG : WF G) (h : Shrinks G G2)
    (hn : ∀ v, (getNode G2 v).adjIdx = (getNode G v).adjIdx) {t : Nat} (hd : Dead G t) :
    Dead G2 t := by
  intro v pos hv hpos hlt
  rw [shape_nNodes h.shape_eq] at hv
  rw [nAdj_of_shape h.shape_eq] at hpos
  rw [hn] at hlt
  exact h.deadPos hG hv hpos (hd v pos hv hpos hlt)

theorem not_canReach_of_dead {G : graph R} (hG : WF G) {t u : Nat} (hut : u ≠ t)
    (h : ∀ pos, pos < (getNode G u).nAdj → DeadPos G t u pos) : ¬ CanReach G u t := by
  rintro ⟨p, hp⟩
  cases p with
  | nil => exact hut hp
  | cons j p =>
    obtain ⟨h1, h2, h3, h4, h5⟩ := hp
    have hmem := hG.mem_adj j h1
    rw [h2] at hmem
    obtain ⟨pos, hpos, hget⟩ := List.getElem_of_mem hmem
    have hj : (getNode G u).adj.getD pos 0 = j := by
      rw [List.getD_eq_getElem?_getD, List.getElem?_eq_getElem hpos, hget]; rfl
    apply h pos hpos
    rw [hj]
    exact ⟨h3, h4, p, h5⟩

theorem dfsLoop_dead (call : graph R → Nat → R → Option (R × graph R)) (t : Nat)
    (hcall : ∀ G1 a f r G2, WF G1 → 0 < f → Dead G1 t → call G1 a f = some (r, G2) →
      DfsPost G1 a t f r G2 ∧ DeadPost G2 t a r) :
    ∀ (k i : Nat) (G : graph R) (u : Nat) (flow r : R) (G' : graph R), WF G → u ≠ t →
      0 < flow → k = (getNode G u).nAdj - i → DeadUpTo G t u i →
      dfsLoop call u flow k i G = some (r, G') → DeadPost G' t u r := by
  intro k
  induction k with
  | zero =>
    intro i G u flow r G' hG hut hflow hk hd h
    simp only [dfsLoop, Option.some.injEq, Prod.mk.injEq] at h
    obtain ⟨rfl, rfl⟩ := h
    have hall : ∀ pos, pos < (getNode G u).nAdj → DeadPos G t u pos := by
      intro pos hpos
      by_cases hu : u < G.nNodes
      · exact hd u pos hu hpos (by simp; omega)
      · rw [getNode_of_not_lt hu] at hpos; simp [node.nAdj] at hpos
    refine ⟨?_, fun _ => not_canReach_of_dead hG hut hall⟩
    intro v pos hv hpos hlt
    by_cases hvu : v = u
    · subst hvu; exact hall pos hpos
    · exact hd v pos hv hpos (by simpa [hvu] using hlt)
  | succ k ih =>
    intro i G u flow r G' hG hut hflow hk hd h
    have hi : i < (getNode G u).nAdj := by omega
    have hu : u < G.nNodes := lt_nNodes_of_nAdj (by omega)
    have hG1 : WF (setAdjIdx G u i) := WF.of_shape (shape_setAdjIdx G u i) hG
    have hD1 : Dead (setAdjIdx G u i) t := Dead_setAdjIdx hd
    have hmem : (getNode G u).adj.getD i 0 ∈ (getNode G u).adj := getD_mem _ _ _ hi
    have hadj := hG.adj_lt u hu _ hmem
    -- the positions before `i + 1` are dead once position `i` is
    have hnext : ∀ G2 : graph R, Shrinks (setAdjIdx G u i) G2 →
        Dead G2 t → DeadPos G2 t u i → DeadUpTo G2 t u (i + 1) := by
      intro G2 hs hD2 hpi v pos hv hpos hlt
      by_cases hvu : v = u
      · subst hvu
        simp only [if_true] at hlt
        by_cases hpi' : pos = i
        · subst hpi'; exact hpi
        · have hv' : v < G.nNodes := by
            rw [shape_nNodes hs.shape_eq] at hv; simpa using hv
          have hpos' : pos < (getNode G v).nAdj := by
            rw [nAdj_of_shape hs.shape_eq, nAdj_of_shape (shape_setAdjIdx G v i)] at hpos
            exact hpos
          have := hd v pos hv' hpos' (by simp; omega)
          have h1 : DeadPos (setAdjIdx G v i) t v pos := DeadPos_setAdjIdx this
          exact hs.deadPos hG1 (by simpa using hv')
            (by rw [nAdj_of_shape (shape_setAdjIdx G v i)]; exact hpos') h1
      · exact hD2 v pos hv hpos (by simpa [hvu] using hlt)
    simp only [dfsLoop, adj_setAdjIdx, getEdge_setAdjIdx, level_setAdjIdx] at h
    split at h
    · next hcond =>
      cases hc : call (setAdjIdx G u i) (getEdge G ((getNode G u).adj.getD i 0)).to_
          (MIN flow (getEdge G ((getNode G u).adj.getD i 0)).cap) with
      | none => rw [hc] at h; simp at h
      | some res =>
        obtain ⟨bneck, G2⟩ := res
        rw [hc] at h
        simp only at h
        obtain ⟨hpost, hD2, hnr⟩ := hcall _ _ _ _ _ hG1 (MIN_pos hflow hcond.1) hD1 hc
        have hG2 : WF G2 := WF.of_shape hpost.shape_eq hG1
        split at h
        · next hb =>
          simp only [Option.some.injEq, Prod.mk.injEq] at h
          obtain ⟨rfl, rfl⟩ := h
          refine ⟨?_, fun hh => absurd hb hh⟩
          have he2 : (getNode G u).adj.getD i 0 < G2.nEdges := by
            rw [shape_nEdges hpost.shape_eq]; simpa using hadj.1
          have hl2 : (getNode G2 (getEdge G2 ((getNode G u).adj.getD i 0)).to_).level =
              (getNode G2 (getEdge G2 ((getNode G u).adj.getD i 0)).frm).level + 1 := by
            rw [(shape_edge hpost.shape_eq _).1, (shape_edge hpost.shape_eq _).2.1,
              hpost.level_eq, hpost.level_eq]
            simp only [getEdge_setAdjIdx, level_setAdjIdx]
            rw [hadj.2]; exact hcond.2
          exact Dead.shrinks hG2 (Shrinks.pushFlow hG2 he2 hl2 (le_of_lt hb))
            (fun v => by rw [getNode_pushFlow]) hD2
        · next hb =>
          have hk2 : k = (getNode G2 u).nAdj - (i + 1) := by
            rw [nAdj_of_shape hpost.shape_eq, nAdj_of_shape (shape_setAdjIdx G u i)]; omega
          have hs : Shrinks (setAdjIdx G u i) G2 :=
            Shrinks.of_edges hpost.shape_eq hpost.level_eq (hpost.edges_zero hb)
          have hpi : DeadPos G2 t u i := by
            intro ⟨_, _, h3⟩
            apply hnr hb
            rw [(shape_node hpost.shape_eq u).2, adj_setAdjIdx,
              (shape_edge hpost.shape_eq _).2.1, getEdge_setAdjIdx] at h3
            exact h3
          exact ih (i + 1) G2 u flow r G' hG2 hut hflow hk2 (hnext G2 hs hD2 hpi) h
    · next hcond =>
      have hk2 : k = (getNode (setAdjIdx G u i) u).nAdj - (i + 1) := by
        rw [nAdj_of_shape (shape_setAdjIdx G u i)]; omega
      have hpi : DeadPos (setAdjIdx G u i) t u i := by
        intro ⟨h1, h2, _⟩
        simp only [adj_setAdjIdx, getEdge_setAdjIdx, level_setAdjIdx] at h1 h2
        exact hcond ⟨h1, h2⟩
      exact ih (i + 1) _ u flow r G' hG1 hut hflow hk2
        (hnext _ (Shrinks.self _) hD1 hpi) h

/-- A call of `dfs` with a positive bound keeps every position before a cursor
dead, and when it returns `0` no path of the level graph leads from `u` to `t`. -/
theorem dfs_dead : ∀ (fuel : Nat) (G : graph R) (u t : Nat) (flow r : R) (G' : graph R),
    WF G → 0 < flow → Dead G t → dfs fuel G u t flow = some (r, G') → DeadPost G' t u r := by
  intro fuel
  induction fuel with
  | zero => intro G u t flow r G' _ _ _ h; simp [dfs] at h
  | succ fuel ih =>
    intro G u t flow r G' hG hflow hD h
    simp only [dfs] at h
    split at h
    · simp only [Option.some.injEq, Prod.mk.injEq] at h
      obtain ⟨rfl, rfl⟩ := h
      exact ⟨hD, fun hh => absurd hflow hh⟩
    · next hut =>
      refine dfsLoop_dead _ t ?_ _ _ G u flow r G' hG hut hflow rfl ?_ h
      · intro G1 a f r1 G2 hG1 hf hD1 hc
        exact ⟨dfs_post fuel G1 a t f r1 G2 hG1 hc, ih G1 a t f r1 G2 hG1 hf hD1 hc⟩
      · intro v pos hv hpos hlt
        apply hD v pos hv hpos
        by_cases hvu : v = u
        · subst hvu; simpa using hlt
        · simpa [hvu] using hlt

/-! ## Phases -/

theorem PhaseInv.of_bfs {s t : Nat} {G : graph R} (h : BfsInv s G [])
    (hcur : ∀ v, (getNode G v).adjIdx = 0) : PhaseInv s t G :=
  ⟨h.base.wf, h.base.lvl_s, fun j hj hl => h.done j hj hl (by simp),
    fun v pos _ _ hlt => by rw [hcur] at hlt; omega⟩

theorem PhaseInv.maxFlow {s t : Nat} {G : graph R} (h : PhaseInv s t G) (x : R) :
    PhaseInv s t { G with maxFlow := x } :=
  ⟨WF.of_shape (shape_maxFlow G x) h.wf, h.lvl_s, h.lvl_ok,
    Dead.shrinks h.wf (Shrinks.of_edges (shape_maxFlow G x) (fun _ => rfl) rfl)
      (fun _ => rfl) h.dead⟩

/-- One call `dfs(G, s, t, INF)` of the drain loop. -/
theorem PhaseInv.after_dfs {s t : Nat} {G : graph R} (h : PhaseInv s t G) {fuel : Nat} {r : R}
    {G' : graph R} (hd : dfs fuel G s t INF = some (r, G')) :
    PhaseInv s t G' ∧ (∀ v, (getNode G' v).level = (getNode G v).level) ∧ 0 ≤ r ∧
      (r = 0 → ¬ CanReach G' s t) := by
  have hpost := dfs_post fuel G s t INF r G' h.wf hd
  have hdead := dfs_dead fuel G s t INF r G' h.wf INF_pos h.dead hd
  have hr0 := (dfs_le_flow h.wf (le_of_lt INF_pos) hd).1
  have hW : WF G' := WF.of_shape hpost.shape_eq h.wf
  refine ⟨⟨hW, by rw [hpost.level_eq]; exact h.lvl_s, ?_, hdead.1⟩, hpost.level_eq, hr0,
    fun hr => hdead.2 (by rw [hr]; exact lt_irrefl _)⟩
  intro j hj hl hc
  have hf := (shape_edge hpost.shape_eq j).1
  have ht := (shape_edge hpost.shape_eq j).2.1
  rw [hf, hpost.level_eq] at hl
  rw [ht, hf, hpost.level_eq, hpost.level_eq]
  have hj' : j < G.nEdges := by rw [← shape_nEdges hpost.shape_eq]; exact hj
  by_cases hr : 0 < r
  · obtain ⟨p, hp, hed, _⟩ := hpost.edges_pos hr
    rw [getEdge_congr hed, hp.cap_after h.wf] at hc
    split at hc
    · exact h.lvl_ok j hj' hl (by linarith)
    · split at hc
      · next _ hx =>
        have he := hp.edge _ hx
        rw [h.wf.pair_frm j hj', h.wf.pair_to j hj', h.lvl_s] at he
        omega
      · exact h.lvl_ok j hj' hl hc
  · rw [getEdge_congr (hpost.edges_zero hr)] at hc
    exact h.lvl_ok j hj' hl hc

/-- The last call of `dfs` in a drain loop that returns. -/
theorem drain_last (I : graph R → Prop) (s t : Nat)
    (hdfs : ∀ fuel G r G', I G → dfs fuel G s t INF = some (r, G') →
      (r ≠ 0 → I { G' with maxFlow := G'.maxFlow + r }) ∧ (r = 0 → I G')) :
    ∀ fuel G G', I G → drain fuel G s t = some G' →
      ∃ fuel' Gl, I Gl ∧ dfs fuel' Gl s t INF = some (0, G') := by
  intro fuel
  induction fuel with
  | zero => intro G G' _ h; simp [drain] at h
  | succ fuel ih =>
    intro G G' hI h
    simp only [drain] at h
    cases hd : dfs fuel G s t INF with
    | none => rw [hd] at h; simp at h
    | some res =>
      obtain ⟨f, G1⟩ := res
      rw [hd] at h
      simp only at h
      have := hdfs fuel G f G1 hI hd
      split at h
      · next hf => exact ih _ _ (this.1 hf) h
      · next hf =>
        simp only [Option.some.injEq] at h; subst h
        have hf0 : f = 0 := not_not.mp hf
        subst hf0
        exact ⟨fuel, G, hI, hd⟩

/-- The state in which a drain loop returns: the phase invariant holds, the
levels are unchanged and the flow is blocking. -/
theorem drain_post {s t : Nat} {G : graph R} (h : PhaseInv s t G) {fuel : Nat} {G2 : graph R}
    (hd : drain fuel G s t = some G2) :
    PhaseInv s t G2 ∧ (∀ v, (getNode G2 v).level = (getNode G v).level) ∧
      ¬ CanReach G2 s t := by
  obtain ⟨fuel', Gl, ⟨hI, hlv⟩, hlast⟩ := drain_last
    (fun H => PhaseInv s t H ∧ ∀ v, (getNode H v).level = (getNode G v).level) s t
    (fun fuel H r H' hH hdfs => by
      have := hH.1.after_dfs hdfs
      exact ⟨fun _ => ⟨this.1.maxFlow _, fun v => (this.2.1 v).trans (hH.2 v)⟩,
        fun _ => ⟨this.1, fun v => (this.2.1 v).trans (hH.2 v)⟩⟩)
    fuel G G2 ⟨h, fun _ => rfl⟩ hd
  have := hI.after_dfs hlast
  exact ⟨this.1, fun v => (this.2.1 v).trans (hlv v), this.2.2.2 rfl⟩

/-- When every edge with spare capacity climbs at most one level, a path of `k`
edges climbs at most `k` levels, and one that climbs `k` is a path of the level graph. -/
theorem tight_path {G : graph R}
    (hok : ∀ j, j < G.nEdges → (getNode G (getEdge G j).frm).level ≠ -1 → EdgeOk G j)
    {k u v : Nat} (hp : PosPath G k u v) (hu : (getNode G u).level ≠ -1) :
    (getNode G v).level ≠ -1 ∧ (getNode G v).level ≤ (getNode G u).level + k ∧
      ((getNode G v).level = (getNode G u).level + k → CanReach G u v) := by
  induction k generalizing u with
  | zero =>
    have : u = v := hp
    subst this
    exact ⟨hu, by simp, fun _ => ⟨[], rfl⟩⟩
  | succ k ih =>
    obtain ⟨j, h1, h2, h3, h4⟩ := hp
    have hj := hok j h1 (by rw [h2]; exact hu) h3
    rw [h2] at hj
    obtain ⟨i1, i2, i3⟩ := ih h4 hj.1
    refine ⟨i1, by push_cast; omega, ?_⟩
    intro heq
    push_cast at heq
    obtain ⟨p, hp⟩ := i3 (by omega)
    exact ⟨j :: p, h1, h2, h3, by omega, hp⟩

/-- After a blocking flow every path from `s` to `t` is longer than the level of `t`. -/
theorem PhaseInv.dist_lt {s t : Nat} {G : graph R} (h : PhaseInv s t G)
    (hb : ¬ CanReach G s t) {m : Nat} (hp : PosPath G m s t) :
    (getNode G t).level + 1 ≤ m := by
  have := tight_path h.lvl_ok hp (by rw [h.lvl_s]; omega)
  rw [h.lvl_s] at this
  by_contra hlt
  exact hb (this.2.2 (by omega))

/-- Each level from `0` up to the level of a node is the level of some node. -/
theorem BfsInv.level_range {s : Nat} {G : graph R} (h : BfsInv s G []) :
    ∀ (d m : Nat), (∃ v, (getNode G v).level = ((m + d : Nat) : Int)) →
      ∃ v, v < G.nNodes ∧ (getNode G v).level = (m : Int) := by
  intro d
  induction d with
  | zero =>
    intro m ⟨v, hv⟩
    refine ⟨v, ?_, by simpa using hv⟩
    by_contra hlt
    rw [getNode_of_not_lt hlt] at hv
    simp at hv
  | succ d ih =>
    intro m ⟨v, hv⟩
    obtain ⟨j, _, _, _, h4⟩ := h.base.real v (by rw [hv]; push_cast; omega)
    apply ih m
    exact ⟨(getEdge G j).frm, by rw [hv] at h4; push_cast at h4 ⊢; omega⟩

/-- At the end of `bfs` every level is below the number of nodes. -/
theorem BfsInv.level_lt {s : Nat} {G : graph R} (h : BfsInv s G []) (v : Nat) :
    (getNode G v).level < G.nNodes := by
  by_contra hge
  have hl : 0 ≤ (getNode G v).level := by omega
  obtain ⟨dv, hdv⟩ := Int.eq_ofNat_of_zero_le hl
  have hsub : Finset.range (dv + 1) ⊆
      (Finset.range G.nNodes).image fun w => (getNode G w).level.toNat := by
    intro m hm
    rw [Finset.mem_range] at hm
    obtain ⟨w, hw1, hw2⟩ := h.level_range (dv - m) m
      ⟨v, by rw [hdv]; congr 1; omega⟩
    rw [Finset.mem_image]
    exact ⟨w, Finset.mem_range.mpr hw1, by rw [hw2]; simp⟩
  have h1 := Finset.card_le_card hsub
  have h2 := Finset.card_image_le (s := Finset.range G.nNodes)
    (f := fun w => (getNode G w).level.toNat)
  rw [Finset.card_range] at h1 h2
  omega

theorem drain_shape {s t : Nat} {fuel : Nat} {G1 G2 : graph R} (hG : WF G1)
    (hd : drain fuel G1 s t = some G2) : shape G2 = shape G1 := by
  have := drain_invariant (fun H => WF H ∧ shape H = shape G1) s t
    (fun fuel H r H' hH hdfs => by
      have hp := dfs_post fuel H s t INF r H' hH.1 hdfs
      have hW : WF H' := WF.of_shape hp.shape_eq hH.1
      exact ⟨fun _ => ⟨WF.of_shape (shape_maxFlow H' _) hW,
        (shape_maxFlow H' _).trans (hp.shape_eq.trans hH.2)⟩,
        fun _ => ⟨hW, hp.shape_eq.trans hH.2⟩⟩)
    fuel G1 G2 ⟨hG, rfl⟩ hd
  exact this.2

/-- The state after a `bfs` of `dinic`. -/
theorem LoopInv.after_bfs {s t : Nat} {G : graph R} {k : Nat} (h : LoopInv s t G k) {fuel : Nat}
    {b : Bool} {G1 : graph R} (hb : bfs fuel G s t = some (b, G1)) :
    BfsInv s G1 [] ∧ b = ((getNode G1 t).level != -1) ∧ shape G1 = shape G ∧
      G1.edges = G.edges ∧ PhaseInv s t G1 := by
  obtain ⟨G'', hb2, hinv⟩ := bfs_spec h.wf h.s_lt t (fun v => (h.fresh v).1)
    (Nat.lt_succ_self (G.nNodes + 1))
  have := bfs_fuel_unique hb hb2
  simp only [Prod.mk.injEq] at this
  obtain ⟨hbv, hGG⟩ := this
  subst hGG
  obtain ⟨f1, f2, _, f4⟩ := bfs_frame hb
  refine ⟨hinv, hbv, f1, f2, PhaseInv.of_bfs hinv ?_⟩
  intro v; rw [f4, (h.fresh v).2]

/-- One whole phase keeps the loop invariant with one more phase counted. -/
theorem LoopInv.phase {s t : Nat} {G : graph R} {k : Nat} (h : LoopInv s t G k)
    {fuel fuel2 : Nat} {G1 G2 : graph R} (hb : bfs fuel G s t = some (true, G1))
    (hd : drain fuel2 G1 s t = some G2) : LoopInv s t (loopReset G2) (k + 1) := by
  obtain ⟨hinv, hbv, hsh, hed, hph⟩ := h.after_bfs hb
  obtain ⟨hph2, hlv, hblock⟩ := drain_post hph hd
  have hn1 : G1.nNodes = G.nNodes := shape_nNodes hsh
  have ht : (getNode G1 t).level ≠ -1 := by
    intro he; rw [he] at hbv; simp at hbv
  -- the level of `t` is its distance, which is at least `k + 1` and below `nNodes`
  obtain ⟨m, hm1, hm2, _⟩ := (hinv.dist t).resolve_left (fun hh => ht hh.1)
  have hkm := h.dist m (PosPath_congr hed hm2)
  have hlt := hinv.level_lt t
  have hsh2 : shape G2 = shape G := by
    exact (drain_shape hph.wf hd).trans hsh
  refine ⟨WF.of_shape (shape_loopReset G2) hph2.wf, Fresh_loopReset G2, ?_, ?_, ?_⟩
  · rw [nNodes_loopReset, shape_nNodes hsh2]; exact h.s_lt
  · rw [nNodes_loopReset, shape_nNodes hsh2]
    rw [hm1, hn1] at hlt
    omega
  · intro m' hp
    have := hph2.dist_lt hblock (PosPath_congr (edges_loopReset G2) hp)
    rw [hlv, hm1] at this
    omega

/-! ## The number of phases and termination -/

theorem getEdge_of_not_lt {G : graph R} {j : Nat} (h : ¬ j < G.nEdges) :
    getEdge G j = ⟨0, 0, 0, 0, false⟩ := by
  unfold getEdge; rw [List.getD_eq_getElem?_getD, List.getElem?_eq_none]; rfl
  unfold graph.nEdges at h; omega

theorem capsNonneg_built (n : Nat) {es : List (Nat × Nat × R)} (hc : nonnegCaps es) :
    capsNonneg (buildGraph (newGraph n) es) := by
  intro j
  by_cases hj : j < 2 * es.length
  · rw [getEdge_buildGraph n es j hj]
    split
    · have hk : j / 2 < es.length := by omega
      exact hc _ (getD_mem es (j / 2) (0, 0, 0) hk)
    · exact le_refl _
  · rw [getEdge_of_not_lt (by simpa using hj)]

theorem LoopInv_built {n : Nat} {es : List (Nat × Nat × R)} (hr : inRange n es)
    {s t : Nat} (hs : s < n) (hst : s ≠ t) :
    LoopInv s t (buildGraph (newGraph n) es) 0 := by
  refine ⟨WF_buildGraph hr, Fresh_built n es, by simpa using hs,
    by simp; omega, ?_⟩
  intro m hp
  cases m with
  | zero => exact absurd hp hst
  | succ m => omega

/-- A run of `dinic` that returns has gone through fewer phases than there are nodes. -/
theorem dinicLoop_phases {s t : Nat} : ∀ (fuel : Nat) (G : graph R) (k : Nat) (G' : graph R)
    (k' : Nat), LoopInv s t G k → dinicLoop fuel G s t k = some (G', k') → k' < G.nNodes := by
  intro fuel
  induction fuel with
  | zero => intro G k G' k' _ h; simp [dinicLoop] at h
  | succ fuel ih =>
    intro G k G' k' hI h
    simp only [dinicLoop] at h
    cases hb : bfs fuel G s t with
    | none => rw [hb] at h; simp at h
    | some res =>
      obtain ⟨b, G1⟩ := res
      rw [hb] at h
      cases b with
      | false =>
        simp only [Option.some.injEq, Prod.mk.injEq] at h
        obtain ⟨_, rfl⟩ := h
        exact hI.k_lt
      | true =>
        simp only at h
        cases hd : drain fuel G1 s t with
        | none => rw [hd] at h; simp at h
        | some G2 =>
          rw [hd] at h
          simp only at h
          have hI2 := hI.phase hb hd
          have := ih _ _ _ _ hI2 h
          have hsh := (hI.after_bfs hb).2.2.1
          have hsh2 := drain_shape (hI.after_bfs hb).2.2.2.2.wf hd
          rw [nNodes_loopReset, shape_nNodes hsh2, shape_nNodes hsh] at this
          exact this

/-! ### With source and sink equal the drain loop never ends -/

theorem drain_self (s : Nat) : ∀ (fuel : Nat) (G : graph R), drain fuel G s s = none := by
  intro fuel
  induction fuel with
  | zero => intro G; rfl
  | succ fuel ih =>
    intro G
    cases fuel with
    | zero => simp [drain, dfs]
    | succ fuel =>
      rw [drain]
      have : dfs (fuel + 1) G s s INF = some (INF, G) := by simp [dfs]
      rw [this]
      simp only
      rw [if_pos (ne_of_gt INF_pos)]
      exact ih _

theorem bfs_level_source {fuel : Nat} {G : graph R} {s t : Nat} {b : Bool} {G' : graph R}
    (hs : s < G.nNodes) (h : bfs fuel G s t = some (b, G')) : (getNode G' s).level = 0 := by
  have hf := bfsWhile_frame _ _ _ _ (bfs_eq_some h).1
  have h0 : (getNode (setLevel G s 0) s).level = 0 := by
    rw [level_setLevel]; simp [hs]
  rw [hf.level_keep s (by rw [h0]; omega), h0]

/-- With source and sink the same node, `dinic` does not return, whatever the fuel. -/
theorem dinicLoop_self {s : Nat} : ∀ (fuel : Nat) (G : graph R) (k : Nat), s < G.nNodes →
    dinicLoop fuel G s s k = none := by
  intro fuel G k hs
  cases fuel with
  | zero => rfl
  | succ fuel =>
    simp only [dinicLoop]
    cases hb : bfs fuel G s s with
    | none => rfl
    | some res =>
      obtain ⟨b, G1⟩ := res
      have h1 := bfs_level_source hs hb
      have h2 := (bfs_eq_some hb).2
      rw [h1] at h2
      have : b = true := by rw [h2]; decide
      subst this
      simp only
      rw [drain_self]

theorem dinic_self {s : Nat} (fuel : Nat) (G : graph R) (hs : s < G.nNodes) :
    dinic fuel G s s = none := by
  simp [dinic, dinicLoop_self fuel G 0 hs]

/-! ### The drain loop returns -/

theorem liveEdges_mono {G G2 : graph R} (h : Shrinks G G2) : liveEdges G2 ≤ liveEdges G := by
  unfold liveEdges
  apply Finset.card_le_card
  intro j hj
  simp only [Finset.mem_filter, Finset.mem_range] at hj ⊢
  obtain ⟨h1, h2, h3⟩ := hj
  rw [(shape_edge h.shape_eq j).1, (shape_edge h.shape_eq j).2.1, h.level_eq, h.level_eq] at h2
  exact ⟨shape_nEdges h.shape_eq ▸ h1, h2, h.cap_pos j h2 h3⟩

theorem liveEdges_lt {G G2 : graph R} (h : Shrinks G G2) {j : Nat} (hj : j < G.nEdges)
    (hl : (getNode G (getEdge G j).to_).level = (getNode G (getEdge G j).frm).level + 1)
    (hc : 0 < (getEdge G j).cap) (hc2 : ¬ 0 < (getEdge G2 j).cap) :
    liveEdges G2 < liveEdges G := by
  unfold liveEdges
  apply Finset.card_lt_card
  rw [Finset.ssubset_iff_of_subset]
  · refine ⟨j, ?_, ?_⟩
    · simp only [Finset.mem_filter, Finset.mem_range]; exact ⟨hj, hl, hc⟩
    · simp only [Finset.mem_filter, Finset.mem_range]
      exact fun hh => hc2 hh.2.2
  · intro i hi
    simp only [Finset.mem_filter, Finset.mem_range] at hi ⊢
    obtain ⟨h1, h2, h3⟩ := hi
    rw [(shape_edge h.shape_eq i).1, (shape_edge h.shape_eq i).2.1, h.level_eq,
      h.level_eq] at h2
    exact ⟨shape_nEdges h.shape_eq ▸ h1, h2, h.cap_pos i h2 h3⟩

theorem exists_level_bound (G : graph R) : ∃ M : Int, ∀ v, (getNode G v).level ≤ M := by
  have key : ∀ l : List node, ∃ M : Int, -1 ≤ M ∧ ∀ x ∈ l, x.level ≤ M := by
    intro l
    induction l with
    | nil => exact ⟨-1, le_refl _, fun x hx => by simp at hx⟩
    | cons a l ih =>
      obtain ⟨M, hM1, hM2⟩ := ih
      refine ⟨max M a.level, le_trans hM1 (le_max_left _ _), ?_⟩
      intro x hx
      rcases List.mem_cons.mp hx with rfl | hx
      · exact le_max_right _ _
      · exact le_trans (hM2 x hx) (le_max_left _ _)
  obtain ⟨M, hM1, hM2⟩ := key G.nodes
  refine ⟨M, fun v => ?_⟩
  by_cases hv : v < G.nNodes
  · exact hM2 _ (getD_mem G.nodes v _ hv)
  · rw [getNode_of_not_lt hv]; exact hM1

/-- The call `dfs(G, s, t, flow)` returns for some fuel. -/
theorem dfs_returns {G : graph R} (hG : WF G) (u t : Nat) (flow : R) :
    ∃ fuel x, dfs fuel G u t flow = some x := by
  obtain ⟨M, hM⟩ := exists_level_bound G
  obtain ⟨x, hx⟩ := dfs_total M ((M - (getNode G u).level).toNat + 1) G u t flow hG hM
    (Nat.lt_succ_self _)
  exact ⟨_, x, hx⟩

/-- What one augmenting call of the drain loop does to the two measures of progress. -/
theorem PhaseInv.progress {s t : Nat} (hst : s ≠ t) {G : graph R} (h : PhaseInv s t G)
    {fuel : Nat} {r : R} {G' : graph R} (hd : dfs fuel G s t INF = some (r, G'))
    (hr : r ≠ 0) (x : R) :
    residualCut ({ G' with maxFlow := x } : graph R) (onlySource s) =
        residualCut G (onlySource s) - r ∧
      liveEdges ({ G' with maxFlow := x } : graph R) ≤ liveEdges G ∧
      (r = INF ∨ liveEdges ({ G' with maxFlow := x } : graph R) < liveEdges G) := by
  have hpost := dfs_post fuel G s t INF r G' h.wf hd
  have hr0 := (dfs_le_flow h.wf (le_of_lt INF_pos) hd).1
  have hpos : 0 < r := lt_of_le_of_ne hr0 (Ne.symm hr)
  obtain ⟨p, hp, hed, hbn⟩ := hpost.edges_pos hpos
  have hsh : shape ({ G' with maxFlow := x } : graph R) = shape G :=
    (shape_maxFlow G' x).trans hpost.shape_eq
  have hcap : ∀ j, (getEdge ({ G' with maxFlow := x } : graph R) j).cap =
      (getEdge (augment G p r) j).cap := fun j => by rw [← getEdge_congr hed]; rfl
  have hshr : Shrinks G ({ G' with maxFlow := x } : graph R) := by
    refine ⟨hsh, hpost.level_eq, ?_⟩
    intro j hl hc
    rw [hcap, hp.cap_after h.wf] at hc
    split at hc
    · linarith
    · split at hc
      · next _ hx =>
        have hjlt : j < G.nEdges := by
          have := xor_one_lt h.wf.even (hp.lt _ hx)
          rwa [xor_one_xor_one] at this
        have he := (hp.edge _ hx).2.1
        rw [h.wf.pair_frm j hjlt, h.wf.pair_to j hjlt] at he
        omega
      · exact hc
  refine ⟨?_, liveEdges_mono hshr, ?_⟩
  · have h1 : residualCut ({ G' with maxFlow := x } : graph R) (onlySource s) =
        residualCut (augment G p r) (onlySource s) :=
      residualCut_congr (hsh.trans (shape_augment G p r).symm) hed _
    rw [h1, residualCut_augment h.wf hp r]
    have e1 : onlySource s t = false := by simp [onlySource, Ne.symm hst]
    have e2 : onlySource s s = true := by simp [onlySource]
    rw [e1, e2]
    simp
    ring
  · rcases bottleneck_eq_or G INF p with hb | ⟨j, hj, hb⟩
    · left; rw [hbn, hb]
    · right
      have he := hp.edge j hj
      apply liveEdges_lt hshr (hp.lt j hj) he.2.1 he.1
      rw [hcap, hp.cap_after h.wf, if_pos hj, hbn, hb]
      simp

/-- The drain loop returns. -/
theorem drain_total {s t : Nat} (hst : s ≠ t) : ∀ (m a N : Nat) (G : graph R), a + N ≤ m →
    PhaseInv s t G → capsNonneg G → liveEdges G ≤ a →
    residualCut G (onlySource s) ≤ (N : R) * INF →
    ∃ fuel G2, drain fuel G s t = some G2 := by
  intro m
  induction m with
  | zero =>
    intro a N G hm h hc hA hB
    obtain ⟨fuel, ⟨r, G'⟩, hd⟩ := dfs_returns h.wf s t (INF : R)
    have hc' : capsNonneg ({ G' with maxFlow := G'.maxFlow + r } : graph R) :=
      fun j => dfs_capsNonneg h.wf hc hd j
    by_cases hr : r = 0
    · exact ⟨fuel + 1, G', by simp [drain, hd, hr]⟩
    · exfalso
      obtain ⟨p1, p2, p3⟩ := h.progress hst hd hr (G'.maxFlow + r)
      have hnn := residualCut_nonneg hc' (onlySource s)
      have hN : N = 0 := by omega
      have ha : a = 0 := by omega
      rcases p3 with p3 | p3
      · rw [p1, p3] at hnn
        rw [hN] at hB
        have := INF_pos (R := R)
        simp at hB
        linarith
      · omega
  | succ m ih =>
    intro a N G hm h hc hA hB
    obtain ⟨fuel, ⟨r, G'⟩, hd⟩ := dfs_returns h.wf s t (INF : R)
    have hc' : capsNonneg ({ G' with maxFlow := G'.maxFlow + r } : graph R) :=
      fun j => dfs_capsNonneg h.wf hc hd j
    by_cases hr : r = 0
    · exact ⟨fuel + 1, G', by simp [drain, hd, hr]⟩
    · obtain ⟨p1, p2, p3⟩ := h.progress hst hd hr (G'.maxFlow + r)
      have h' := (h.after_dfs hd).1.maxFlow (G'.maxFlow + r)
      have hnn := residualCut_nonneg hc' (onlySource s)
      have hr0 := (dfs_le_flow h.wf (le_of_lt INF_pos) hd).1
      have hpos : 0 < r := lt_of_le_of_ne hr0 (Ne.symm hr)
      have hstep : ∃ fuel2 G2,
          drain fuel2 ({ G' with maxFlow := G'.maxFlow + r } : graph R) s t = some G2 := by
        rcases p3 with p3 | p3
        · -- the whole bound was pushed
          have hN : 1 ≤ N := by
            by_contra h0
            have : N = 0 := by omega
            rw [this] at hB
            simp at hB
            rw [p1] at hnn
            linarith
          apply ih a (N - 1) _ (by omega) h' hc' (le_trans p2 hA)
          rw [p1, p3]
          have : ((N - 1 : Nat) : R) = (N : R) - 1 := by
            rw [Nat.cast_sub hN]; simp
          rw [this]
          linarith
        · -- an edge of the level graph was saturated
          apply ih (a - 1) N _ (by omega) h' hc' (by omega)
          rw [p1]
          linarith
      obtain ⟨fuel2, G2, hd2⟩ := hstep
      refine ⟨max fuel fuel2 + 1, G2, ?_⟩
      rw [drain, dfs_mono (Nat.le_max_left fuel fuel2) hd]
      simp only
      rw [if_pos hr]
      exact drain_mono (Nat.le_max_right fuel fuel2) hd2

theorem drain_capsNonneg {s t : Nat} {fuel : Nat} {G1 G2 : graph R} (hG : WF G1)
    (hc : capsNonneg G1) (hd : drain fuel G1 s t = some G2) : capsNonneg G2 := by
  have := drain_invariant (fun H => WF H ∧ capsNonneg H) s t
    (fun fuel H r H' hH hdfs => by
      have hp := dfs_post fuel H s t INF r H' hH.1 hdfs
      have hW : WF H' := WF.of_shape hp.shape_eq hH.1
      have hn : capsNonneg H' := dfs_capsNonneg hH.1 hH.2 hdfs
      exact ⟨fun _ => ⟨WF.of_shape (shape_maxFlow H' _) hW, fun j => hn j⟩,
        fun _ => ⟨hW, hn⟩⟩)
    fuel G1 G2 ⟨hG, hc⟩ hd
  exact this.2

theorem drain_returns [Archimedean R] {s t : Nat} (hst : s ≠ t) {G : graph R}
    (h : PhaseInv s t G) (hc : capsNonneg G) : ∃ fuel G2, drain fuel G s t = some G2 := by
  obtain ⟨N, hN⟩ := Archimedean.arch (residualCut G (onlySource s)) (INF_pos (R := R))
  rw [nsmul_eq_mul] at hN
  exact drain_total hst (liveEdges G + N) (liveEdges G) N G (le_refl _) h hc (le_refl _) hN

/-- The loop of `dinic` returns when source and sink differ. -/
theorem dinicLoop_total [Archimedean R] {s t : Nat} (hst : s ≠ t) :
    ∀ (d : Nat) (G : graph R) (k : Nat), LoopInv s t G k → capsNonneg G →
      G.nNodes - k ≤ d → ∃ fuel x, dinicLoop fuel G s t k = some x := by
  intro d
  induction d with
  | zero => intro G k hI _ hd; have := hI.k_lt; omega
  | succ d ih =>
    intro G k hI hc hd
    obtain ⟨G1, hb, _⟩ := bfs_spec hI.wf hI.s_lt t (fun v => (hI.fresh v).1)
      (Nat.lt_succ_self (G.nNodes + 1))
    cases hbv : ((getNode G1 t).level != -1) with
    | false =>
      rw [hbv] at hb
      exact ⟨G.nNodes + 1 + 1 + 1, (G1, k), by simp [dinicLoop, hb]⟩
    | true =>
      rw [hbv] at hb
      obtain ⟨_, _, hsh, hed, hph⟩ := hI.after_bfs hb
      have hc1 : capsNonneg G1 := capsNonneg_congr hed.symm hc
      obtain ⟨fuel2, G2, hd2⟩ := drain_returns hst hph hc1
      have hc2 : capsNonneg G2 := drain_capsNonneg hph.wf hc1 hd2
      have hI2 := hI.phase hb hd2
      have hn : (loopReset G2).nNodes = G.nNodes := by
        rw [nNodes_loopReset, shape_nNodes (drain_shape hph.wf hd2), shape_nNodes hsh]
      have hk := hI2.k_lt
      obtain ⟨fuel3, x, h3⟩ := ih (loopReset G2) (k + 1) hI2
        (capsNonneg_congr (edges_loopReset G2).symm hc2) (by omega)
      refine ⟨max (G.nNodes + 1 + 1) (max fuel2 fuel3) + 1, x, ?_⟩
      rw [dinicLoop, bfs_mono (Nat.le_max_left _ _) hb]
      simp only
      rw [drain_mono (le_trans (Nat.le_max_left fuel2 fuel3) (Nat.le_max_right _ _)) hd2]
      simp only
      exact dinicLoop_mono (le_trans (Nat.le_max_right fuel2 fuel3) (Nat.le_max_right _ _)) h3

/-! ## The claims -/

theorem capsNonneg_iff (G : graph R) : capsNonneg G ↔ allCapsNonneg G := by
  constructor
  · intro h e he
    obtain ⟨i, hi, rfl⟩ := List.getElem_of_mem he
    have := h i
    unfold getEdge at this
    rw [List.getD_eq_getElem?_getD, List.getElem?_eq_getElem hi] at this
    exact this
  · intro h j
    by_cases hj : j < G.nEdges
    · exact h _ (getD_mem G.edges j _ hj)
    · rw [getEdge_of_not_lt hj]

theorem allUnleveled_level {G : graph R} (h : allUnleveled G) (v : Nat) :
    (getNode G v).level = -1 := by
  by_cases hv : v < G.nNodes
  · exact h _ (getD_mem G.nodes v _ hv)
  · rw [getNode_of_not_lt hv]

theorem dinic_mono {fuel fuel' : Nat} (hle : fuel ≤ fuel') {G : graph R} {s t : Nat}
    {G' : graph R} (h : dinic fuel G s t = some G') : dinic fuel' G s t = some G' := by
  obtain ⟨k, hk⟩ := dinic_eq_some h
  simp [dinic, dinicLoop_mono hle hk]

theorem dinic_fuel_unique {f1 f2 : Nat} {G : graph R} {s t : Nat} {G1 G2 : graph R}
    (h1 : dinic f1 G s t = some G1) (h2 : dinic f2 G s t = some G2) : G1 = G2 := by
  have a := dinic_mono (Nat.le_max_left f1 f2) h1
  have b := dinic_mono (Nat.le_max_right f1 f2) h2
  rw [a] at b
  exact Option.some.inj b

theorem LevelPath.level_eq {G : graph R} {u t : Nat} {p : List Nat} (hp : LevelPath G u t p) :
    (getNode G t).level = (getNode G u).level + p.length := by
  induction p generalizing u with
  | nil =>
    have : u = t := hp
    simp [this]
  | cons j p ih =>
    obtain ⟨_, _, _, h4, h5⟩ := hp
    rw [ih h5, h4]
    simp only [List.length_cons]
    push_cast
    ring

/-! ### C1 -/

/-- C1: on a network built from in-range triples with capacities `>= 0` and
`s != t`, `dinic` returns, and in the state it returns the nodes whose level is not
`-1` form a set that holds `s` and not `t`, the capacity of that cut of the input
network equals `maxFlow`, and no cut that separates `s` from `t` has a smaller capacity. -/
theorem dinic_maxflow_mincut [Archimedean R] (n : Nat) (es : List (Nat × Nat × R))
    (s t : Nat) (hr : inRange n es) (hc : nonnegCaps es) (hs : s < n) (hst : s ≠ t) :
    (∃ fuel G', dinic fuel (buildGraph (newGraph n) es) s t = some G') ∧
    ∀ fuel G', dinic fuel (buildGraph (newGraph n) es) s t = some G' →
      (getNode G' s).level ≠ -1 ∧ (getNode G' t).level = -1 ∧
      cutCap es (fun v => decide ((getNode G' v).level ≠ -1)) = G'.maxFlow ∧
      ∀ S : Nat → Bool, S s = true → S t = false → G'.maxFlow ≤ cutCap es S := by
  have hI := LoopInv_built hr hs hst
  have hnn := capsNonneg_built n hc
  constructor
  · obtain ⟨fuel, x, hx⟩ := dinicLoop_total hst n _ 0 hI hnn (by simp)
    exact ⟨fuel, x.1, by simp [dinic, hx]⟩
  · intro fuel G' h
    obtain ⟨hcut, hinv, hlt⟩ := dinic_final hI.wf hnn hI.fresh hI.s_lt h
    have hs0 : (getNode G' s).level ≠ -1 := by rw [hinv.base.lvl_s]; omega
    refine ⟨hs0, hlt, ?_, ?_⟩
    · have := hcut.cut (fun v => decide ((getNode G' v).level ≠ -1))
        (by simpa using hs0) (by simpa using hlt)
      rw [residualCut_levels hinv hcut.nonneg, residualCut_built, maxFlow_built] at this
      simpa using this.symm
    · intro S h1 h2
      have := hcut.cut S h1 h2
      rw [residualCut_built, maxFlow_built] at this
      have hnn2 := residualCut_nonneg hcut.nonneg S
      linarith

/-! ### C4 -/

/-- C4, amended: in exact integer or rational arithmetic, where no sum or difference
is rounded, right after construction `edges[i].cap + edges[i ^ 1].cap` is the capacity
given for the original edge of the pair, and on every network with the structure
built by `buildGraph` the sum is the same after `bfs`, after `dfs`, after
`loopReset` and after `dinic` as before. -/
theorem pairCap_conserved (n : Nat) (es : List (Nat × Nat × R)) (hr : inRange n es) :
    (∀ i, i < 2 * es.length →
      pairCap (buildGraph (newGraph n) es) i = (es.getD (i / 2) (0, 0, 0)).2.2) ∧
    ∀ G : graph R, shape G = shape (buildGraph (newGraph n) es) → ∀ (fuel s t i : Nat),
      (∀ b G', bfs fuel G s t = some (b, G') → pairCap G' i = pairCap G i) ∧
      (∀ flow r G', dfs fuel G s t flow = some (r, G') → pairCap G' i = pairCap G i) ∧
      pairCap (loopReset G) i = pairCap G i ∧
      (∀ G', dinic fuel G s t = some G' → pairCap G' i = pairCap G i) := by
  constructor
  · intro i hi
    have hi1 : i ^^^ 1 < 2 * es.length := xor_one_lt (by omega) hi
    unfold pairCap
    rw [getEdge_buildGraph n es i hi, getEdge_buildGraph n es _ hi1, xor_one_div_two,
      xor_one_mod_two]
    rcases Nat.mod_two_eq_zero_or_one i with h | h
    · simp [h]
    · simp [h]
  · intro G hsh fuel s t i
    have hG : WF G := WF.of_shape hsh (WF_buildGraph hr)
    refine ⟨?_, ?_, ?_, ?_⟩
    · intro b G' h
      exact pairCap_congr (bfs_frame h).2.1 i
    · intro flow r G' h
      exact dfs_pairCap hG h i
    · exact pairCap_congr (edges_loopReset G) i
    · intro G' h
      have := dinic_invariant (fun H => WF H ∧ ∀ i, pairCap H i = pairCap G i) s t
        (fun fuel H b H' hH hb => ⟨WF.of_shape (bfs_frame hb).1 hH.1,
          fun i => (pairCap_congr (bfs_frame hb).2.1 i).trans (hH.2 i)⟩)
        (fun fuel H r H' hH hd => by
          have hp := dfs_post fuel H s t INF r H' hH.1 hd
          have hW : WF H' := WF.of_shape hp.shape_eq hH.1
          have hpc : ∀ i, pairCap H' i = pairCap G i :=
            fun i => (dfs_pairCap hH.1 hd i).trans (hH.2 i)
          exact ⟨fun _ => ⟨WF.of_shape (shape_maxFlow H' _) hW, hpc⟩, fun _ => ⟨hW, hpc⟩⟩)
        (fun H hH => ⟨WF.of_shape (shape_loopReset H) hH.1,
          fun i => (pairCap_congr (edges_loopReset H) i).trans (hH.2 i)⟩)
        ⟨hG, fun _ => rfl⟩ h
      exact this.2 i

/-! ### C5 -/

/-- C5: on a network with the structure built by `buildGraph` in which every
capacity is `>= 0`, a call `dfs(G, u, t, bound)` with `bound >= 0` returns and
leaves every capacity `>= 0`; so do `bfs` and `loopReset`, and so does `dinic`. -/
theorem caps_stay_nonneg (n : Nat) (es : List (Nat × Nat × R)) (hr : inRange n es)
    (G : graph R) (hsh : shape G = shape (buildGraph (newGraph n) es))
    (hc : allCapsNonneg G) :
    (∀ (u t : Nat) (bound : R), 0 ≤ bound →
      (∃ fuel x, dfs fuel G u t bound = some x) ∧
      ∀ fuel r G', dfs fuel G u t bound = some (r, G') → allCapsNonneg G') ∧
    (∀ fuel s t b G', bfs fuel G s t = some (b, G') → allCapsNonneg G') ∧
    allCapsNonneg (loopReset G) ∧
    (∀ fuel s t G', dinic fuel G s t = some G' → allCapsNonneg G') := by
  have hG : WF G := WF.of_shape hsh (WF_buildGraph hr)
  have hc' : capsNonneg G := (capsNonneg_iff G).mpr hc
  refine ⟨?_, ?_, ?_, ?_⟩
  · intro u t bound _
    refine ⟨dfs_returns hG u t bound, ?_⟩
    intro fuel r G' h
    exact (capsNonneg_iff G').mp (dfs_capsNonneg hG hc' h)
  · intro fuel s t b G' h
    exact (capsNonneg_iff G').mp (capsNonneg_congr (bfs_frame h).2.1.symm hc')
  · exact (capsNonneg_iff _).mp (capsNonneg_congr (edges_loopReset G).symm hc')
  · intro fuel s t G' h
    have := dinic_invariant (fun H => WF H ∧ capsNonneg H) s t
      (fun fuel H b H' hH hb => ⟨WF.of_shape (bfs_frame hb).1 hH.1,
        capsNonneg_congr (bfs_frame hb).2.1.symm hH.2⟩)
      (fun fuel H r H' hH hd => by
        have hp := dfs_post fuel H s t INF r H' hH.1 hd
        have hW : WF H' := WF.of_shape hp.shape_eq hH.1
        have hn : capsNonneg H' := dfs_capsNonneg hH.1 hH.2 hd
        exact ⟨fun _ => ⟨WF.of_shape (shape_maxFlow H' _) hW, fun j => hn j⟩,
          fun _ => ⟨hW, hn⟩⟩)
      (fun H hH => ⟨WF.of_shape (shape_loopReset H) hH.1,
        capsNonneg_congr (edges_loopReset H).symm hH.2⟩)
      ⟨hG, hc'⟩ h
    exact (capsNonneg_iff G').mp this.2

/-! ### C6 -/

/-- C6: on a network with the structure built by `buildGraph` in which every level
is `-1`, `bfs(G, s, t)` with `s` in range returns; afterwards the level of `s` is
`0`, the level of each node is the length of a shortest path from `s` along edges
with `cap > 0`, or `-1` when there is none; the result is true exactly when such a
path leads to `t`; and no edge, cursor or `maxFlow` has changed. -/
theorem bfs_layering (n : Nat) (es : List (Nat × Nat × R)) (hr : inRange n es)
    (G : graph R) (hsh : shape G = shape (buildGraph (newGraph n) es))
    (hlev : allUnleveled G) (s t : Nat) (hs : s < n) :
    ∃ b G', (∀ fuel, n + 1 < fuel → bfs fuel G s t = some (b, G')) ∧
      (getNode G' s).level = 0 ∧
      (∀ v, ((getNode G' v).level = -1 ∧ ∀ k, ¬ PosPath G k s v) ∨
        (∃ m : Nat, (getNode G' v).level = (m : Int) ∧ PosPath G m s v ∧
          ∀ k, PosPath G k s v → m ≤ k)) ∧
      (b = true ↔ ∃ k, PosPath G k s t) ∧
      G'.edges = G.edges ∧ (∀ v, (getNode G' v).adjIdx = (getNode G v).adjIdx) ∧
      G'.maxFlow = G.maxFlow := by
  have hG : WF G := WF.of_shape hsh (WF_buildGraph hr)
  have hn : G.nNodes = n := by rw [shape_nNodes hsh]; simp
  obtain ⟨G', hb, hinv⟩ := bfs_spec hG (hn.symm ▸ hs) t (allUnleveled_level hlev)
    (Nat.lt_succ_self (G.nNodes + 1))
  obtain ⟨_, f2, f3, f4⟩ := bfs_frame hb
  refine ⟨(getNode G' t).level != -1, G', ?_, hinv.base.lvl_s, ?_, ?_, f2, f4, f3⟩
  · intro fuel hf
    exact bfs_mono (by omega) hb
  · intro v
    rcases hinv.dist v with ⟨h1, h2⟩ | ⟨m, h1, h2, h3⟩
    · exact Or.inl ⟨h1, fun k hp => h2 k (PosPath_congr f2.symm hp)⟩
    · exact Or.inr ⟨m, h1, PosPath_congr f2 h2, fun k hp => h3 k (PosPath_congr f2.symm hp)⟩
  · rw [bne_iff_ne, hinv.reach_iff t]
    constructor
    · rintro ⟨k, hk⟩; exact ⟨k, PosPath_congr f2 hk⟩
    · rintro ⟨k, hk⟩; exact ⟨k, PosPath_congr f2.symm hk⟩

/-! ### C8 and C9 -/

/-- C8, amended: on a network built from in-range triples with capacities `>= 0`,
`dinic(G, s, t)` returns for every source in range and every sink other than the
source. -/
theorem dinic_terminates [Archimedean R] (n : Nat) (es : List (Nat × Nat × R))
    (s t : Nat) (hr : inRange n es) (hc : nonnegCaps es) (hs : s < n) (hst : s ≠ t) :
    ∃ fuel G', dinic fuel (buildGraph (newGraph n) es) s t = some G' := by
  obtain ⟨fuel, x, hx⟩ := dinicLoop_total hst n _ 0 (LoopInv_built hr hs hst)
    (capsNonneg_built n hc) (by simp)
  exact ⟨fuel, x.1, by simp [dinic, hx]⟩

/-- C9: on a network built from in-range triples, with the source in range, a run
of `dinic` that returns has made at most `nNodes` calls of `bfs` that returned
true; and when the capacities are `>= 0` and source and sink differ, the run does
return. -/
theorem phase_bound [Archimedean R] (n : Nat) (es : List (Nat × Nat × R))
    (s t : Nat) (hr : inRange n es) (hs : s < n) :
    (∀ fuel k, dinicPhases fuel (buildGraph (newGraph n) es) s t = some k → k ≤ n) ∧
    (nonnegCaps es → s ≠ t →
      ∃ fuel k, dinicPhases fuel (buildGraph (newGraph n) es) s t = some k ∧ k ≤ n) := by
  have key : ∀ fuel k, dinicPhases fuel (buildGraph (newGraph n) es) s t = some k → k ≤ n := by
    intro fuel k h
    simp only [dinicPhases, Option.map_eq_some'] at h
    obtain ⟨⟨G', k'⟩, h1, h2⟩ := h
    simp only at h2
    subst h2
    by_cases hst : s = t
    · subst hst
      rw [dinicLoop_self fuel _ 0 (by simpa using hs)] at h1
      simp at h1
    · have := dinicLoop_phases fuel _ 0 G' k' (LoopInv_built hr hs hst) h1
      simp at this
      omega
  refine ⟨key, fun hc hst => ?_⟩
  obtain ⟨fuel, x, hx⟩ := dinicLoop_total hst n _ 0 (LoopInv_built hr hs hst)
    (capsNonneg_built n hc) (by simp)
  have hp : dinicPhases fuel (buildGraph (newGraph n) es) s t = some x.2 := by
    simp [dinicPhases, hx]
  exact ⟨fuel, x.2, hp, key fuel x.2 hp⟩

/-! ### C10 -/

/-- C10: in the state in which `dinic` has returned, a further call
`dfs(G, s, t, INF)` returns `0` and changes no edge and not `maxFlow`, and the
drain loop run once more returns that same state. -/
theorem dfs_after_dinic (n : Nat) (es : List (Nat × Nat × R)) (s t : Nat)
    (hr : inRange n es) (hc : nonnegCaps es) (hs : s < n) (fuel : Nat) (G' : graph R)
    (h : dinic fuel (buildGraph (newGraph n) es) s t = some G') :
    (∃ fuel2 G'', dfs fuel2 G' s t INF = some (0, G'') ∧
      drain (fuel2 + 1) G' s t = some G'') ∧
    ∀ fuel2 r G'', dfs fuel2 G' s t INF = some (r, G'') →
      r = 0 ∧ G''.edges = G'.edges ∧ G''.maxFlow = G'.maxFlow := by
  obtain ⟨hcut, hinv, hlt⟩ := dinic_final (WF_buildGraph hr) (capsNonneg_built n hc)
    (Fresh_built n es) (by simpa using hs) h
  have key : ∀ fuel2 r G'', dfs fuel2 G' s t INF = some (r, G'') →
      r = 0 ∧ G''.edges = G'.edges ∧ G''.maxFlow = G'.maxFlow := by
    intro fuel2 r G'' hd
    have hp := dfs_post fuel2 G' s t INF r G'' hcut.wf hd
    have hnr : ¬ 0 < r := by
      intro hr0
      obtain ⟨p, hp1, _, _⟩ := hp.edges_pos hr0
      have := hp1.level_eq
      rw [hlt, hinv.base.lvl_s] at this
      omega
    refine ⟨?_, hp.edges_zero hnr, hp.maxFlow_eq⟩
    rcases hp.ret_zero hnr with h0 | ⟨h1, _⟩
    · exact h0
    · rw [← h1, hinv.base.lvl_s] at hlt; omega
  refine ⟨?_, key⟩
  obtain ⟨fuel2, ⟨r, G''⟩, hd⟩ := dfs_returns hcut.wf s t (INF : R)
  have hr0 := (key fuel2 r G'' hd).1
  subst hr0
  exact ⟨fuel2, G'', hd, by simp [drain, hd]⟩

/-! ## Concrete networks -/

/-- C2: on `cancelNet`, a valid input, with source 0 and sink 3 the flow fields
that `printFlow` reports are not conserved at node 2: the original edges entering
it carry 2, the one leaving it carries 1. -/
theorem flow_field_not_conserved :
    inRange 6 cancelNet ∧ nonnegCaps cancelNet ∧
    (dinic 20 (buildGraph (newGraph 6) cancelNet) 0 3).map
      (fun G => (G.maxFlow, inFlow G 2, outFlow G 2)) = some (2, 2, 1) := by
  decide

/-- C3: on `repushNet`, a valid input, with source 0 and sink 3 the original edge
`1 -> 2` (index 2) was given capacity 1 and ends with its flow field equal to 2. -/
theorem flow_field_exceeds_capacity :
    inRange 10 repushNet ∧ nonnegCaps repushNet ∧
    (getEdge (buildGraph (newGraph 10) repushNet) 2).cap = 1 ∧
    (dinic 20 (buildGraph (newGraph 10) repushNet) 0 3).map
      (fun G => ((getEdge G 2).frm, (getEdge G 2).to_, (getEdge G 2).residual,
        (getEdge G 2).flow)) = some (1, 2, false, 2) := by
  decide

/-- C7, as stated: `dinic` does not finish scenario 1 with `maxFlow = 4`. -/
theorem scenario1_maxFlow_ne_four :
    ¬ ∃ fuel G', dinic fuel (buildGraph (newGraph 4) scenario1) 0 3 = some G' ∧
      G'.maxFlow = 4 := by
  rintro ⟨fuel, G', h, h4⟩
  have h20 : (dinic 20 (buildGraph (newGraph 4) scenario1) 0 3).map (fun G => G.maxFlow)
      = some 5 := by decide
  cases hd : dinic 20 (buildGraph (newGraph 4) scenario1) 0 3 with
  | none => rw [hd] at h20; simp at h20
  | some G5 =>
    rw [hd] at h20
    simp only [Option.map_some', Option.some.injEq] at h20
    have := dinic_fuel_unique h hd
    rw [this, h20] at h4
    omega

/-- C7, amended: `dinic` finishes scenario 1 (4 nodes, edges `(0,1,3) (0,2,2)
(1,2,1) (1,3,2) (2,3,3)`, source 0, sink 3) with `maxFlow = 5`. -/
theorem scenario1_maxFlow :
    (∃ fuel G', dinic fuel (buildGraph (newGraph 4) scenario1) 0 3 = some G') ∧
    ∀ fuel G', dinic fuel (buildGraph (newGraph 4) scenario1) 0 3 = some G' →
      G'.maxFlow = 5 := by
  have h20 : (dinic 20 (buildGraph (newGraph 4) scenario1) 0 3).map (fun G => G.maxFlow)
      = some 5 := by decide
  cases hd : dinic 20 (buildGraph (newGraph 4) scenario1) 0 3 with
  | none => rw [hd] at h20; simp at h20
  | some G5 =>
    rw [hd] at h20
    simp only [Option.map_some', Option.some.injEq] at h20
    refine ⟨⟨20, G5, hd⟩, fun fuel G' h => ?_⟩
    rw [dinic_fuel_unique h hd, h20]

/-- C8, as stated: with source and sink both node 0 of scenario 1, `dinic` does
not return, whatever the fuel. -/
theorem dinic_same_source_sink_diverges :
    ¬ ∃ fuel G', dinic fuel (buildGraph (newGraph 4) scenario1) 0 0 = some G' := by
  rintro ⟨fuel, G', h⟩
  rw [dinic_self fuel _ (by simp)] at h
  simp at h

/-! ## The claims on scenario 1 -/

/-- C1 on scenario 1 with source 0 and sink 3. -/
theorem dinic_maxflow_mincut_witness :
    (inRange 4 scenario1 ∧ nonnegCaps scenario1 ∧ 0 < 4 ∧ 0 ≠ 3) ∧
    ((∃ fuel G', dinic fuel (buildGraph (newGraph 4) scenario1) 0 3 = some G') ∧
    ∀ fuel G', dinic fuel (buildGraph (newGraph 4) scenario1) 0 3 = some G' →
      (getNode G' 0).level ≠ -1 ∧ (getNode G' 3).level = -1 ∧
      cutCap scenario1 (fun v => decide ((getNode G' v).level ≠ -1)) = G'.maxFlow ∧
      ∀ S : Nat → Bool, S 0 = true → S 3 = false → G'.maxFlow ≤ cutCap scenario1 S) :=
  ⟨by decide, dinic_maxflow_mincut 4 scenario1 0 3 (by decide) (by decide) (by decide)
    (by decide)⟩

/-- C4, amended, on scenario 1. -/
theorem pairCap_conserved_witness :
    inRange 4 scenario1 ∧
    ((∀ i, i < 2 * scenario1.length →
      pairCap (buildGraph (newGraph 4) scenario1) i = (scenario1.getD (i / 2) (0, 0, 0)).2.2) ∧
    ∀ G : graph Int, shape G = shape (buildGraph (newGraph 4) scenario1) →
      ∀ (fuel s t i : Nat),
      (∀ b G', bfs fuel G s t = some (b, G') → pairCap G' i = pairCap G i) ∧
      (∀ flow r G', dfs fuel G s t flow = some (r, G') → pairCap G' i = pairCap G i) ∧
      pairCap (loopReset G) i = pairCap G i ∧
      (∀ G', dinic fuel G s t = some G' → pairCap G' i = pairCap G i)) :=
  ⟨by decide, pairCap_conserved 4 scenario1 (by decide)⟩

/-- C5 on the network of scenario 1 as built. -/
theorem caps_stay_nonneg_witness :
    (inRange 4 scenario1 ∧ allCapsNonneg (buildGraph (newGraph 4) scenario1)) ∧
    ((∀ (u t : Nat) (bound : Int), 0 ≤ bound →
      (∃ fuel x, dfs fuel (buildGraph (newGraph 4) scenario1) u t bound = some x) ∧
      ∀ fuel r G', dfs fuel (buildGraph (newGraph 4) scenario1) u t bound = some (r, G') →
        allCapsNonneg G') ∧
    (∀ fuel s t b G', bfs fuel (buildGraph (newGraph 4) scenario1) s t = some (b, G') →
      allCapsNonneg G') ∧
    allCapsNonneg (loopReset (buildGraph (newGraph 4) scenario1)) ∧
    (∀ fuel s t G', dinic fuel (buildGraph (newGraph 4) scenario1) s t = some G' →
      allCapsNonneg G')) :=
  ⟨by decide, caps_stay_nonneg 4 scenario1 (by decide) _ rfl (by decide)⟩

/-- C6 on the network of scenario 1 as built, from node 0 towards node 3. -/
theorem bfs_layering_witness :
    (inRange 4 scenario1 ∧ allUnleveled (buildGraph (newGraph 4) scenario1) ∧ 0 < 4) ∧
    ∃ b G', (∀ fuel, 4 + 1 < fuel →
        bfs fuel (buildGraph (newGraph 4) scenario1) 0 3 = some (b, G')) ∧
      (getNode G' 0).level = 0 ∧
      (∀ v, ((getNode G' v).level = -1 ∧
          ∀ k, ¬ PosPath (buildGraph (newGraph 4) scenario1) k 0 v) ∨
        (∃ m : Nat, (getNode G' v).level = (m : Int) ∧
          PosPath (buildGraph (newGraph 4) scenario1) m 0 v ∧
          ∀ k, PosPath (buildGraph (newGraph 4) scenario1) k 0 v → m ≤ k)) ∧
      (b = true ↔ ∃ k, PosPath (buildGraph (newGraph 4) scenario1) k 0 3) ∧
      G'.edges = (buildGraph (newGraph 4) scenario1).edges ∧
      (∀ v, (getNode G' v).adjIdx = (getNode (buildGraph (newGraph 4) scenario1) v).adjIdx) ∧
      G'.maxFlow = (buildGraph (newGraph 4) scenario1).maxFlow :=
  ⟨by decide, bfs_layering 4 scenario1 (by decide) _ rfl (by decide) 0 3 (by decide)⟩

/-- C8, amended, on scenario 1 with source 0 and sink 3. -/
theorem dinic_terminates_witness :
    (inRange 4 scenario1 ∧ nonnegCaps scenario1 ∧ 0 < 4 ∧ 0 ≠ 3) ∧
    ∃ fuel G', dinic fuel (buildGraph (newGraph 4) scenario1) 0 3 = some G' :=
  ⟨by decide, dinic_terminates 4 scenario1 0 3 (by decide) (by decide) (by decide)
    (by decide)⟩

/-- C9 on scenario 1 with source 0 and sink 3. -/
theorem phase_bound_witness :
    (inRange 4 scenario1 ∧ 0 < 4) ∧
    ((∀ fuel k, dinicPhases fuel (buildGraph (newGraph 4) scenario1) 0 3 = some k → k ≤ 4) ∧
    (nonnegCaps scenario1 → 0 ≠ 3 →
      ∃ fuel k, dinicPhases fuel (buildGraph (newGraph 4) scenario1) 0 3 = some k ∧ k ≤ 4)) :=
  ⟨by decide, phase_bound 4 scenario1 0 3 (by decide) (by decide)⟩

/-- C10 on scenario 1: the state that `dinic` returns with fuel 20. -/
theorem dfs_after_dinic_witness :
    ∃ G', dinic 20 (buildGraph (newGraph 4) scenario1) 0 3 = some G' ∧
      (inRange 4 scenario1 ∧ nonnegCaps scenario1 ∧ 0 < 4) ∧
      (∃ fuel2 G'', dfs fuel2 G' 0 3 INF = some (0, G'') ∧
        drain (fuel2 + 1) G' 0 3 = some G'') ∧
      ∀ fuel2 r G'', dfs fuel2 G' 0 3 INF = some (r, G'') →
        r = 0 ∧ G''.edges = G'.edges ∧ G''.maxFlow = G'.maxFlow :=
  ⟨(dinic 20 (buildGraph (newGraph 4) scenario1) 0 3).get (by decide),
    (Option.some_get _).symm, by decide,
    dfs_after_dinic 4 scenario1 0 3 (by decide) (by decide) (by decide) 20 _
      (Option.some_get _).symm⟩

/-! ## A sink that cannot be reached -/

/-- The flow fields are zero right after construction. -/
theorem flow_built (n : Nat) (es : List (Nat × Nat × R)) (j : Nat) :
    (getEdge (buildGraph (newGraph n) es) j).flow = 0 := by
  by_cases hj : j < 2 * es.length
  · rw [getEdge_buildGraph n es j hj]
    split <;> rfl
  · rw [getEdge_of_not_lt (by simpa using hj)]

/-- When `bfs` answers `false`, no path of edges with spare capacity leads from the
source to the sink. -/
theorem no_path_of_bfs_false {G : graph R} (hG : WF G) {s : Nat} (hs : s < G.nNodes) {t : Nat}
    (hfresh : ∀ v, (getNode G v).level = -1) {fuel : Nat}
    (h : (bfs fuel G s t).map Prod.fst = some false) : ∀ k, ¬ PosPath G k s t := by
  intro k hk
  obtain ⟨G', hb, hinv⟩ := bfs_spec hG hs t hfresh (Nat.lt_succ_self (G.nNodes + 1))
  rw [Option.map_eq_some'] at h
  obtain ⟨⟨b, G2⟩, h1, h2⟩ := h
  have hu := bfs_fuel_unique h1 hb
  have hb2 : b = false := h2
  rw [hb2] at hu
  have hlev : ((getNode G' t).level != -1) = false := (congrArg Prod.fst hu).symm
  have hlt : (getNode G' t).level = -1 := by simpa using hlev
  have hed := (bfs_frame hb).2.1
  exact ((hinv.reach_iff t).2 ⟨k, PosPath_congr hed.symm hk⟩) hlt

/-- When no path of edges with spare capacity leads from the source to the sink, `bfs`
answers `false`. -/
theorem bfs_false_of_no_path {G : graph R} (hG : WF G) {s : Nat} (hs : s < G.nNodes) {t : Nat}
    (hfresh : ∀ v, (getNode G v).level = -1) (hno : ∀ k, ¬ PosPath G k s t)
    {fuel : Nat} (hfuel : G.nNodes + 1 < fuel) :
    ∃ G', bfs fuel G s t = some (false, G') ∧ G'.edges = G.edges ∧ G'.maxFlow = G.maxFlow := by
  obtain ⟨G', hb, hinv⟩ := bfs_spec hG hs t hfresh hfuel
  have hed := (bfs_frame hb).2.1
  have hlt : (getNode G' t).level = -1 := by
    by_contra hne
    obtain ⟨k, hk⟩ := (hinv.reach_iff t).1 hne
    exact hno k (PosPath_congr hed hk)
  have hlev : ((getNode G' t).level != -1) = false := by simp [hlt]
  rw [hlev] at hb
  exact ⟨G', hb, hed, (bfs_frame hb).2.2.1⟩

/-- C11: on a network built from in-range triples with the source in range, when no
path of edges with positive capacity leads from the source to the sink, the first
call of `bfs` answers `false`, `dinic` returns the state that this one call of `bfs`
left, having run no phase (so no call of `dfs`), with `maxFlow = 0`, the edge array
as it was built and every `flow` field 0; whatever the fuel, a run that returns,
returns that state. -/
theorem disconnected_sink (n : Nat) (es : List (Nat × Nat × R)) (s t : Nat)
    (hr : inRange n es) (hs : s < n)
    (hno : ∀ k, ¬ PosPath (buildGraph (newGraph n) es) k s t) :
    ∃ G', bfs (n + 2) (buildGraph (newGraph n) es) s t = some (false, G') ∧
      dinicLoop (n + 3) (buildGraph (newGraph n) es) s t 0 = some (G', 0) ∧
      dinic (n + 3) (buildGraph (newGraph n) es) s t = some G' ∧
      dinicPhases (n + 3) (buildGraph (newGraph n) es) s t = some 0 ∧
      (∀ fuel G'', dinic fuel (buildGraph (newGraph n) es) s t = some G'' → G'' = G') ∧
      G'.maxFlow = 0 ∧ G'.edges = (buildGraph (newGraph n) es).edges ∧
      ∀ j, (getEdge G' j).flow = 0 := by
  obtain ⟨G', hb, hed, hmf⟩ := bfs_false_of_no_path (WF_buildGraph hr)
    (show s < (buildGraph (newGraph n) es).nNodes by simpa using hs)
    (fun v => level_built n es v) hno
    (show (buildGraph (newGraph n) es).nNodes + 1 < n + 2 by simp)
  have hloop : dinicLoop (n + 3) (buildGraph (newGraph n) es) s t 0 = some (G', 0) := by
    simp only [dinicLoop, hb]
  have hd : dinic (n + 3) (buildGraph (newGraph n) es) s t = some G' := by
    simp [dinic, hloop]
  refine ⟨G', hb, hloop, hd, by simp [dinicPhases, hloop], ?_, ?_, hed, ?_⟩
  · intro fuel G'' h
    exact dinic_fuel_unique h hd
  · rw [hmf]; exact maxFlow_built n es
  · intro j
    rw [getEdge_congr hed]
    exact flow_built n es j

/-- C11 on three nodes with the single edge 0 -> 1, source 0 and sink 2. -/
theorem disconnected_sink_witness :
    (inRange 3 [((0 : Nat), (1 : Nat), (1 : Int))] ∧ 0 < 3 ∧
      ∀ k, ¬ PosPath (buildGraph (newGraph 3) [((0 : Nat), (1 : Nat), (1 : Int))]) k 0 2) ∧
    ∃ G', bfs (3 + 2) (buildGraph (newGraph 3) [(0, 1, (1 : Int))]) 0 2 = some (false, G') ∧
      dinicLoop (3 + 3) (buildGraph (newGraph 3) [(0, 1, (1 : Int))]) 0 2 0 = some (G', 0) ∧
      dinic (3 + 3) (buildGraph (newGraph 3) [(0, 1, (1 : Int))]) 0 2 = some G' ∧
      dinicPhases (3 + 3) (buildGraph (newGraph 3) [(0, 1, (1 : Int))]) 0 2 = some 0 ∧
      (∀ fuel G'', dinic fuel (buildGraph (newGraph 3) [(0, 1, (1 : Int))]) 0 2 = some G'' →
        G'' = G') ∧
      G'.maxFlow = 0 ∧ G'.edges = (buildGraph (newGraph 3) [(0, 1, (1 : Int))]).edges ∧
      ∀ j, (getEdge G' j).flow = 0 :=
  ⟨⟨by decide, by decide,
      no_path_of_bfs_false (WF_buildGraph (by decide)) (by decide)
        (fun v => level_built 3 _ v) (show (bfs 10 _ 0 2).map Prod.fst = some false by decide)⟩,
    disconnected_sink 3 [(0, 1, 1)] 0 2 (by decide) (by decide)
      (no_path_of_bfs_false (WF_buildGraph (by decide)) (by decide)
        (fun v => level_built 3 _ v) (show (bfs 10 _ 0 2).map Prod.fst = some false by decide))⟩

/-! ## The network with one edge -/

/-- No edge of a path found by `dfs` leads back to the node where the path starts. -/
theorem LevelPath.to_ne_start {G : graph R} {u t : Nat} {p : List Nat}
    (hp : LevelPath G u t p) : ∀ j ∈ p, (getEdge G j).to_ ≠ u := by
  intro j hj he
  obtain ⟨_, h2, h3⟩ := hp.edge j hj
  rw [he] at h2
  omega

theorem inRange_single (c : R) : inRange 2 [((0 : Nat), (1 : Nat), c)] := by
  intro e he
  simp only [List.mem_singleton] at he
  subst he
  exact ⟨Nat.zero_lt_two, Nat.one_lt_two⟩

theorem SingleInv.start (c : R) : SingleInv c (buildGraph (newGraph 2) [(0, 1, c)]) :=
  ⟨WF_buildGraph (inRange_single c), rfl, rfl, by
    show c + 0 = c
    rw [add_zero], by
    show c + 0 = c
    rw [add_zero]⟩

theorem SingleInv.same_edges {c : R} {H H' : graph R} (h : SingleInv c H)
    (hs : shape H' = shape H) (he : H'.edges = H.edges) : SingleInv c H' :=
  ⟨WF.of_shape hs h.wf, hs.trans h.shape_eq, by rw [getEdge_congr he]; exact h.flow_one,
    by rw [getEdge_congr he]; exact h.sum_zero, by rw [pairCap_congr he]; exact h.pair⟩

theorem SingleInv.dfs_step {c : R} {H : graph R} (h : SingleInv c H) {fuel : Nat} {r : R}
    {H' : graph R} (hd : dfs fuel H 0 1 INF = some (r, H')) : SingleInv c H' := by
  have hp := dfs_post fuel H 0 1 INF r H' h.wf hd
  by_cases hr : 0 < r
  · obtain ⟨p, hpath, hed, _⟩ := hp.edges_pos hr
    have hto : (getEdge H 1).to_ = 0 := (shape_edge h.shape_eq 1).2.1
    have h1 : 1 ∉ p := fun hm => hpath.to_ne_start 1 hm hto
    have hx : (0 : Nat) ^^^ 1 = 1 := by decide
    refine ⟨WF.of_shape hp.shape_eq h.wf, hp.shape_eq.trans h.shape_eq, ?_, ?_, ?_⟩
    · rw [getEdge_congr hed, hpath.flow_after r 1, if_neg h1]
      exact h.flow_one
    · rw [getEdge_congr hed, hpath.cap_after h.wf r 0, hpath.flow_after r 0, hx]
      by_cases h0 : 0 ∈ p
      · rw [if_pos h0, if_pos h0, ← h.sum_zero]
        ring
      · rw [if_neg h0, if_neg h0, if_neg h1]
        exact h.sum_zero
    · rw [dfs_pairCap h.wf hd 0]
      exact h.pair
  · exact h.same_edges hp.shape_eq (hp.edges_zero hr)

theorem SingleInv.of_dinic {c : R} {fuel : Nat} {G' : graph R}
    (h : dinic fuel (buildGraph (newGraph 2) [(0, 1, c)]) 0 1 = some G') : SingleInv c G' :=
  dinic_invariant (SingleInv c) 0 1
    (fun _ _ _ _ hH hb => hH.same_edges (bfs_frame hb).1 (bfs_frame hb).2.1)
    (fun _ _ _ H' hH hd =>
      ⟨fun _ => (hH.dfs_step hd).same_edges (shape_maxFlow H' _) rfl, fun _ => hH.dfs_step hd⟩)
    (fun H hH => hH.same_edges (shape_loopReset H) (edges_loopReset H))
    (SingleInv.start c) h

/-- C12: the network on two nodes whose only edge is `0 -> 1` with capacity `c > 0`
has the original edge at index 0 and its residual partner at index 1; `dinic` from
0 to 1 returns, and the state it returns has `maxFlow = c`, `flow = c` and capacity 0
on the original edge, and capacity `c` on the residual partner. -/
theorem single_edge [Archimedean R] (c : R) (hc : 0 < c) :
    getEdge (buildGraph (newGraph 2) [(0, 1, c)]) 0 = ⟨0, 1, c, 0, false⟩ ∧
    getEdge (buildGraph (newGraph 2) [(0, 1, c)]) 1 = ⟨1, 0, 0, 0, true⟩ ∧
    (buildGraph (newGraph 2) [(0, 1, c)]).nEdges = 2 ∧
    (∃ fuel G', dinic fuel (buildGraph (newGraph 2) [(0, 1, c)]) 0 1 = some G') ∧
    ∀ fuel G', dinic fuel (buildGraph (newGraph 2) [(0, 1, c)]) 0 1 = some G' →
      G'.maxFlow = c ∧ (getEdge G' 0).flow = c ∧ (getEdge G' 0).cap = 0 ∧
        (getEdge G' 1).cap = c := by
  have hr := inRange_single c
  have hnn : nonnegCaps [((0 : Nat), (1 : Nat), c)] := by
    intro e he
    simp only [List.mem_singleton] at he
    subst he
    exact hc.le
  refine ⟨rfl, rfl, rfl, ?_, ?_⟩
  · obtain ⟨fuel, x, hx⟩ := dinicLoop_total (show (0 : Nat) ≠ 1 by decide) 2 _ 0
      (LoopInv_built hr (by decide) (by decide)) (capsNonneg_built 2 hnn) (by simp)
    exact ⟨fuel, x.1, by simp [dinic, hx]⟩
  · intro fuel G' h
    have hI := SingleInv.of_dinic h
    obtain ⟨hcut, hinv, hlt⟩ := dinic_final (WF_buildGraph hr) (capsNonneg_built 2 hnn)
      (Fresh_built 2 _) (show 0 < (buildGraph (newGraph 2) [(0, 1, c)]).nNodes by simp) h
    have hfrm : (getEdge G' 0).frm = 0 := (shape_edge hI.shape_eq 0).1
    have hto : (getEdge G' 0).to_ = 1 := (shape_edge hI.shape_eq 0).2.1
    have hne : G'.nEdges = 2 := shape_nEdges hI.shape_eq
    have hs0 : (getNode G' 0).level = 0 := hinv.base.lvl_s
    have hcap : (getEdge G' 0).cap = 0 := by
      apply le_antisymm _ (hcut.nonneg 0)
      apply not_lt.1
      intro hpos
      have hok := hinv.done 0 (by omega) (by rw [hfrm, hs0]; decide) (by simp) hpos
      rw [hto] at hok
      exact hok.1 hlt
    have hflow : (getEdge G' 0).flow = c := by
      have := hI.sum_zero
      rw [hcap, zero_add] at this
      exact this
    have hcap1 : (getEdge G' 1).cap = c := by
      have := hI.pair
      unfold pairCap at this
      rw [hcap, zero_add] at this
      exact this
    refine ⟨?_, hflow, hcap, hcap1⟩
    have hc1 := hcut.cut (fun v => decide ((getNode G' v).level ≠ -1))
      (by simp [hs0]) (by simp [hlt])
    rw [residualCut_levels hinv hcut.nonneg, residualCut_built, maxFlow_built] at hc1
    simp [cutCap, hs0, hlt] at hc1
    exact hc1

/-- C12 with capacity 5. -/
theorem single_edge_witness :
    (0 : Int) < 5 ∧
    (getEdge (buildGraph (newGraph 2) [(0, 1, (5 : Int))]) 0 = ⟨0, 1, 5, 0, false⟩ ∧
    getEdge (buildGraph (newGraph 2) [(0, 1, (5 : Int))]) 1 = ⟨1, 0, 0, 0, true⟩ ∧
    (buildGraph (newGraph 2) [(0, 1, (5 : Int))]).nEdges = 2 ∧
    (∃ fuel G', dinic fuel (buildGraph (newGraph 2) [(0, 1, (5 : Int))]) 0 1 = some G') ∧
    ∀ fuel G', dinic fuel (buildGraph (newGraph 2) [(0, 1, (5 : Int))]) 0 1 = some G' →
      G'.maxFlow = 5 ∧ (getEdge G' 0).flow = 5 ∧ (getEdge G' 0).cap = 0 ∧
        (getEdge G' 1).cap = 5) :=
  ⟨by decide, single_edge 5 (by decide)⟩

/-! ## Edge construction -/

/-- The edges after one step of `buildGraph`. -/
theorem getEdge_addPair (G : graph R) (u v : Nat) (c : R) (j : Nat) :
    getEdge (addEdge (addEdge G u v c false) v u 0 true) j =
      if j = G.nEdges + 1 then ⟨v, u, 0, 0, true⟩
      else if j = G.nEdges then ⟨u, v, c, 0, false⟩ else getEdge G j := by
  rw [getEdge_addEdge, getEdge_addEdge, nEdges_addEdge]

/-- The adjacency lists after one step of `buildGraph` with both endpoints in range. -/
theorem adj_addPair (G : graph R) {u v : Nat} (hu : u < G.nNodes) (hv : v < G.nNodes) (c : R)
    (w : Nat) :
    (getNode (addEdge (addEdge G u v c false) v u 0 true) w).adj =
      ((getNode G w).adj ++ if w = u then [G.nEdges] else []) ++
        if w = v then [G.nEdges + 1] else [] := by
  rw [adj_addEdge, adj_addEdge, nNodes_addEdge, nEdges_addEdge]
  by_cases h1 : w = u <;> by_cases h2 : w = v <;> simp_all

/-- C13, amended: `addEdge` makes no range check. Whenever `from` is a node of the
graph, and whatever `to` is, in range or not, the call adds the edge: `nEdges` grows
by one, the new edge with flow 0 is stored at the old index `nEdges`, that index is
appended to the adjacency list of `from`, and the earlier edges, the other adjacency
lists, and the ids, levels and cursors of all nodes are unchanged. -/
theorem addEdge_no_range_check (G : graph R) (u v : Nat) (c : R) (r : Bool)
    (hu : u < G.nNodes) :
    (addEdge G u v c r).nEdges = G.nEdges + 1 ∧
    (addEdge G u v c r).nNodes = G.nNodes ∧
    getEdge (addEdge G u v c r) G.nEdges = ⟨u, v, c, 0, r⟩ ∧
    (∀ j, j < G.nEdges → getEdge (addEdge G u v c r) j = getEdge G j) ∧
    (getNode (addEdge G u v c r) u).adj = (getNode G u).adj ++ [G.nEdges] ∧
    (∀ w, w ≠ u → (getNode (addEdge G u v c r) w).adj = (getNode G w).adj) ∧
    (∀ w, (getNode (addEdge G u v c r) w).id = (getNode G w).id ∧
      (getNode (addEdge G u v c r) w).level = (getNode G w).level ∧
      (getNode (addEdge G u v c r) w).adjIdx = (getNode G w).adjIdx) := by
  refine ⟨nEdges_addEdge G u v c r, nNodes_addEdge G u v c r, ?_, ?_, ?_, ?_, ?_⟩
  · rw [getEdge_addEdge, if_pos rfl]
  · intro j hj
    rw [getEdge_addEdge, if_neg (Nat.ne_of_lt hj)]
  · rw [adj_addEdge, if_pos ⟨rfl, hu⟩]
  · intro w hw
    rw [adj_addEdge, if_neg (fun h => hw h.1)]
  · intro w
    exact ⟨id_addEdge G u v c r w, level_addEdge G u v c r w, adjIdx_addEdge G u v c r w⟩

/-- C14: on a graph with `k = nEdges` edges, `k` even, one step of `buildGraph` with
the triple `(u, v, c)`, both endpoints in range, leaves `nEdges = k + 2`, stores
`{u, v, c, 0, false}` at index `k` and `{v, u, 0, 0, true}` at index `k + 1`, appends
`k` to the adjacency list of `u` and then `k + 1` to that of `v`, and changes no
earlier edge, no other adjacency entry, no id, level or cursor, nor `maxFlow`; the
two new indices are each other's XOR-1 image, and on a graph that had the structure
built by `buildGraph` every edge index `i` has at `i XOR 1` an edge of the graph with
the endpoints swapped and the other residual mark. -/
theorem edge_pair_construction (G : graph R) (u v : Nat) (c : R)
    (hu : u < G.nNodes) (hv : v < G.nNodes) (hk : G.nEdges % 2 = 0) :
    buildGraph G [(u, v, c)] = addEdge (addEdge G u v c false) v u 0 true ∧
    (buildGraph G [(u, v, c)]).nEdges = G.nEdges + 2 ∧
    (buildGraph G [(u, v, c)]).nNodes = G.nNodes ∧
    (buildGraph G [(u, v, c)]).maxFlow = G.maxFlow ∧
    getEdge (buildGraph G [(u, v, c)]) G.nEdges = ⟨u, v, c, 0, false⟩ ∧
    getEdge (buildGraph G [(u, v, c)]) (G.nEdges + 1) = ⟨v, u, 0, 0, true⟩ ∧
    (∀ j, j < G.nEdges → getEdge (buildGraph G [(u, v, c)]) j = getEdge G j) ∧
    (∀ w, (getNode (buildGraph G [(u, v, c)]) w).adj =
      ((getNode G w).adj ++ if w = u then [G.nEdges] else []) ++
        if w = v then [G.nEdges + 1] else []) ∧
    (∀ w, (getNode (buildGraph G [(u, v, c)]) w).id = (getNode G w).id ∧
      (getNode (buildGraph G [(u, v, c)]) w).level = (getNode G w).level ∧
      (getNode (buildGraph G [(u, v, c)]) w).adjIdx = (getNode G w).adjIdx) ∧
    (G.nEdges ^^^ 1 = G.nEdges + 1 ∧ (G.nEdges + 1) ^^^ 1 = G.nEdges) ∧
    (WF G → ∀ i, i < G.nEdges + 2 → i ^^^ 1 < G.nEdges + 2 ∧ i ^^^ 1 ≠ i ∧
      (getEdge (buildGraph G [(u, v, c)]) (i ^^^ 1)).frm =
        (getEdge (buildGraph G [(u, v, c)]) i).to_ ∧
      (getEdge (buildGraph G [(u, v, c)]) (i ^^^ 1)).to_ =
        (getEdge (buildGraph G [(u, v, c)]) i).frm ∧
      (getEdge (buildGraph G [(u, v, c)]) (i ^^^ 1)).residual =
        !(getEdge (buildGraph G [(u, v, c)]) i).residual) := by
  have hb : buildGraph G [(u, v, c)] = addEdge (addEdge G u v c false) v u 0 true := rfl
  rw [hb]
  refine ⟨rfl, by simp, by simp, rfl, ?_, ?_, ?_, adj_addPair G hu hv c, ?_, ?_, ?_⟩
  · rw [getEdge_addPair, if_neg (by omega), if_pos rfl]
  · rw [getEdge_addPair, if_pos rfl]
  · intro j hj
    rw [getEdge_addPair, if_neg (by omega), if_neg (by omega)]
  · intro w
    simp
  · rw [xor_one_eq, xor_one_eq]
    constructor
    · rw [if_pos hk]
    · rw [if_neg (by omega)]; rfl
  · intro hG i hi
    have hW := WF_addPair hG hu hv c
    have hn : (addEdge (addEdge G u v c false) v u 0 true).nEdges = G.nEdges + 2 := by simp
    have hi1 : i < (addEdge (addEdge G u v c false) v u 0 true).nEdges := by omega
    have hx : i ^^^ 1 < G.nEdges + 2 := xor_one_lt (by omega) hi
    refine ⟨hx, xor_one_ne i, hW.pair_frm i hi1, hW.pair_to i hi1, ?_⟩
    rw [hW.residual_eq i hi1, hW.residual_eq (i ^^^ 1) (by omega), xor_one_mod_two]
    rcases Nat.mod_two_eq_zero_or_one i with h | h <;> simp [h]

/-- C13 does not hold: on the empty graph with two nodes, `addEdge` with `from = 0`
and `to = 5`, which is no node, goes through and leaves one edge, registered in the
adjacency list of node 0; one step of `buildGraph` with that triple leaves two. -/
theorem out_of_range_not_rejected :
    ¬ (5 < (newGraph 2 : graph Int).nNodes) ∧
    (newGraph 2 : graph Int).nEdges = 0 ∧
    (getNode (newGraph 2 : graph Int) 0).adj = [] ∧
    (addEdge (newGraph 2 : graph Int) 0 5 1 false).nEdges = 1 ∧
    getEdge (addEdge (newGraph 2 : graph Int) 0 5 1 false) 0 = ⟨0, 5, 1, 0, false⟩ ∧
    (getNode (addEdge (newGraph 2 : graph Int) 0 5 1 false) 0).adj = [0] ∧
    (buildGraph (newGraph 2 : graph Int) [(0, 5, 1)]).nEdges = 2 :=
  ⟨by decide, rfl, rfl, rfl, rfl, rfl, rfl⟩

/-- C13, amended, on the empty graph with two nodes, `from = 0` and `to = 5`. -/
theorem addEdge_no_range_check_witness :
    0 < (newGraph 2 : graph Int).nNodes ∧
    ((addEdge (newGraph 2 : graph Int) 0 5 1 false).nEdges = (newGraph 2 : graph Int).nEdges + 1 ∧
    (addEdge (newGraph 2 : graph Int) 0 5 1 false).nNodes = (newGraph 2 : graph Int).nNodes ∧
    getEdge (addEdge (newGraph 2 : graph Int) 0 5 1 false) (newGraph 2 : graph Int).nEdges =
      ⟨0, 5, 1, 0, false⟩ ∧
    (∀ j, j < (newGraph 2 : graph Int).nEdges →
      getEdge (addEdge (newGraph 2 : graph Int) 0 5 1 false) j = getEdge (newGraph 2) j) ∧
    (getNode (addEdge (newGraph 2 : graph Int) 0 5 1 false) 0).adj =
      (getNode (newGraph 2 : graph Int) 0).adj ++ [(newGraph 2 : graph Int).nEdges] ∧
    (∀ w, w ≠ 0 → (getNode (addEdge (newGraph 2 : graph Int) 0 5 1 false) w).adj =
      (getNode (newGraph 2 : graph Int) w).adj) ∧
    (∀ w, (getNode (addEdge (newGraph 2 : graph Int) 0 5 1 false) w).id =
        (getNode (newGraph 2 : graph Int) w).id ∧
      (getNode (addEdge (newGraph 2 : graph Int) 0 5 1 false) w).level =
        (getNode (newGraph 2 : graph Int) w).level ∧
      (getNode (addEdge (newGraph 2 : graph Int) 0 5 1 false) w).adjIdx =
        (getNode (newGraph 2 : graph Int) w).adjIdx)) :=
  ⟨by decide, addEdge_no_range_check (newGraph 2) 0 5 1 false (by decide)⟩

/-- C14 on the graph built from the triple `(0, 1, 4)` on three nodes, with the step
`(1, 2, 3)`. -/
theorem edge_pair_construction_witness :
    (1 < (buildGraph (newGraph 3) [(0, 1, (4 : Int))]).nNodes ∧
      2 < (buildGraph (newGraph 3) [(0, 1, (4 : Int))]).nNodes ∧
      (buildGraph (newGraph 3) [(0, 1, (4 : Int))]).nEdges % 2 = 0) ∧
    (buildGraph (buildGraph (newGraph 3) [(0, 1, (4 : Int))]) [(1, 2, 3)]).nEdges = 4 ∧
    getEdge (buildGraph (buildGraph (newGraph 3) [(0, 1, (4 : Int))]) [(1, 2, 3)]) 2 =
      ⟨1, 2, 3, 0, false⟩ ∧
    getEdge (buildGraph (buildGraph (newGraph 3) [(0, 1, (4 : Int))]) [(1, 2, 3)]) 3 =
      ⟨2, 1, 0, 0, true⟩ :=
  ⟨by decide,
    (edge_pair_construction (buildGraph (newGraph 3) [(0, 1, (4 : Int))]) 1 2 3
      (by decide) (by decide) (by decide)).2.1,
    (edge_pair_construction (buildGraph (newGraph 3) [(0, 1, (4 : Int))]) 1 2 3
      (by decide) (by decide) (by decide)).2.2.2.2.1,
    (edge_pair_construction (buildGraph (newGraph 3) [(0, 1, (4 : Int))]) 1 2 3
      (by decide) (by decide) (by decide)).2.2.2.2.2.1⟩

/-! ## Sequences of queue operations -/

theorem runQueue_refines : ∀ (ops : List (Option Nat)) (Q : queue), QInv Q →
    (runQueue Q ops).map (fun r => (qlist r.1, r.2)) = runList (qlist Q) ops ∧
      ∀ Q' out, runQueue Q ops = some (Q', out) → QInv Q' := by
  intro ops
  induction ops with
  | nil =>
    intro Q hQ
    refine ⟨by simp [runQueue, runList], ?_⟩
    intro Q' out h
    simp only [runQueue, Option.some.injEq, Prod.mk.injEq] at h
    rw [← h.1]; exact hQ
  | cons op ops ih =>
    intro Q hQ
    cases op with
    | some x =>
      obtain ⟨h1, h2⟩ := enqueue_spec hQ x
      simp only [runQueue, runList]
      rw [← h2]
      exact ih _ h1
    | none =>
      cases he : isEmpty Q with
      | true =>
        have hl : qlist Q = [] := (isEmpty_iff hQ).1 he
        have hd : dequeue Q = none := by simp [dequeue, he]
        simp only [runQueue, hd, hl, runList, Option.map_none', true_and]
        intro Q' out h
        exact absurd h (by simp)
      | false =>
        obtain ⟨x, Q1, hd, hQ1, hl, _⟩ := dequeue_spec hQ he
        obtain ⟨ih1, ih2⟩ := ih Q1 hQ1
        simp only [runQueue, hd, hl, runList]
        constructor
        · rw [← ih1, Option.map_map, Option.map_map]
          rfl
        · intro Q' out h
          rw [Option.map_eq_some'] at h
          obtain ⟨⟨Q2, o2⟩, h3, h4⟩ := h
          simp only [Prod.mk.injEq] at h4
          rw [← h4.1]
          exact ih2 Q2 o2 h3

/-- On a plain list, the values dequeued followed by the values left are the values
enqueued, in the order of the enqueues. -/
theorem runList_order : ∀ (ops : List (Option Nat)) (l l' out : List Nat),
    runList l ops = some (l', out) → out ++ l' = l ++ ops.filterMap id := by
  intro ops
  induction ops with
  | nil =>
    intro l l' out h
    simp only [runList, Option.some.injEq, Prod.mk.injEq] at h
    rw [← h.1, ← h.2]; simp
  | cons op ops ih =>
    intro l l' out h
    cases op with
    | some x =>
      simp only [runList] at h
      rw [ih _ _ _ h]
      simp
    | none =>
      cases l with
      | nil => simp [runList] at h
      | cons y l =>
        simp only [runList, Option.map_eq_some'] at h
        obtain ⟨⟨l2, o2⟩, h3, h4⟩ := h
        simp only [Prod.mk.injEq] at h4
        rw [← h4.1, ← h4.2]
        have := ih _ _ _ h3
        simp only [List.filterMap_cons, id_eq, List.cons_append]
        rw [this]

/-- C15: for every initial size `n ≥ 1` and every sequence of operations, the
circular buffer started at `newQueue(n)` and the plain list started empty stop at
the same point (a dequeue on the empty queue) or both run through, and then the
dequeued values are the same and the buffer holds, oldest first, the elements of the
list; the representation invariant holds at the end, whatever the number of
doublings, and the dequeued values followed by the values still held are the
enqueued values in the order of the enqueues. -/
theorem queue_fifo (n : Nat) (hn : 0 < n) (ops : List (Option Nat)) :
    (runQueue (newQueue n) ops).map (fun r => (qlist r.1, r.2)) = runList [] ops ∧
    ((runQueue (newQueue n) ops).isSome = (runList [] ops).isSome) ∧
    ∀ Q' out, runQueue (newQueue n) ops = some (Q', out) →
      QInv Q' ∧ runList [] ops = some (qlist Q', out) ∧
      out ++ qlist Q' = ops.filterMap id ∧
      (isEmpty Q' = true ↔ qlist Q' = []) := by
  obtain ⟨h1, h2⟩ := runQueue_refines ops (newQueue n) (QInv_newQueue hn)
  rw [qlist_newQueue hn] at h1
  refine ⟨h1, ?_, ?_⟩
  · rw [← h1]; simp
  · intro Q' out h
    have hQ := h2 Q' out h
    have hl : runList [] ops = some (qlist Q', out) := by
      rw [← h1, h]; rfl
    refine ⟨hQ, hl, ?_, isEmpty_iff hQ⟩
    have := runList_order ops [] _ _ hl
    simpa using this

/-- C16: in every queue state `dequeue` fails exactly when `front == back`, which is
when `isEmpty` holds; otherwise it returns `array[front]` and the state with `front`
advanced by one modulo `size`, with `back`, `size` and the buffer as they were. -/
theorem queue_underflow (Q : queue) :
    (dequeue Q = none ↔ Q.front = Q.back) ∧
    (isEmpty Q = true ↔ Q.front = Q.back) ∧
    (Q.front ≠ Q.back →
      dequeue Q = some (Q.array.getD Q.front 0,
        ⟨(Q.front + 1) % Q.size, Q.back, Q.size, Q.array⟩)) ∧
    (∀ x Q', dequeue Q = some (x, Q') →
      Q.array[Q.front]? = some x ∨ (Q.array.length ≤ Q.front ∧ x = 0)) ∧
    (∀ x Q', dequeue Q = some (x, Q') →
      Q'.front = (Q.front + 1) % Q.size ∧ Q'.back = Q.back ∧ Q'.size = Q.size ∧
        Q'.array = Q.array) := by
  have hd : Q.front ≠ Q.back → dequeue Q = some (Q.array.getD Q.front 0,
      ⟨(Q.front + 1) % Q.size, Q.back, Q.size, Q.array⟩) := by
    intro h
    simp [dequeue, isEmpty, h]
  refine ⟨?_, by simp [isEmpty], hd, ?_, ?_⟩
  · constructor
    · intro h
      by_contra hne
      rw [hd hne] at h
      exact absurd h (by simp)
    · intro h
      simp [dequeue, isEmpty, h]
  · intro x Q' h
    by_cases hne : Q.front = Q.back
    · simp [dequeue, isEmpty, hne] at h
    · rw [hd hne] at h
      simp only [Option.some.injEq, Prod.mk.injEq] at h
      rw [← h.1, List.getD_eq_getElem?_getD]
      by_cases hlt : Q.front < Q.array.length
      · left; simp [List.getElem?_eq_getElem hlt]
      · right
        refine ⟨by omega, ?_⟩
        rw [List.getElem?_eq_none (by omega)]; rfl
  · intro x Q' h
    by_cases hne : Q.front = Q.back
    · simp [dequeue, isEmpty, hne] at h
    · rw [hd hne] at h
      simp only [Option.some.injEq, Prod.mk.injEq] at h
      rw [← h.2]
      exact ⟨rfl, rfl, rfl, rfl⟩

/-- C15 with initial size 1, where the buffer doubles twice: three enqueues, a
dequeue, an enqueue and a dequeue. -/
theorem queue_fifo_witness :
    0 < 1 ∧
    runQueue (newQueue 1) [some 7, some 8, some 9, none, some 10, none] =
      some (⟨2, 0, 4, [7, 8, 9, 10]⟩, [7, 8]) ∧
    ((runQueue (newQueue 1) [some 7, some 8, some 9, none, some 10, none]).map
      (fun r => (qlist r.1, r.2)) = runList [] [some 7, some 8, some 9, none, some 10, none]) :=
  ⟨by decide, by decide,
    (queue_fifo 1 (by decide) [some 7, some 8, some 9, none, some 10, none]).1⟩

/-! ## The cursors across a call of `dfs` -/

theorem dfsLoop_cursor (call : graph R → Nat → R → Option (R × graph R)) (t : Nat)
    (hcall : ∀ G1 a f r G2, WF G1 → call G1 a f = some (r, G2) →
      DfsPost G1 a t f r G2 ∧ CursorPost G1 a t r G2) :
    ∀ (k i : Nat) (G : graph R) (s : Nat) (flow r : R) (G' : graph R), WF G →
      k = (getNode G s).nAdj - i → (getNode G s).adjIdx ≤ i →
      dfsLoop call s flow k i G = some (r, G') → CursorPost G s t r G' := by
  intro k
  induction k with
  | zero =>
    intro i G s flow r G' hG hk hcur h
    simp only [dfsLoop, Option.some.injEq, Prod.mk.injEq] at h
    obtain ⟨rfl, rfl⟩ := h
    exact ⟨fun _ => le_refl _, fun _ _ => rfl, fun _ h => h, fun h => absurd h (lt_irrefl _)⟩
  | succ k ih =>
    intro i G s flow r G' hG hk hcur h
    have hi : i < (getNode G s).nAdj := by omega
    have hs : s < G.nNodes := lt_nNodes_of_nAdj (by omega)
    have hG1 : WF (setAdjIdx G s i) := WF.of_shape (shape_setAdjIdx G s i) hG
    have hmem : (getNode G s).adj.getD i 0 ∈ (getNode G s).adj := getD_mem _ _ _ hi
    have hadj := hG.adj_lt s hs _ hmem
    have c1 : ∀ v, (getNode G v).adjIdx ≤ (getNode (setAdjIdx G s i) v).adjIdx := by
      intro v
      rw [adjIdx_setAdjIdx]
      split
      · next hh => rw [hh.1]; exact hcur
      · exact le_refl _
    have c1s : (getNode (setAdjIdx G s i) s).adjIdx = i := by
      rw [adjIdx_setAdjIdx, if_pos ⟨rfl, hs⟩]
    have c1o : ∀ v, v ≠ s → (getNode (setAdjIdx G s i) v).adjIdx = (getNode G v).adjIdx := by
      intro v hv
      rw [adjIdx_setAdjIdx, if_neg (fun h => hv h.1)]
    have c1r : ∀ v, (getNode G v).adjIdx ≤ (getNode G v).nAdj - 1 →
        (getNode (setAdjIdx G s i) v).adjIdx ≤ (getNode G v).nAdj - 1 := by
      intro v hv
      by_cases hvs : v = s
      · subst hvs; rw [c1s]; omega
      · rw [c1o v hvs]; exact hv
    have hn1 : ∀ v, (getNode (setAdjIdx G s i) v).nAdj = (getNode G v).nAdj :=
      fun v => nAdj_of_shape (shape_setAdjIdx G s i) v
    have hne : ∀ v, (getNode G v).level < (getNode G s).level → v ≠ s := by
      intro v hv hvs
      rw [hvs] at hv
      exact lt_irrefl _ hv
    simp only [dfsLoop, adj_setAdjIdx, getEdge_setAdjIdx, level_setAdjIdx] at h
    split at h
    · next hcond =>
      cases hc : call (setAdjIdx G s i) (getEdge G ((getNode G s).adj.getD i 0)).to_
          (MIN flow (getEdge G ((getNode G s).adj.getD i 0)).cap) with
      | none => rw [hc] at h; simp at h
      | some res =>
        obtain ⟨bneck, G2⟩ := res
        rw [hc] at h
        simp only at h
        obtain ⟨hpost, hcp⟩ := hcall _ _ _ _ _ hG1 hc
        have hG2 : WF G2 := WF.of_shape hpost.shape_eq hG1
        have hsh2 : shape G2 = shape G := hpost.shape_eq.trans (shape_setAdjIdx G s i)
        have hn2 : ∀ v, (getNode G2 v).nAdj = (getNode G v).nAdj := fun v => nAdj_of_shape hsh2 v
        have hlow2 : ∀ v, (getNode G v).level < (getNode G s).level + 1 →
            (getNode G2 v).adjIdx = (getNode (setAdjIdx G s i) v).adjIdx := by
          intro v hv
          apply hcp.low
          rw [level_setAdjIdx, level_setAdjIdx, hcond.2]
          exact hv
        have hs2 : (getNode G2 s).adjIdx = i := by
          rw [hlow2 s (by omega), c1s]
        have hrange2 : ∀ v, (getNode G v).adjIdx ≤ (getNode G v).nAdj - 1 →
            (getNode G2 v).adjIdx ≤ (getNode G v).nAdj - 1 := by
          intro v hv
          have := hcp.range v (by rw [hn1]; exact c1r v hv)
          rw [hn1] at this
          exact this
        split at h
        · next hb =>
          simp only [Option.some.injEq, Prod.mk.injEq] at h
          obtain ⟨rfl, rfl⟩ := h
          obtain ⟨p, hp, hedges, hpos⟩ := hcp.path hb
          refine ⟨?_, ?_, ?_, fun _ => ?_⟩
          · intro v
            rw [getNode_pushFlow]
            exact le_trans (c1 v) (hcp.mono v)
          · intro v hv
            rw [getNode_pushFlow, hlow2 v (by omega), c1o v (hne v hv)]
          · intro v hv
            rw [getNode_pushFlow]
            exact hrange2 v hv
          · refine ⟨(getNode G s).adj.getD i 0 :: p, ?_, ?_, ?_⟩
            · refine ⟨hadj.1, hadj.2, hcond.1, hcond.2, ?_⟩
              exact LevelPath_congr (edges_setAdjIdx G s i) (fun v => level_setAdjIdx G s i v) hp
            · simp only [augment]
              apply pushFlow_edges_congr
              rw [hedges]
              exact augment_edges_congr (edges_setAdjIdx G s i) _ _
            · intro j hj
              rcases List.mem_cons.mp hj with hj | hj
              · rw [hj, hadj.2, getNode_pushFlow, hs2]
                exact ⟨hi, rfl⟩
              · have := hpos j hj
                simp only [getEdge_setAdjIdx, adj_setAdjIdx, hn1] at this
                rw [getNode_pushFlow]
                exact this
        · next hb =>
          have hk2 : k = (getNode G2 s).nAdj - (i + 1) := by
            rw [hn2]; omega
          have hcp2 := ih (i + 1) G2 s flow r G' hG2 hk2 (by rw [hs2]; omega) h
          have hed : G2.edges = G.edges := by
            rw [hpost.edges_zero hb, edges_setAdjIdx]
          have hlv : ∀ v, (getNode G2 v).level = (getNode G v).level := by
            intro v; rw [hpost.level_eq, level_setAdjIdx]
          have hadj2 : ∀ v, (getNode G2 v).adj = (getNode G v).adj :=
            fun v => (shape_node hsh2 v).2
          refine ⟨?_, ?_, ?_, ?_⟩
          · intro v
            exact le_trans (c1 v) (le_trans (hcp.mono v) (hcp2.mono v))
          · intro v hv
            rw [hcp2.low v (by rw [hlv, hlv]; exact hv), hlow2 v (by omega), c1o v (hne v hv)]
          · intro v hv
            have := hcp2.range v (by rw [hn2]; exact hrange2 v hv)
            rw [hn2] at this
            exact this
          · intro hr
            obtain ⟨p, hp, hedges, hpos⟩ := hcp2.path hr
            refine ⟨p, LevelPath_congr hed hlv hp, ?_, ?_⟩
            · rw [hedges]; exact augment_edges_congr hed _ _
            · intro j hj
              have := hpos j hj
              rw [getEdge_congr hed, hn2, hadj2] at this
              exact this
    · next hcond =>
      have hk2 : k = (getNode (setAdjIdx G s i) s).nAdj - (i + 1) := by
        rw [hn1]; omega
      have hcp2 := ih (i + 1) (setAdjIdx G s i) s flow r G' hG1 hk2 (by rw [c1s]; omega) h
      have hed : (setAdjIdx G s i).edges = G.edges := edges_setAdjIdx G s i
      have hlv : ∀ v, (getNode (setAdjIdx G s i) v).level = (getNode G v).level :=
        fun v => level_setAdjIdx G s i v
      refine ⟨?_, ?_, ?_, ?_⟩
      · intro v
        exact le_trans (c1 v) (hcp2.mono v)
      · intro v hv
        rw [hcp2.low v (by rw [hlv, hlv]; exact hv), c1o v (hne v hv)]
      · intro v hv
        have := hcp2.range v (by rw [hn1]; exact c1r v hv)
        rw [hn1] at this
        exact this
      · intro hr
        obtain ⟨p, hp, hedges, hpos⟩ := hcp2.path hr
        refine ⟨p, LevelPath_congr hed hlv hp, ?_, ?_⟩
        · rw [hedges]; exact augment_edges_congr hed _ _
        · intro j hj
          have := hpos j hj
          simp only [getEdge_setAdjIdx, adj_setAdjIdx, hn1] at this
          exact this

/-- The effect of `dfs` on the cursors of a well-formed network. -/
theorem dfs_cursor : ∀ (fuel : Nat) (G : graph R) (u t : Nat) (flow r : R) (G' : graph R),
    WF G → dfs fuel G u t flow = some (r, G') → CursorPost G u t r G' := by
  intro fuel
  induction fuel with
  | zero => intro G u t flow r G' _ h; simp [dfs] at h
  | succ fuel ih =>
    intro G u t flow r G' hG h
    simp only [dfs] at h
    split at h
    · next hst =>
      simp only [Option.some.injEq, Prod.mk.injEq] at h
      obtain ⟨rfl, rfl⟩ := h
      exact ⟨fun _ => le_refl _, fun _ _ => rfl, fun _ h => h,
        fun _ => ⟨[], hst, rfl, fun j hj => by simp at hj⟩⟩
    · next hst =>
      exact dfsLoop_cursor _ t
        (fun G1 a f r G2 hG1 hc => ⟨dfs_post fuel G1 a t f r G2 hG1 hc, ih G1 a t f r G2 hG1 hc⟩)
        _ _ G u flow r G' hG rfl (le_refl _) h

/-- The cursors across the loop of `dfs` calls of one phase. -/
theorem drain_cursor {s t : Nat} {fuel : Nat} {G G' : graph R} (hG : WF G)
    (hd : drain fuel G s t = some G') : ∀ v, (getNode G v).adjIdx ≤ (getNode G' v).adjIdx := by
  have := drain_invariant (fun H => WF H ∧ ∀ v, (getNode G v).adjIdx ≤ (getNode H v).adjIdx) s t
    (fun fuel H r H' hH hdfs => by
      have hp := dfs_post fuel H s t INF r H' hH.1 hdfs
      have hcp := dfs_cursor fuel H s t INF r H' hH.1 hdfs
      have hW : WF H' := WF.of_shape hp.shape_eq hH.1
      have hm : ∀ v, (getNode G v).adjIdx ≤ (getNode H' v).adjIdx :=
        fun v => le_trans (hH.2 v) (hcp.mono v)
      exact ⟨fun _ => ⟨WF.of_shape (shape_maxFlow H' _) hW, hm⟩, fun _ => ⟨hW, hm⟩⟩)
    fuel G G' ⟨hG, fun _ => le_refl _⟩ hd
  exact this.2

/-- C18: on a network with the structure built by `buildGraph`, a call
`dfs(G, u, t, bound)` returns, and after it every cursor is at least what it was and,
if it was at most `nAdj - 1`, is so still; after a return `r > 0` there is a path of
level edges from `u` to `t` whose edges are the ones pushed, and the cursor of each
node on it stands at the position of the path edge that leaves that node. The other
steps do not lower a cursor either: `bfs` keeps them all, and so does each update of
`maxFlow` between the `dfs` calls of a phase; `loopReset` sets them all to 0. -/
theorem cursor_monotone (n : Nat) (es : List (Nat × Nat × R)) (hr : inRange n es)
    (G : graph R) (hsh : shape G = shape (buildGraph (newGraph n) es)) :
    (∀ (u t : Nat) (bound : R),
      (∃ fuel x, dfs fuel G u t bound = some x) ∧
      ∀ fuel r G', dfs fuel G u t bound = some (r, G') →
        (∀ v, (getNode G v).adjIdx ≤ (getNode G' v).adjIdx) ∧
        (∀ v, (getNode G' v).nAdj = (getNode G v).nAdj) ∧
        (∀ v, (getNode G v).adjIdx ≤ (getNode G v).nAdj - 1 →
          (getNode G' v).adjIdx ≤ (getNode G' v).nAdj - 1) ∧
        (0 < r → ∃ p, LevelPath G u t p ∧ G'.edges = (augment G p r).edges ∧
          ∀ j ∈ p, (getNode G' (getEdge G j).frm).adjIdx < (getNode G (getEdge G j).frm).nAdj ∧
            (getNode G (getEdge G j).frm).adj.getD (getNode G' (getEdge G j).frm).adjIdx 0
              = j)) ∧
    (∀ fuel s t b G', bfs fuel G s t = some (b, G') →
      ∀ v, (getNode G' v).adjIdx = (getNode G v).adjIdx) ∧
    (∀ fuel s t G', drain fuel G s t = some G' →
      ∀ v, (getNode G v).adjIdx ≤ (getNode G' v).adjIdx) ∧
    (∀ v, (getNode (loopReset G) v).adjIdx = 0) := by
  have hG : WF G := WF.of_shape hsh (WF_buildGraph hr)
  refine ⟨?_, ?_, ?_, fun v => adjIdx_loopReset G v⟩
  · intro u t bound
    refine ⟨dfs_returns hG u t bound, ?_⟩
    intro fuel r G' h
    have hp := dfs_post fuel G u t bound r G' hG h
    have hcp := dfs_cursor fuel G u t bound r G' hG h
    have hn : ∀ v, (getNode G' v).nAdj = (getNode G v).nAdj :=
      fun v => nAdj_of_shape hp.shape_eq v
    refine ⟨hcp.mono, hn, ?_, hcp.path⟩
    intro v hv
    rw [hn]
    exact hcp.range v hv
  · intro fuel s t b G' h
    exact (bfs_frame h).2.2.2
  · intro fuel s t G' h
    exact drain_cursor hG h

/-! ## The result of one call of `dfs` -/

theorem edge_eq_of {a b : edge R} (h1 : a.frm = b.frm) (h2 : a.to_ = b.to_)
    (h3 : a.cap = b.cap) (h4 : a.flow = b.flow) (h5 : a.residual = b.residual) : a = b := by
  cases a; cases b; simp_all

/-- C20, amended: in exact integer or rational arithmetic, where no sum or difference
is rounded, on a network with the structure built by `buildGraph`, a call
`dfs(G, u, t, bound)` with `bound >= 0` returns, and its result `r` has
`0 <= r <= bound`; with `u = t` it returns `bound` and the state as it was; with
`u != t` and `r > 0` there is a path `p` of edges from `u` to `t`, not empty, each
edge with `cap > 0` and leading one level up, such that each edge of `p` has lost `r`
in `cap` and gained `r` in `flow`, each XOR-1 partner of an edge of `p` has gained `r`
in `cap`, and every other edge is as it was; when `r` is not positive no edge has
changed. -/
theorem dfs_result_bound (n : Nat) (es : List (Nat × Nat × R)) (hr : inRange n es)
    (G : graph R) (hsh : shape G = shape (buildGraph (newGraph n) es))
    (u t : Nat) (bound : R) (hb : 0 ≤ bound) :
    (∃ fuel x, dfs fuel G u t bound = some x) ∧
    ∀ fuel r G', dfs fuel G u t bound = some (r, G') →
      0 ≤ r ∧ r ≤ bound ∧
      (u = t → r = bound ∧ G' = G) ∧
      (u ≠ t → 0 < r → ∃ p, p ≠ [] ∧ LevelPath G u t p ∧
        ∀ x, getEdge G' x =
          if x ∈ p then
            { getEdge G x with cap := (getEdge G x).cap - r, flow := (getEdge G x).flow + r }
          else if x ^^^ 1 ∈ p then { getEdge G x with cap := (getEdge G x).cap + r }
          else getEdge G x) ∧
      (¬ 0 < r → G'.edges = G.edges) := by
  have hG : WF G := WF.of_shape hsh (WF_buildGraph hr)
  refine ⟨dfs_returns hG u t bound, ?_⟩
  intro fuel r G' h
  have hp := dfs_post fuel G u t bound r G' hG h
  obtain ⟨h0, h1⟩ := dfs_le_flow hG hb h
  refine ⟨h0, h1, ?_, ?_, hp.edges_zero⟩
  · intro hut
    cases fuel with
    | zero => simp [dfs] at h
    | succ fuel =>
      simp only [dfs, if_pos hut, Option.some.injEq, Prod.mk.injEq] at h
      exact ⟨h.1.symm, h.2.symm⟩
  · intro hut hpos
    obtain ⟨p, hpath, hed, _⟩ := hp.edges_pos hpos
    refine ⟨p, ?_, hpath, ?_⟩
    · intro hnil
      rw [hnil] at hpath
      exact hut hpath
    · intro x
      have hs := shape_edge hp.shape_eq x
      have hc := hpath.cap_after hG r x
      have hf := hpath.flow_after r x
      rw [← getEdge_congr hed] at hc hf
      by_cases hx : x ∈ p
      · rw [if_pos hx] at hc hf ⊢
        exact edge_eq_of hs.1 hs.2.1 hc hf hs.2.2
      · rw [if_neg hx] at hc hf ⊢
        by_cases hx1 : x ^^^ 1 ∈ p
        · rw [if_pos hx1] at hc ⊢
          exact edge_eq_of hs.1 hs.2.1 hc hf hs.2.2
        · rw [if_neg hx1] at hc ⊢
          exact edge_eq_of hs.1 hs.2.1 hc hf hs.2.2

/-- C17 fails on the input `4 0 3`, `0 2 1`, `2 3 1`, `0 1 1`. After the first push of
the first phase, node 0 has the adjacency list `[0, 4]` and cursor 0; edge 4 is
`0 -> 1` with capacity 1 and node 1 is one level above node 0, so the next call
`dfs(G, 0, 3, INF)` recurses on position 1; that recursive call returns 0, the call
itself returns 0, and the cursor of node 0 is then 1, the position of that edge, not
past it. -/
theorem cursor_stays_on_last_dead_edge :
    (inRange 4 deadEndNet ∧ nonnegCaps deadEndNet) ∧
    deadEndState.map (fun G => ((getNode G 0).adj, (getNode G 0).adjIdx)) = some ([0, 4], 0) ∧
    deadEndState.map (fun G => ((getEdge G 4).frm, (getEdge G 4).to_, (getEdge G 4).cap,
      (getNode G 0).level, (getNode G 1).level)) = some (0, 1, 1, 0, 1) ∧
    (deadEndState.bind fun G =>
      (dfs 9 (setAdjIdx (setAdjIdx G 0 0) 0 1) 1 3 (MIN INF (getEdge G 4).cap)).map Prod.fst)
      = some 0 ∧
    (deadEndState.bind fun G => (dfs 10 G 0 3 INF).map fun x =>
      (x.1, (getNode x.2 0).adjIdx, (getNode x.2 0).nAdj)) = some (0, 1, 2) ∧
    ¬ (deadEndState.bind fun G => (dfs 10 G 0 3 INF).map fun x =>
      decide (1 < (getNode x.2 0).adjIdx)) = some true := by
  decide

/-- C18 on scenario 1 after `bfs` from 0 towards 3: the call `dfs(G, 0, 3, INF)`
returns 2 and leaves the cursors 0, 2, 0, 0. -/
theorem cursor_monotone_witness :
    (inRange 4 scenario1 ∧
      shape (leveled 10 (buildGraph (newGraph 4) scenario1) 0 3) =
        shape (buildGraph (newGraph 4) scenario1)) ∧
    (dfs 10 (leveled 10 (buildGraph (newGraph 4) scenario1) 0 3) 0 3 INF).map
      (fun x => (x.1, (List.range 4).map fun v => (getNode x.2 v).adjIdx)) =
        some (2, [0, 2, 0, 0]) ∧
    ((∃ fuel x, dfs fuel (leveled 10 (buildGraph (newGraph 4) scenario1) 0 3) 0 3 INF
        = some x) ∧
      ∀ fuel r G', dfs fuel (leveled 10 (buildGraph (newGraph 4) scenario1) 0 3) 0 3 INF
          = some (r, G') →
        (∀ v, (getNode (leveled 10 (buildGraph (newGraph 4) scenario1) 0 3) v).adjIdx ≤
          (getNode G' v).adjIdx) ∧
        (∀ v, (getNode G' v).nAdj =
          (getNode (leveled 10 (buildGraph (newGraph 4) scenario1) 0 3) v).nAdj) ∧
        (∀ v, (getNode (leveled 10 (buildGraph (newGraph 4) scenario1) 0 3) v).adjIdx ≤
            (getNode (leveled 10 (buildGraph (newGraph 4) scenario1) 0 3) v).nAdj - 1 →
          (getNode G' v).adjIdx ≤ (getNode G' v).nAdj - 1) ∧
        (0 < r → ∃ p, LevelPath (leveled 10 (buildGraph (newGraph 4) scenario1) 0 3) 0 3 p ∧
          G'.edges = (augment (leveled 10 (buildGraph (newGraph 4) scenario1) 0 3) p r).edges ∧
          ∀ j ∈ p,
            (getNode G' (getEdge (leveled 10 (buildGraph (newGraph 4) scenario1) 0 3) j).frm).adjIdx
              < (getNode (leveled 10 (buildGraph (newGraph 4) scenario1) 0 3)
                  (getEdge (leveled 10 (buildGraph (newGraph 4) scenario1) 0 3) j).frm).nAdj ∧
            (getNode (leveled 10 (buildGraph (newGraph 4) scenario1) 0 3)
                (getEdge (leveled 10 (buildGraph (newGraph 4) scenario1) 0 3) j).frm).adj.getD
              (getNode G' (getEdge (leveled 10 (buildGraph (newGraph 4) scenario1) 0 3) j).frm).adjIdx
              0 = j)) :=
  ⟨by decide, by decide,
    (cursor_monotone 4 scenario1 (by decide)
      (leveled 10 (buildGraph (newGraph 4) scenario1) 0 3) (by decide)).1 0 3 INF⟩

/-- C20, amended, on scenario 1 after `bfs` from 0 towards 3, with the bound `INF`: the call
returns 2. -/
theorem dfs_result_bound_witness :
    (inRange 4 scenario1 ∧
      shape (leveled 10 (buildGraph (newGraph 4) scenario1) 0 3) =
        shape (buildGraph (newGraph 4) scenario1) ∧ (0 : Int) ≤ INF) ∧
    (dfs 10 (leveled 10 (buildGraph (newGraph 4) scenario1) 0 3) 0 3 INF).map Prod.fst
      = some 2 ∧
    ((∃ fuel x, dfs fuel (leveled 10 (buildGraph (newGraph 4) scenario1) 0 3) 0 3 INF
        = some x) ∧
    ∀ fuel r G', dfs fuel (leveled 10 (buildGraph (newGraph 4) scenario1) 0 3) 0 3 INF
        = some (r, G') →
      0 ≤ r ∧ r ≤ INF ∧
      (0 = 3 → r = INF ∧ G' = leveled 10 (buildGraph (newGraph 4) scenario1) 0 3) ∧
      (0 ≠ 3 → 0 < r → ∃ p, p ≠ [] ∧
        LevelPath (leveled 10 (buildGraph (newGraph 4) scenario1) 0 3) 0 3 p ∧
        ∀ x, getEdge G' x =
          if x ∈ p then
            { getEdge (leveled 10 (buildGraph (newGraph 4) scenario1) 0 3) x with
              cap := (getEdge (leveled 10 (buildGraph (newGraph 4) scenario1) 0 3) x).cap - r,
              flow := (getEdge (leveled 10 (buildGraph (newGraph 4) scenario1) 0 3) x).flow + r }
          else if x ^^^ 1 ∈ p then
            { getEdge (leveled 10 (buildGraph (newGraph 4) scenario1) 0 3) x with
              cap := (getEdge (leveled 10 (buildGraph (newGraph 4) scenario1) 0 3) x).cap + r }
          else getEdge (leveled 10 (buildGraph (newGraph 4) scenario1) 0 3) x) ∧
      (¬ 0 < r → G'.edges = (leveled 10 (buildGraph (newGraph 4) scenario1) 0 3).edges)) :=
  ⟨by decide, by decide,
    dfs_result_bound 4 scenario1 (by decide)
      (leveled 10 (buildGraph (newGraph 4) scenario1) 0 3) (by decide) 0 3 INF (by decide)⟩

/-! ## The threshold of capacity scaling (`ffm-2.c`) -/

theorem thresholdLoop_pow (m k : Nat) (hk : k < 63) (h1 : 2 ^ k < m) (h2 : m ≤ 2 ^ (k + 1)) :
    ∀ d j, j + d = k + 1 → thresholdLoop (d + 1) (2 ^ j) m = some (2 ^ (k + 1)) := by
  intro d
  induction d with
  | zero =>
    intro j hj
    have : j = k + 1 := by omega
    subst this
    simp only [thresholdLoop]
    rw [if_neg (by omega)]
  | succ d ih =>
    intro j hj
    have hjk : j ≤ k := by omega
    have hlt : 2 ^ j < m := lt_of_le_of_lt (Nat.pow_le_pow_right (by decide) hjk) h1
    have hstep : (2 ^ j <<< 1) % 2 ^ 64 = 2 ^ (j + 1) := by
      rw [Nat.shiftLeft_eq, pow_one, ← pow_succ]
      exact Nat.mod_eq_of_lt (Nat.pow_lt_pow_right (by decide) (by omega))
    rw [thresholdLoop, if_pos hlt, hstep]
    exact ih (j + 1) (by omega)

/-- What `threshold` returns for `maxCap` in `(2 ^ k, 2 ^ (k + 1)]`, below `2 ^ 63`:
the power `2 ^ k`, which is the largest power of two strictly below `maxCap`. -/
theorem threshold_strict (m k : Nat) (hk : k < 63) (h1 : 2 ^ k < m) (h2 : m ≤ 2 ^ (k + 1)) :
    threshold (k + 2) m = some (2 ^ k) := by
  have h := thresholdLoop_pow m k hk h1 h2 (k + 1) 0 (by omega)
  rw [pow_zero] at h
  rw [threshold, h, Option.map_some']
  congr 1
  rw [Nat.shiftRight_eq_div_pow, pow_one, pow_succ]
  omega

/-- C19 fails when `maxCap` is a power of two: for `maxCap = 1` the function
`threshold` returns 0, which is no power of two, and for `maxCap = 2, 4, 8` it returns
1, 2, 4, half of the largest power of two that is `<= maxCap`; for `maxCap = 3, 5, 7`
it returns 2, 4, 4 as claimed. -/
theorem threshold_misses_powers_of_two :
    threshold 64 1 = some 0 ∧ threshold 64 2 = some 1 ∧ threshold 64 4 = some 2 ∧
    threshold 64 8 = some 4 ∧ threshold 64 3 = some 2 ∧ threshold 64 5 = some 4 ∧
    threshold 64 7 = some 4 := by
  decide

/-! ## A call of `dfs` that returns 0 -/

theorem node_eq_of {a b : node} (h1 : a.id = b.id) (h2 : a.adj = b.adj)
    (h3 : a.level = b.level) (h4 : a.adjIdx = b.adjIdx) : a = b := by
  cases a; cases b; simp_all

/-- C21: on a network with the structure built by `buildGraph`, a call
`dfs(G, u, t, bound)` returns, and when it returns the pair `x` of the amount
`x.1 = 0` and the state `x.2`, the edge array is the one before the call, so no `cap`
or `flow` field has changed, `maxFlow` is unchanged, the number of nodes is unchanged
and every node is as it was except for its cursor `adjIdx`. -/
theorem failed_probe_edge_neutral (n : Nat) (es : List (Nat × Nat × R)) (hr : inRange n es)
    (G : graph R) (hsh : shape G = shape (buildGraph (newGraph n) es))
    (u t : Nat) (bound : R) :
    (∃ fuel x, dfs fuel G u t bound = some x) ∧
    ∀ fuel x, dfs fuel G u t bound = some x → x.1 = 0 →
      x.2.edges = G.edges ∧
      (∀ j, (getEdge x.2 j).cap = (getEdge G j).cap ∧
        (getEdge x.2 j).flow = (getEdge G j).flow) ∧
      x.2.maxFlow = G.maxFlow ∧ x.2.nNodes = G.nNodes ∧
      ∀ v, getNode x.2 v = { getNode G v with adjIdx := (getNode x.2 v).adjIdx } := by
  have hG : WF G := WF.of_shape hsh (WF_buildGraph hr)
  refine ⟨dfs_returns hG u t bound, ?_⟩
  rintro fuel ⟨r, G'⟩ h hr0
  simp only at hr0 ⊢
  have hp := dfs_post fuel G u t bound r G' hG h
  have hed : G'.edges = G.edges := hp.edges_zero (by rw [hr0]; exact lt_irrefl _)
  refine ⟨hed, ?_, hp.maxFlow_eq, shape_nNodes hp.shape_eq, ?_⟩
  · intro j
    rw [getEdge_congr hed]
    exact ⟨rfl, rfl⟩
  · intro v
    have hs := shape_node hp.shape_eq v
    exact node_eq_of hs.1 hs.2 (hp.level_eq v) rfl

/-- C21 on scenario 1 as built, where no level is set yet: `dfs(G, 0, 3, INF)` runs
through the adjacency list of node 0, returns 0 and leaves the cursor of node 0 at
1; nothing else has changed. -/
theorem failed_probe_edge_neutral_witness :
    (inRange 4 scenario1 ∧
      shape (buildGraph (newGraph 4) scenario1) = shape (buildGraph (newGraph 4) scenario1)) ∧
    (dfs 10 (buildGraph (newGraph 4) scenario1) 0 3 INF).map
      (fun x => (x.1, (getNode x.2 0).adjIdx)) = some (0, 1) ∧
    (getNode (buildGraph (newGraph 4) scenario1) 0).adjIdx = 0 ∧
    ∃ x, dfs 10 (buildGraph (newGraph 4) scenario1) 0 3 INF = some x ∧ x.1 = 0 ∧
      x.2.edges = (buildGraph (newGraph 4) scenario1).edges ∧
      (∀ j, (getEdge x.2 j).cap = (getEdge (buildGraph (newGraph 4) scenario1) j).cap ∧
        (getEdge x.2 j).flow = (getEdge (buildGraph (newGraph 4) scenario1) j).flow) ∧
      x.2.maxFlow = (buildGraph (newGraph 4) scenario1).maxFlow ∧
      x.2.nNodes = (buildGraph (newGraph 4) scenario1).nNodes ∧
      ∀ v, getNode x.2 v =
        { getNode (buildGraph (newGraph 4) scenario1) v with adjIdx := (getNode x.2 v).adjIdx } :=
  ⟨⟨by decide, rfl⟩, by decide, by decide,
    (dfs 10 (buildGraph (newGraph 4) scenario1) 0 3 INF).get (by decide),
    (Option.some_get _).symm, by decide,
    (failed_probe_edge_neutral 4 scenario1 (by decide) (buildGraph (newGraph 4) scenario1) rfl
      0 3 INF).2 10 _ (Option.some_get _).symm (by decide)⟩

/-! ## The net flow kept in the residual capacities -/

theorem drainStates_snd : ∀ (fuel : Nat) (G : graph R) (s t : Nat),
    (drainStates fuel G s t).map Prod.snd = drain fuel G s t := by
  intro fuel
  induction fuel with
  | zero => intro G s t; rfl
  | succ fuel ih =>
    intro G s t
    simp only [drainStates, drain]
    cases hd : dfs fuel G s t INF with
    | none => rfl
    | some x =>
      obtain ⟨f, G1⟩ := x
      simp only
      by_cases hf : f ≠ 0
      · rw [if_pos hf, if_pos hf, Option.map_map, ← ih]
        rfl
      · rw [if_neg hf, if_neg hf]
        rfl

theorem dinicStates_snd : ∀ (fuel : Nat) (G : graph R) (s t k : Nat),
    (dinicStates fuel G s t).map Prod.snd = (dinicLoop fuel G s t k).map Prod.fst := by
  intro fuel
  induction fuel with
  | zero => intro G s t k; rfl
  | succ fuel ih =>
    intro G s t k
    simp only [dinicStates, dinicLoop]
    cases hb : bfs fuel G s t with
    | none => rfl
    | some x =>
      obtain ⟨b, G1⟩ := x
      cases b with
      | false => rfl
      | true =>
        simp only
        have hd := drainStates_snd fuel G1 s t
        cases hds : drainStates fuel G1 s t with
        | none =>
          rw [hds] at hd
          simp only [Option.map_none'] at hd
          rw [← hd]
          rfl
        | some y =>
          obtain ⟨L, G2⟩ := y
          rw [hds] at hd
          simp only [Option.map_some'] at hd
          rw [← hd]
          simp only
          rw [Option.map_map, ← ih (loopReset G2) s t (k + 1)]
          rfl

theorem drainStates_invariant (I : graph R → Prop) (s t : Nat)
    (hdfs : ∀ fuel G r G', I G → dfs fuel G s t INF = some (r, G') →
      (r ≠ 0 → I { G' with maxFlow := G'.maxFlow + r }) ∧ (r = 0 → I G')) :
    ∀ fuel G L G', I G → drainStates fuel G s t = some (L, G') →
      (∀ H ∈ L, I H) ∧ I G' := by
  intro fuel
  induction fuel with
  | zero => intro G L G' _ h; simp [drainStates] at h
  | succ fuel ih =>
    intro G L G' hI h
    simp only [drainStates] at h
    cases hd : dfs fuel G s t INF with
    | none => rw [hd] at h; simp at h
    | some x =>
      obtain ⟨f, G1⟩ := x
      rw [hd] at h
      simp only at h
      have hstep := hdfs fuel G f G1 hI hd
      by_cases hf : f ≠ 0
      · rw [if_pos hf, Option.map_eq_some'] at h
        obtain ⟨⟨L2, G2⟩, h1, h2⟩ := h
        simp only [Prod.mk.injEq] at h2
        obtain ⟨ih1, ih2⟩ := ih _ L2 G2 (hstep.1 hf) h1
        rw [← h2.1, ← h2.2]
        refine ⟨?_, ih2⟩
        intro H hH
        rcases List.mem_cons.mp hH with rfl | hH
        · exact hstep.1 hf
        · exact ih1 H hH
      · rw [if_neg hf] at h
        simp only [Option.some.injEq, Prod.mk.injEq] at h
        rw [← h.1, ← h.2]
        have hf0 : f = 0 := not_not.mp hf
        refine ⟨?_, hstep.2 hf0⟩
        intro H hH
        rw [List.mem_singleton] at hH
        rw [hH]
        exact hstep.2 hf0

theorem dinicStates_invariant (I : graph R → Prop) (s t : Nat)
    (hbfs : ∀ fuel G b G', I G → bfs fuel G s t = some (b, G') → I G')
    (hdfs : ∀ fuel G r G', I G → dfs fuel G s t INF = some (r, G') →
      (r ≠ 0 → I { G' with maxFlow := G'.maxFlow + r }) ∧ (r = 0 → I G'))
    (hreset : ∀ G, I G → I (loopReset G)) :
    ∀ fuel G L G', I G → dinicStates fuel G s t = some (L, G') →
      (∀ H ∈ L, I H) ∧ I G' := by
  intro fuel
  induction fuel with
  | zero => intro G L G' _ h; simp [dinicStates] at h
  | succ fuel ih =>
    intro G L G' hI h
    simp only [dinicStates] at h
    cases hb : bfs fuel G s t with
    | none => rw [hb] at h; simp at h
    | some x =>
      obtain ⟨b, G1⟩ := x
      rw [hb] at h
      have hI1 := hbfs fuel G b G1 hI hb
      cases b with
      | false =>
        simp only [Option.some.injEq, Prod.mk.injEq] at h
        rw [← h.1, ← h.2]
        exact ⟨fun H hH => by simp at hH, hI1⟩
      | true =>
        simp only at h
        cases hds : drainStates fuel G1 s t with
        | none => rw [hds] at h; simp at h
        | some y =>
          obtain ⟨L1, G2⟩ := y
          rw [hds] at h
          simp only [Option.map_eq_some'] at h
          obtain ⟨⟨L2, G3⟩, h1, h2⟩ := h
          simp only [Prod.mk.injEq] at h2
          obtain ⟨d1, d2⟩ := drainStates_invariant I s t hdfs fuel G1 L1 G2 hI1 hds
          obtain ⟨ih1, ih2⟩ := ih _ L2 G3 (hreset G2 d2) h1
          rw [← h2.1, ← h2.2]
          refine ⟨?_, ih2⟩
          intro H hH
          rcases List.mem_append.mp hH with hH | hH
          · exact d1 H hH
          · exact ih1 H hH

theorem range_map_sum (f : Nat → R) (m : Nat) :
    ((List.range m).map f).sum = ∑ k in Finset.range m, f k := by
  induction m with
  | zero => simp
  | succ m ih =>
    rw [List.range_succ, List.map_append, List.sum_append, ih, Finset.sum_range_succ]
    simp

theorem ite_eq_swap (a b : Nat) :
    (if a = b then (1 : R) else 0) = if b = a then 1 else 0 := by
  by_cases h : a = b
  · rw [if_pos h, if_pos h.symm]
  · rw [if_neg h, if_neg (Ne.symm h)]

theorem netW_of_shape {G H : graph R} (h : shape G = shape H) (v : Nat) :
    netW G v = netW H v := by
  funext x
  unfold netW
  rw [(shape_edge h x).1, (shape_edge h x).2.1]

theorem netOut_congr {G H : graph R} (h : G.edges = H.edges) (v : Nat) :
    netOut G v = netOut H v := by
  unfold netOut netFlow
  rw [nEdges_congr h]
  simp only [getEdge_congr h]

theorem netIn_congr {G H : graph R} (h : G.edges = H.edges) (v : Nat) :
    netIn G v = netIn H v := by
  unfold netIn netFlow
  rw [nEdges_congr h]
  simp only [getEdge_congr h]

/-- The net flow that leaves `v` minus the net flow that enters `v`, as a weighted sum
of the capacities of the residual edges. -/
theorem net_eq_wsum {G : graph R} (hG : WF G) (v : Nat) :
    netOut G v - netIn G v = wsum G (netW G v) := by
  obtain ⟨m, hm⟩ : ∃ m, G.nEdges = 2 * m := ⟨G.nEdges / 2, by have := hG.even; omega⟩
  have hm2 : G.nEdges / 2 = m := by omega
  unfold netOut netIn wsum
  rw [hm2, hm, sum_range_double, range_map_sum, range_map_sum, ← Finset.sum_sub_distrib]
  apply Finset.sum_congr rfl
  intro k hk
  rw [Finset.mem_range] at hk
  have hk2 : 2 * k < G.nEdges := by omega
  have hx : (2 * k) ^^^ 1 = 2 * k + 1 := by rw [xor_one_eq, if_pos (by omega)]
  have hf := hG.pair_frm (2 * k) hk2
  have ht := hG.pair_to (2 * k) hk2
  rw [hx] at hf ht
  have w0 : netW G v (2 * k) = 0 := by
    unfold netW
    rw [if_neg (by omega)]
  have w1 : netW G v (2 * k + 1) =
      (if (getEdge G (2 * k)).frm = v then 1 else 0) -
        (if (getEdge G (2 * k)).to_ = v then 1 else 0) := by
    unfold netW
    rw [if_pos (by omega), hf, ht]
  rw [w0, w1]
  unfold netFlow
  by_cases h1 : (getEdge G (2 * k)).frm = v <;> by_cases h2 : (getEdge G (2 * k)).to_ = v <;>
    simp [h1, h2]

theorem netW_pair {G : graph R} (hG : WF G) (v : Nat) {j : Nat} (hj : j < G.nEdges) :
    netW G v (j ^^^ 1) - netW G v j =
      (if (getEdge G j).frm = v then (1 : R) else 0) -
        (if (getEdge G j).to_ = v then 1 else 0) := by
  unfold netW
  rw [hG.pair_frm j hj, hG.pair_to j hj, xor_one_mod_two]
  rcases Nat.mod_two_eq_zero_or_one j with h | h
  · rw [h]; simp
  · rw [h]; simp

/-- Pushing `r` along a path from `u` to `t` adds `r` to the net flow that leaves `u`
and to the net flow that enters `t`, and keeps the balance of every other node. -/
theorem net_augment {G : graph R} (hG : WF G) {u t : Nat} {p : List Nat}
    (hp : LevelPath G u t p) (r : R) (v : Nat) :
    wsum (augment G p r) (netW G v) = wsum G (netW G v) +
      r * ((if v = u then (1 : R) else 0) - (if v = t then 1 else 0)) := by
  rw [wsum_augment hG p r hp.lt]
  congr 2
  have ht := hp.telescope fun w => -(if w = v then (1 : R) else 0)
  have hmap : (p.map fun j => netW G v (j ^^^ 1) - netW G v j) =
      p.map fun j => (fun w => -(if w = v then (1 : R) else 0)) (getEdge G j).to_ -
        (fun w => -(if w = v then (1 : R) else 0)) (getEdge G j).frm := by
    apply List.map_congr_left
    intro j hj
    rw [netW_pair hG v (hp.lt j hj)]
    ring
  rw [hmap, ht, ite_eq_swap v u, ite_eq_swap v t]
  ring

theorem netFlow_built (n : Nat) (es : List (Nat × Nat × R)) (k : Nat) :
    netFlow (buildGraph (newGraph n) es) (2 * k) = 0 := by
  unfold netFlow
  by_cases hj : 2 * k + 1 < 2 * es.length
  · rw [getEdge_buildGraph n es _ hj, if_neg (by omega)]
  · rw [getEdge_of_not_lt (by simpa using hj)]

theorem netOut_built (n : Nat) (es : List (Nat × Nat × R)) (v : Nat) :
    netOut (buildGraph (newGraph n) es) v = 0 := by
  unfold netOut
  apply List.sum_eq_zero
  intro x hx
  rw [List.mem_map] at hx
  obtain ⟨k, _, rfl⟩ := hx
  rw [netFlow_built]
  simp

theorem netIn_built (n : Nat) (es : List (Nat × Nat × R)) (v : Nat) :
    netIn (buildGraph (newGraph n) es) v = 0 := by
  unfold netIn
  apply List.sum_eq_zero
  intro x hx
  rw [List.mem_map] at hx
  obtain ⟨k, _, rfl⟩ := hx
  rw [netFlow_built]
  simp

theorem NetInv.built (n : Nat) {es : List (Nat × Nat × R)} (hc : nonnegCaps es) (s t : Nat) :
    NetInv n es s t (buildGraph (newGraph n) es) :=
  ⟨rfl, fun _ => rfl, capsNonneg_built n hc, fun v => by
    rw [netOut_built, netIn_built, maxFlow_built]; simp⟩

theorem NetInv.frame {n : Nat} {es : List (Nat × Nat × R)} {s t : Nat} {H H' : graph R}
    (h : NetInv n es s t H) (hs : shape H' = shape H) (he : H'.edges = H.edges)
    (hm : H'.maxFlow = H.maxFlow) : NetInv n es s t H' :=
  ⟨hs.trans h.shape_eq, fun i => (pairCap_congr he i).trans (h.pair i),
    capsNonneg_congr he.symm h.nonneg, fun v => by
      rw [netOut_congr he, netIn_congr he, hm]; exact h.balance v⟩

/-- One call of `dfs` from `s` towards `t` keeps the invariant once the returned
amount is added to `maxFlow`. -/
theorem NetInv.push {n : Nat} {es : List (Nat × Nat × R)} (hr : inRange n es) {s t : Nat}
    (hst : s ≠ t) {H : graph R} (h : NetInv n es s t H) {fuel : Nat} {r : R} {H' : graph R}
    (hd : dfs fuel H s t INF = some (r, H')) :
    NetInv n es s t { H' with maxFlow := H'.maxFlow + r } ∧ (r = 0 → NetInv n es s t H') := by
  have hG : WF H := WF.of_shape h.shape_eq (WF_buildGraph hr)
  have hp := dfs_post fuel H s t INF r H' hG hd
  have hW : WF H' := WF.of_shape hp.shape_eq hG
  have hbal : ∀ v, netOut H' v - netIn H' v =
      ((if v = s then 1 else 0) - (if v = t then 1 else 0)) * (H.maxFlow + r) := by
    intro v
    by_cases hr0 : 0 < r
    · obtain ⟨p, hpath, hed, _⟩ := hp.edges_pos hr0
      rw [net_eq_wsum hW v, netW_of_shape hp.shape_eq v, wsum_congr hed,
        net_augment hG hpath r v, ← net_eq_wsum hG v, h.balance v]
      ring
    · have hr1 : r = 0 := by
        rcases hp.ret_zero hr0 with h0 | ⟨h1, _⟩
        · exact h0
        · exact absurd h1 hst
      have hed := hp.edges_zero hr0
      rw [netOut_congr hed, netIn_congr hed, h.balance v, hr1, add_zero]
  have hbase : NetInv n es s t { H' with maxFlow := H'.maxFlow + r } := by
    refine ⟨hp.shape_eq.trans h.shape_eq, fun i => ?_, fun j => ?_, fun v => ?_⟩
    · exact (dfs_pairCap hG hd i).trans (h.pair i)
    · exact dfs_capsNonneg hG h.nonneg hd j
    · have e1 : netOut ({ H' with maxFlow := H'.maxFlow + r } : graph R) v = netOut H' v :=
        netOut_congr rfl v
      have e2 : netIn ({ H' with maxFlow := H'.maxFlow + r } : graph R) v = netIn H' v :=
        netIn_congr rfl v
      rw [e1, e2, hbal v]
      show _ = _ * (H'.maxFlow + r)
      rw [hp.maxFlow_eq]
  refine ⟨hbase, fun hr1 => ?_⟩
  refine hbase.frame (shape_maxFlow H' _).symm rfl ?_
  show H'.maxFlow = H'.maxFlow + r
  rw [hr1, add_zero]

theorem NetInv.ok {n : Nat} {es : List (Nat × Nat × R)} {s t : Nat} (hst : s ≠ t)
    {H : graph R} (h : NetInv n es s t H) : NetFlowOk es s t H := by
  refine ⟨fun k _ => h.nonneg (2 * k + 1), fun k hk => ?_, fun v hs ht => ?_, ?_⟩
  · have hpair := h.pair (2 * k)
    have hx : (2 * k) ^^^ 1 = 2 * k + 1 := by rw [xor_one_eq, if_pos (by omega)]
    unfold pairCap at hpair
    rw [hx] at hpair
    have h0 := netFlow_built n es k
    unfold netFlow at h0 ⊢
    rw [h0, getEdge_buildGraph n es (2 * k) (by omega), if_pos (by omega), add_zero] at hpair
    have hk2 : 2 * k / 2 = k := by omega
    rw [hk2] at hpair
    have hnn := h.nonneg (2 * k)
    have hpair' : (getEdge H (2 * k)).cap + (getEdge H (2 * k + 1)).cap =
        (es.getD k (0, 0, 0)).2.2 := hpair
    rw [← hpair']
    exact le_add_of_nonneg_left hnn
  · have := h.balance v
    rw [if_neg hs, if_neg ht, sub_zero, zero_mul] at this
    exact (sub_eq_zero.mp this).symm
  · have := h.balance s
    rw [if_pos rfl, if_neg hst, sub_zero, one_mul] at this
    exact this

/-- C22, amended: in exact integer or rational arithmetic, where no sum or difference
is rounded, on a network built from in-range triples with capacities `>= 0`, with the
source in range and different from the sink, take as net flow of the original edge
`2 * k` the capacity of its residual partner `2 * k + 1`. Right after construction,
after every call of `dfs` in a run of `dinic` once the returned amount is added to
`maxFlow` (the states listed by `dinicStates`, which runs as `dinic` does), and in
the state that `dinic` returns, the net flow of each original edge lies between 0
and the capacity given by the user, at every node other than source and sink the
net flow that enters equals the net flow that leaves, and at the source the net
flow that leaves minus the net flow that enters is `maxFlow`; and the run returns. -/
theorem net_flow_in_residuals [Archimedean R] (n : Nat) (es : List (Nat × Nat × R))
    (s t : Nat) (hr : inRange n es) (hc : nonnegCaps es) (hs : s < n) (hst : s ≠ t) :
    NetFlowOk es s t (buildGraph (newGraph n) es) ∧
    (∀ fuel, (dinicStates fuel (buildGraph (newGraph n) es) s t).map Prod.snd =
      dinic fuel (buildGraph (newGraph n) es) s t) ∧
    (∃ fuel x, dinicStates fuel (buildGraph (newGraph n) es) s t = some x) ∧
    ∀ fuel L G', dinicStates fuel (buildGraph (newGraph n) es) s t = some (L, G') →
      (∀ H ∈ L, NetFlowOk es s t H) ∧ NetFlowOk es s t G' := by
  refine ⟨(NetInv.built n hc s t).ok hst, fun fuel => dinicStates_snd fuel _ s t 0, ?_, ?_⟩
  · obtain ⟨fuel, x, hx⟩ := dinicLoop_total hst n _ 0 (LoopInv_built hr hs hst)
      (capsNonneg_built n hc) (by simp)
    have h := dinicStates_snd fuel (buildGraph (newGraph n) es) s t 0
    rw [hx] at h
    cases hds : dinicStates fuel (buildGraph (newGraph n) es) s t with
    | none => rw [hds] at h; simp at h
    | some y => exact ⟨fuel, y, hds⟩
  · intro fuel L G' h
    obtain ⟨h1, h2⟩ := dinicStates_invariant (NetInv n es s t) s t
      (fun _ _ _ _ hH hb => hH.frame (bfs_frame hb).1 (bfs_frame hb).2.1 (bfs_frame hb).2.2.1)
      (fun _ _ _ _ hH hd => ⟨fun _ => (hH.push hr hst hd).1, (hH.push hr hst hd).2⟩)
      (fun H hH => hH.frame (shape_loopReset H) (edges_loopReset H) (maxFlow_loopReset H))
      fuel _ L G' (NetInv.built n hc s t) h
    exact ⟨fun H hH => (h1 H hH).ok hst, h2.ok hst⟩

/-- C22, amended, on the network `cancelNet` with source 0 and sink 3, where the second phase
cancels the unit on the edge `1 -> 2`: the run has four calls of `dfs`; after them
`maxFlow` is 1, 1, 2, 2, equal to the net flow that leaves node 0, and one unit enters
and one unit leaves node 2; at the end the net flow of the edge `1 -> 2` is 0. -/
theorem net_flow_in_residuals_witness :
    (inRange 6 cancelNet ∧ nonnegCaps cancelNet ∧ 0 < 6 ∧ 0 ≠ 3) ∧
    (dinicStates 20 (buildGraph (newGraph 6) cancelNet) 0 3).map
      (fun x => x.1.map fun H => (H.maxFlow, netOut H 0 - netIn H 0, netIn H 2, netOut H 2)) =
        some [(1, 1, 1, 1), (1, 1, 1, 1), (2, 2, 1, 1), (2, 2, 1, 1)] ∧
    (dinicStates 20 (buildGraph (newGraph 6) cancelNet) 0 3).map
      (fun x => (List.range 7).map fun k => netFlow x.2 (2 * k)) = some [1, 0, 1, 1, 1, 1, 1] ∧
    (NetFlowOk cancelNet 0 3 (buildGraph (newGraph 6) cancelNet) ∧
    (∀ fuel, (dinicStates fuel (buildGraph (newGraph 6) cancelNet) 0 3).map Prod.snd =
      dinic fuel (buildGraph (newGraph 6) cancelNet) 0 3) ∧
    (∃ fuel x, dinicStates fuel (buildGraph (newGraph 6) cancelNet) 0 3 = some x) ∧
    ∀ fuel L G', dinicStates fuel (buildGraph (newGraph 6) cancelNet) 0 3 = some (L, G') →
      (∀ H ∈ L, NetFlowOk cancelNet 0 3 H) ∧ NetFlowOk cancelNet 0 3 G') :=
  ⟨by decide, by decide, by decide,
    net_flow_in_residuals 6 cancelNet 0 3 (by decide) (by decide) (by decide) (by decide)⟩

/-! ## The arithmetic of `double` -/

/-! ### Without rounding the functions are the exact ones -/

theorem pushFlowD_id (G : graph R) (eId : Nat) (bneck : R) :
    pushFlowD id G eId bneck = pushFlow G eId bneck := rfl

theorem dfsLoopD_id (call call' : graph R → Nat → R → Option (R × graph R))
    (h : ∀ G a f, call G a f = call' G a f) (s : Nat) (flow : R) :
    ∀ (k i : Nat) (G : graph R), dfsLoopD id call s flow k i G = dfsLoop call' s flow k i G := by
  intro k
  induction k with
  | zero => intro i G; rfl
  | succ k ih =>
    intro i G
    simp only [dfsLoopD, dfsLoop, h, ih, pushFlowD_id] <;> rfl

theorem dfsD_id : ∀ (fuel : Nat) (G : graph R) (s t : Nat) (flow : R),
    dfsD id fuel G s t flow = dfs fuel G s t flow := by
  intro fuel
  induction fuel with
  | zero => intro G s t flow; rfl
  | succ fuel ih =>
    intro G s t flow
    simp only [dfsD, dfs]
    split
    · rfl
    · exact dfsLoopD_id _ _ (fun G1 a f => ih G1 a t f) s flow _ _ G

theorem drainD_id : ∀ (fuel : Nat) (G : graph R) (s t : Nat),
    drainD id fuel G s t = drain fuel G s t := by
  intro fuel
  induction fuel with
  | zero => intro G s t; rfl
  | succ fuel ih =>
    intro G s t
    simp only [drainD, drain, dfsD_id, ih, id] <;> rfl

theorem dinicLoopD_id : ∀ (fuel : Nat) (G : graph R) (s t k : Nat),
    dinicLoopD id fuel G s t k = dinicLoop fuel G s t k := by
  intro fuel
  induction fuel with
  | zero => intro G s t k; rfl
  | succ fuel ih =>
    intro G s t k
    simp only [dinicLoopD, dinicLoop, drainD_id, ih] <;> rfl

/-- With no rounding, `dinicD` is `dinic`. -/
theorem dinicD_id (fuel : Nat) (G : graph R) (s t : Nat) :
    dinicD id fuel G s t = dinic fuel G s t := by
  simp only [dinicD, dinic, dinicLoopD_id]

/-- The rounding to `double` at the integers used below: exact up to `2 ^ 53` and at
even integers just above, to the even neighbour at the odd ones. -/
theorem roundDouble_values :
    roundDouble 9007199254740992 = 9007199254740992 ∧
    roundDouble 9007199254740993 = 9007199254740992 ∧
    roundDouble 9007199254740994 = 9007199254740994 ∧
    roundDouble 9007199254740995 = 9007199254740996 ∧
    roundDouble 9007199254740998 = 9007199254740998 ∧
    roundDouble 9007199254740999 = 9007199254741000 ∧
    roundDouble 3 = 3 ∧ roundDouble (-9007199254740993) = -9007199254740992 := by
  decide

/-- C4 fails in `double` arithmetic on the input `3 0 2`, `0 1 9007199254740994`,
`1 2 1`: the pair of edge 0 starts with the sum `2 ^ 53 + 2`; the call of `dfs` of the
first phase returns 1 and stores `2 ^ 53` in edge 0 and 1 in its partner, so the sum
is `2 ^ 53 + 1` after that call and when `dinic` returns. -/
theorem pair_sum_changes_in_double :
    (inRange 3 roundNet ∧ nonnegCaps roundNet ∧
      ∀ e ∈ roundNet, roundDouble e.2.2 = e.2.2) ∧
    pairCap (buildGraph (newGraph 3) roundNet) 0 = 9007199254740994 ∧
    (dfsD roundDouble 10 (leveled 10 (buildGraph (newGraph 3) roundNet) 0 2) 0 2 INF).map
      (fun x => (x.1, (getEdge x.2 0).cap, (getEdge x.2 1).cap, pairCap x.2 0)) =
        some (1, 9007199254740992, 1, 9007199254740993) ∧
    (dinicD roundDouble 20 (buildGraph (newGraph 3) roundNet) 0 2).map
      (fun G => (G.maxFlow, pairCap G 0)) = some (1, 9007199254740993) ∧
    ¬ (dinicD roundDouble 20 (buildGraph (newGraph 3) roundNet) 0 2).map
      (fun G => pairCap G 0) = some (pairCap (buildGraph (newGraph 3) roundNet) 0) := by
  decide

/-- C20 fails in `double` arithmetic on the input `3 0 2`, `0 1 9007199254740994`,
`1 2 1`: after `bfs`, the call `dfs(G, 0, 2, INF)` returns `r = 1` along the path of
the edges 0 and 2, and the capacity of edge 0 goes from `2 ^ 53 + 2` to `2 ^ 53`: it
has lost 2, not `r`. -/
theorem path_edge_loses_more_than_pushed :
    (inRange 3 roundNet ∧ nonnegCaps roundNet ∧ (0 : Int) ≤ INF) ∧
    (getEdge (leveled 10 (buildGraph (newGraph 3) roundNet) 0 2) 0).cap = 9007199254740994 ∧
    (dfsD roundDouble 10 (leveled 10 (buildGraph (newGraph 3) roundNet) 0 2) 0 2 INF).map
      (fun x => (x.1, (getEdge x.2 0).cap, (getEdge x.2 0).flow, (getEdge x.2 2).cap,
        (getEdge x.2 2).flow)) = some (1, 9007199254740992, 1, 0, 1) ∧
    ¬ (dfsD roundDouble 10 (leveled 10 (buildGraph (newGraph 3) roundNet) 0 2) 0 2 INF).map
      (fun x => (getEdge x.2 0).cap) =
        (dfsD roundDouble 10 (leveled 10 (buildGraph (newGraph 3) roundNet) 0 2) 0 2 INF).map
          (fun x => (getEdge (leveled 10 (buildGraph (newGraph 3) roundNet) 0 2) 0).cap - x.1) := by
  decide

/-- C22 fails in `double` arithmetic on the input `3 0 2`, `0 1 9007199254740998`,
`1 2 9007199254740992`, `1 2 3`, `1 2 3`: the three calls of `dfs` that push return
`2 ^ 53`, 3 and 3, and the capacity of the residual partner of edge 0 goes
`2 ^ 53`, `2 ^ 53 + 4`, `2 ^ 53 + 8`; when `dinic` returns, the net flow of edge 0 is
`2 ^ 53 + 8`, above the capacity `2 ^ 53 + 6` given by the user, and at node 1 the net
flow that enters is `2 ^ 53 + 8` while the net flow that leaves is `2 ^ 53 + 6`. -/
theorem net_flow_exceeds_capacity_in_double :
    (inRange 3 overshootNet ∧ nonnegCaps overshootNet ∧ 0 < 3 ∧ 0 ≠ 2 ∧
      ∀ e ∈ overshootNet, roundDouble e.2.2 = e.2.2) ∧
    (dinicD roundDouble 20 (buildGraph (newGraph 3) overshootNet) 0 2).map
      (fun G => (G.maxFlow, netFlow G 0, netIn G 1, netOut G 1)) =
        some (9007199254741000, 9007199254741000, 9007199254741000, 9007199254740998) ∧
    ¬ (dinicD roundDouble 20 (buildGraph (newGraph 3) overshootNet) 0 2).map
      (fun G => decide (netFlow G 0 ≤ (overshootNet.getD 0 (0, 0, 0)).2.2)) = some true ∧
    ¬ (dinicD roundDouble 20 (buildGraph (newGraph 3) overshootNet) 0 2).map
      (fun G => decide (netIn G 1 = netOut G 1)) = some true := by
  decide

end

end MaxFlow
